import Mathlib

/-!
Verification development for a DOCX translation pipeline.

The program splits a Word document's XML into paragraphs (`chunkParagraphs`),
replaces formatting runs by `[RUN:n]...[/RUN:n]` / `[TAG:n]` markers
(`replaceTagsWithIds`), sends the marker text through a translation backend in
batches with bounded concurrency and a retry loop (`translateChunksInParallel`),
and finally restores the original XML around the translated text
(`reconstructXml`), validating tag nesting before writing (`validateXml`,
`translateDocx`).

Strings are modelled as `List Char`.  The JavaScript regular-expression scans
are modelled by explicit scanners that mirror the engine's leftmost-match /
lazy-quantifier behaviour; `String.prototype.replace` with a *string*
replacement is modelled including its `$`-substitution semantics
(`$$`, `$&`, backtick, quote).  All definitions are structural (fuel where
needed), hence kernel-computable.
-/

set_option maxHeartbeats 1000000

namespace DocxTr

/-- Strings as character lists. -/
abbrev Str := List Char

/-- Convert a Lean string literal to the character-list representation. -/
def str (s : String) : Str := s.toList

/-- JavaScript whitespace: the full `\s` class, which is also the set
stripped by `String.prototype.trim` (WhiteSpace and LineTerminator): space,
tab, LF, VT, FF, CR, NBSP, U+1680, U+2000-U+200A, U+2028 LINE SEPARATOR,
U+2029 PARAGRAPH SEPARATOR, U+202F, U+205F, U+3000, U+FEFF. -/
def jsWs (c : Char) : Bool :=
  c = ' ' || c = '\t' || c = '\n' || c = '\r' || c = '\x0b' || c = '\x0c' ||
    c = Char.ofNat 0xa0 || c = Char.ofNat 0x1680 ||
    (0x2000 ≤ c.toNat && c.toNat ≤ 0x200a) ||
    c = Char.ofNat 0x2028 || c = Char.ofNat 0x2029 || c = Char.ofNat 0x202f ||
    c = Char.ofNat 0x205f || c = Char.ofNat 0x3000 || c = Char.ofNat 0xfeff

/-- JavaScript `String.prototype.trim`. -/
def jsTrim (s : Str) : Str :=
  ((s.dropWhile jsWs).reverse.dropWhile jsWs).reverse

/-- JS regex `\w` character class. -/
def isWordChar (c : Char) : Bool := c.isAlphanum || c = '_'

/-- Decimal digits of a natural number (helper with fuel). -/
def natDigitsF : Nat → Nat → Str
  | 0, _ => []
  | fuel + 1, n =>
    if n < 10 then [Char.ofNat (48 + n)]
    else natDigitsF fuel (n / 10) ++ [Char.ofNat (48 + n % 10)]

/-- Decimal representation of a natural number. -/
def natDigits (n : Nat) : Str := natDigitsF (n + 1) n

/-- `parseInt` on an all-digit string. -/
def digitsToNat (s : Str) : Nat :=
  s.foldl (fun a c => a * 10 + (c.toNat - 48)) 0

/-- Is `p` a prefix of `s`? -/
def isPre : Str → Str → Bool
  | [], _ => true
  | _ :: _, [] => false
  | a :: as, c :: cs => a = c && isPre as cs

/-- Index of the first occurrence of `pat` in `s` (JS `indexOf` when some). -/
def firstOcc (pat : Str) : Str → Option Nat
  | [] => if pat = [] then some 0 else none
  | c :: cs => if isPre pat (c :: cs) then some 0 else (firstOcc pat cs).map (· + 1)

/-- Leftmost position at which the matcher `m` succeeds on the corresponding
suffix, together with the payload and match length it returns there.  This is
the regex engine's leftmost-match rule. -/
def scanFirst (m : Str → Option (α × Nat)) : Str → Option (Nat × α × Nat)
  | [] => (m []).map (fun pr => (0, pr))
  | c :: cs =>
    match m (c :: cs) with
    | some pr => some (0, pr)
    | none => (scanFirst m cs).map (fun r => (r.1 + 1, r.2))

/-- Repeated global scan (JS `regex.exec` loop with the `g` flag): returns the
list of (gap before match, payload, matched substring) and the trailing gap.
`fuel ≥ s.length` suffices whenever `m` only matches with positive length. -/
def scanAllF (m : Str → Option (α × Nat)) : Nat → Str → List (Str × α × Str) × Str
  | 0, s => ([], s)
  | fuel + 1, s =>
    match scanFirst m s with
    | none => ([], s)
    | some (i, a, len) =>
      let rest := s.drop (i + len)
      let (ts, fin) := scanAllF m fuel rest
      ((s.take i, a, (s.drop i).take len) :: ts, fin)

/-- Rebuild a string from a global scan, applying `f payload matched` in place
of every match (JS `String.replace(regex, callback)` with the `g` flag). -/
def rebuild (f : α → Str → Str) : List (Str × α × Str) × Str → Str
  | (ts, fin) => (ts.map (fun t => t.1 ++ f t.2.1 t.2.2)).flatten ++ fin

/-! ## `String.prototype.replace` with a string pattern and string replacement

JavaScript processes `$`-sequences in the replacement string: `$$` is a literal
dollar, `$&` the matched substring, `` $` `` the portion before the match and
`$'` the portion after it.  (`$<name>` and `$1`… do not apply to string
patterns, which have no capture groups.) -/

/-- `$`-substitution in a replacement string. -/
def dollarSubst (matched before after : Str) : Str → Str
  | [] => []
  | c :: r =>
    if c = '$' then
      match r with
      | [] => [c]
      | d :: r2 =>
        if d = '$' then '$' :: dollarSubst matched before after r2
        else if d = '&' then matched ++ dollarSubst matched before after r2
        else if d = Char.ofNat 96 then before ++ dollarSubst matched before after r2
        else if d = Char.ofNat 39 then after ++ dollarSubst matched before after r2
        else c :: d :: dollarSubst matched before after r2
    else c :: dollarSubst matched before after r

/-- JS `s.replace(pat, repl)` with string `pat` and string `repl`: replaces the
first occurrence only, applying `$`-substitution to `repl`. -/
def jsReplaceOnceStr (s pat repl : Str) : Str :=
  match firstOcc pat s with
  | none => s
  | some i =>
    s.take i ++ dollarSubst pat (s.take i) (s.drop (i + pat.length)) repl
      ++ s.drop (i + pat.length)

/-! ## xml-chunker.ts: data model -/

/-- `ParagraphChunk` from xml-chunker.ts. -/
structure ParagraphChunk where
  index : Nat
  simplifiedText : Str
  hasText : Bool
deriving DecidableEq, Repr

/-- A value of the ID→fragment map.  The source stores plain strings: opaque
XML fragments are stored raw, while text-run wrappers are stored as
`JSON.stringify({before, after, tTemplate})`.  `reconstructXml` recovers the
record with `JSON.parse` inside `try/catch`.  The embedding keeps the two
shapes as constructors; `fragStored` gives the stored string, and the
`JSON.parse` in the restore step is modelled by matching on the constructor
(a raw XML fragment is not valid JSON, so parsing it throws). -/
inductive StoredFrag where
  | raw (s : Str)
  | runTemplate (before after tTemplate : Str)
deriving DecidableEq, Repr

/-- JSON string-literal escaping (for `fragStored`). -/
def jsonEscChar (c : Char) : Str :=
  if c = '"' then ['\\', '"']
  else if c = '\\' then ['\\', '\\']
  else if c = '\n' then ['\\', 'n']
  else if c = '\r' then ['\\', 'r']
  else if c = '\t' then ['\\', 't']
  else [c]

/-- JSON encoding of a string. -/
def jsonStr (s : Str) : Str := '"' :: s.flatMap jsonEscChar ++ ['"']

/-- The string actually stored in the `Map` for a fragment. -/
def fragStored : StoredFrag → Str
  | .raw s => s
  | .runTemplate b a t =>
    str "\x7b\"before\":" ++ jsonStr b ++ str ",\"after\":" ++ jsonStr a
      ++ str ",\"tTemplate\":" ++ jsonStr t ++ str "\x7d"

/-- The ID→fragment map (`Map<number, string>` in the source), as an
association list in insertion order. -/
abbrev IdTagMap := List (Nat × StoredFrag)

/-- `Map.get`. -/
def mapGet (m : IdTagMap) (k : Nat) : Option StoredFrag :=
  (m.find? (fun e => e.1 == k)).map (·.2)

/-! ## xml-chunker.ts: escapeXml (lines 227-234) -/

/-- One global single-character replace (`s.replace(/c/g, r)`; `r` contains no
`$`, so the replacement is literal). -/
def replaceChar (c : Char) (r : Str) (s : Str) : Str :=
  s.flatMap (fun a => if a = c then r else [a])

/-- `escapeXml`: the five chained global replaces, in source order. -/
def escapeXml (s : Str) : Str :=
  replaceChar (Char.ofNat 39) (str "&apos;")
    (replaceChar '"' (str "&quot;")
      (replaceChar '>' (str "&gt;")
        (replaceChar '<' (str "&lt;")
          (replaceChar '&' (str "&amp;") s))))

/-! ## xml-chunker.ts: paragraph / text / run matchers -/

/-- Character class `[\s>]`. -/
def wsOrGt (c : Char) : Bool := jsWs c || c = '>'

/-- Match of `/<w:p[\s>][\s\S]*?<\/w:p>/` anchored at the start of `s`:
`<w:p`, one whitespace-or-`>` character, then lazily up to the first
`</w:p>`. -/
def paraMatchAt (s : Str) : Option (Unit × Nat) :=
  if isPre (str "<w:p") s then
    match s.drop 4 with
    | [] => none
    | c :: rest =>
      if wsOrGt c then
        match firstOcc (str "</w:p>") rest with
        | some j => some ((), 4 + 1 + j + 6)
        | none => none
      else none
  else none

/-- Paragraph scan of a whole document (the shared enumeration behind both
`chunkParagraphs` and the paragraph `replace` in `reconstructXml`). -/
def paraSplit (s : Str) : List (Str × Unit × Str) × Str :=
  scanAllF paraMatchAt (s.length + 1) s

/-- `chunkParagraphs` (xml-chunker.ts lines 31-41). -/
def chunkParagraphs (s : Str) : List Str :=
  (paraSplit s).1.map (fun t => t.2.2)

/-- Match of `/<w:t(?:\s[^>]*)?>([^<]*)<\/w:t>/` anchored at the start of `s`.
Payload: the captured text.  The optional attribute group requires a leading
whitespace character and runs to the first `>`. -/
def wtMatchAt (s : Str) : Option (Str × Nat) :=
  if isPre (str "<w:t") s then
    match s.drop 4 with
    | [] => none
    | c :: rest =>
      let openLen? : Option Nat :=
        if jsWs c then
          match firstOcc (str ">") rest with
          | some j => some (4 + 1 + j + 1)
          | none => none
        else if c = '>' then some 5
        else none
      match openLen? with
      | none => none
      | some ol =>
        let t := s.drop ol
        let txt := t.takeWhile (fun a => a ≠ '<')
        if isPre (str "</w:t>") (t.drop txt.length) then some (txt, ol + txt.length + 6)
        else none
  else none

/-- `extractTextContent` (xml-chunker.ts lines 145-155): concatenation of all
`<w:t>` text contents. -/
def extractTextContent (para : Str) : Str :=
  ((scanAllF wtMatchAt (para.length + 1) para).1.map (fun t => t.2.1)).flatten

/-- Match of `/<w:r\b[^>]*>([\s\S]*?)<\/w:r>/` anchored at the start of `s`.
Payload: the run's inner content (capture group 1).  `\b` after `<w:r`
requires the next character to be a non-word character. -/
def runMatchAt (s : Str) : Option (Str × Nat) :=
  if isPre (str "<w:r") s then
    match s.drop 4 with
    | [] => none
    | c :: rest =>
      if isWordChar c then none
      else
        match firstOcc (str ">") (c :: rest) with
        | none => none
        | some k =>
          let ol := 4 + k + 1
          match firstOcc (str "</w:r>") (s.drop ol) with
          | some j => some ((s.drop ol).take j, ol + j + 6)
          | none => none
  else none

/-- Run scan of one paragraph: (content before the run, run inner, full run
string) for every run, plus the trailing content. -/
def runSplit (para : Str) : List (Str × Str × Str) × Str :=
  scanAllF runMatchAt (para.length + 1) para

/-! ## xml-chunker.ts: replaceTagsWithIds (lines 53-140) -/

/-- The `{{TEXT}}` placeholder. -/
def placeholder : Str := str "\x7b\x7bTEXT\x7d\x7d"

/-- Marker builders. -/
def tagMarker (id : Nat) : Str := str "[TAG:" ++ natDigits id ++ str "]"

/-- Paired run marker around the run's literal text. -/
def runMarker (id : Nat) (txt : Str) : Str :=
  str "[RUN:" ++ natDigits id ++ str "]" ++ txt ++ str "[/RUN:" ++ natDigits id ++ str "]"

/-- Process one matched run (lines 90-121): if it contains a `<w:t>` element,
store a text-run template and emit a paired marker; otherwise store the raw
run and emit an unpaired marker.  Returns (emitted text, new map entries,
next free ID). -/
def processRun (nextId : Nat) (inner full : Str) : Str × List (Nat × StoredFrag) × Nat :=
  match scanFirst wtMatchAt inner with
  | some (i, txt, len) =>
    let tFull := (inner.drop i).take len
    -- beforeText / afterText via runMatch[0].indexOf(textMatch[0])
    let idx := (firstOcc tFull full).getD 0
    let beforeText := full.take idx
    let afterText := full.drop (idx + tFull.length)
    -- closingBracket := tFull.indexOf(">") + 1  (-1 + 1 = 0 when absent)
    let cb := match firstOcc (str ">") tFull with | some b => b + 1 | none => 0
    -- textStart := tFull.indexOf(text, closingBracket); the text always occurs
    -- at `cb` for an actual match, so the not-found default is unreachable
    let textStart := match firstOcc txt (tFull.drop cb) with | some u => cb + u | none => cb
    let tTemplate := tFull.take textStart ++ placeholder ++ tFull.drop (textStart + txt.length)
    (runMarker nextId txt, [(nextId, .runTemplate beforeText afterText tTemplate)], nextId + 1)
  | none =>
    (tagMarker nextId, [(nextId, .raw full)], nextId + 1)

/-- Fold over the run scan of one paragraph (lines 79-134): between-run
content becomes an unpaired marker when non-blank, each run is processed, and
non-blank trailing content becomes a final unpaired marker. -/
def processPieces (nextId : Nat) : List (Str × Str × Str) → Str → Str × List (Nat × StoredFrag) × Nat
  | [], trailing =>
    if jsTrim trailing = [] then ([], [], nextId)
    else (tagMarker nextId, [(nextId, .raw trailing)], nextId + 1)
  | (between, inner, full) :: rest, trailing =>
    let s1e1n1 :=
      if jsTrim between = [] then (([] : Str), ([] : List (Nat × StoredFrag)), nextId)
      else (tagMarker nextId, [(nextId, StoredFrag.raw between)], nextId + 1)
    let pr := processRun s1e1n1.2.2 inner full
    let pp := processPieces pr.2.2 rest trailing
    (s1e1n1.1 ++ pr.1 ++ pp.1, s1e1n1.2.1 ++ pr.2.1 ++ pp.2.1, pp.2.2)

/-- Simplify one paragraph with text (lines 71-134). -/
def processPara (nextId : Nat) (para : Str) : Str × List (Nat × StoredFrag) × Nat :=
  processPieces nextId (runSplit para).1 (runSplit para).2

/-- Recursion of `replaceTagsWithIds` over the paragraph list, threading the
paragraph index and the next free ID. -/
def rtwiGo (i nextId : Nat) : List Str → List ParagraphChunk × IdTagMap
  | [] => ([], [])
  | p :: rest =>
    if jsTrim (extractTextContent p) = [] then
      let pr := rtwiGo (i + 1) nextId rest
      ({ index := i, simplifiedText := [], hasText := false } :: pr.1, pr.2)
    else
      let pp := processPara nextId p
      let pr := rtwiGo (i + 1) pp.2.2 rest
      ({ index := i, simplifiedText := pp.1, hasText := true } :: pr.1, pp.2.1 ++ pr.2)

/-- `replaceTagsWithIds` (lines 53-140): IDs start at 1. -/
def replaceTagsWithIds (paras : List Str) : List ParagraphChunk × IdTagMap :=
  rtwiGo 0 1 paras

/-! ## xml-chunker.ts: restoreParagraphXml / reconstructXml (lines 161-222) -/

/-- Match of `/\[RUN:(\d+)\]([\s\S]*?)\[\/RUN:\1\]/` anchored at the start of
`s`.  Payload: (digit string, enclosed content).  The lazy group runs to the
first occurrence of the back-referenced closer. -/
def runMarkAt (s : Str) : Option ((Str × Str) × Nat) :=
  if isPre (str "[RUN:") s then
    let t := s.drop 5
    let ds := t.takeWhile Char.isDigit
    if ds = [] then none
    else
      let t2 := t.drop ds.length
      if isPre (str "]") t2 then
        let body := t2.drop 1
        let closer := str "[/RUN:" ++ ds ++ str "]"
        match firstOcc closer body with
        | some j => some ((ds, body.take j), 5 + ds.length + 1 + j + closer.length)
        | none => none
      else none
  else none

/-- Match of `/\[TAG:(\d+)\]/` anchored at the start of `s`. -/
def tagMarkAt (s : Str) : Option (Str × Nat) :=
  if isPre (str "[TAG:") s then
    let t := s.drop 5
    let ds := t.takeWhile Char.isDigit
    if ds = [] then none
    else if isPre (str "]") (t.drop ds.length) then some (ds, 5 + ds.length + 1)
    else none
  else none

/-- Replacement callback for a paired marker (lines 201-213).  A missing entry
(`!stored`) and a stored string that fails `JSON.parse` (any raw fragment)
both fall back to the translated text; a parsed template is filled via
`tTemplate.replace("{{TEXT}}", escapeXml(text))` — a string-pattern,
string-replacement `replace`, hence with `$`-substitution. -/
def runMarkRepl (m : IdTagMap) (p : Str × Str) (_matched : Str) : Str :=
  let content := p.2
  match mapGet m (digitsToNat p.1) with
  | none => content
  | some (.raw _) => content
  | some (.runTemplate b a t) => b ++ jsReplaceOnceStr t placeholder (escapeXml content) ++ a

/-- Replacement callback for an unpaired marker (lines 216-219):
`idTagMap.get(id) ?? ""`. -/
def tagMarkRepl (m : IdTagMap) (ds : Str) (_matched : Str) : Str :=
  match mapGet m (digitsToNat ds) with
  | none => []
  | some f => fragStored f

/-- `restoreParagraphXml` (lines 197-222): restore paired markers, then
unpaired markers. -/
def restoreParagraphXml (simplified : Str) (m : IdTagMap) : Str :=
  let pass1 := rebuild (runMarkRepl m) (scanAllF runMarkAt (simplified.length + 1) simplified)
  rebuild (tagMarkRepl m) (scanAllF tagMarkAt (pass1.length + 1) pass1)

/-- The `translatedByIndex` map (lines 167-172): for a `Map`, the last
`hasText` chunk with a given index wins. -/
def translatedByIndex (cs : List ParagraphChunk) (k : Nat) : Option Str :=
  ((cs.filter (·.hasText)).reverse.find? (fun c => c.index == k)).map (·.simplifiedText)

/-- Replace the `k`-th, `k+1`-th, … paragraph matches (lines 175-188). -/
def rebuildParas (tcs : List ParagraphChunk) (m : IdTagMap) : Nat → List (Str × Unit × Str) → Str
  | _, [] => []
  | k, (gap, _, para) :: rest =>
    gap ++
      (match translatedByIndex tcs k with
       | some t => restoreParagraphXml t m
       | none => para) ++
      rebuildParas tcs m (k + 1) rest

/-- `reconstructXml` (lines 161-191). -/
def reconstructXml (orig : Str) (tcs : List ParagraphChunk) (m : IdTagMap) : Str :=
  rebuildParas tcs m 0 (paraSplit orig).1 ++ (paraSplit orig).2

/-! ## translator.ts: batched translation with retries

The orchestrator (`translateChunksInParallel`, lines 327-424 of the
translator) is modelled as a deterministic function over an *oracle*
`Nat → Option Str` giving the backend's response text for the n-th
`session.prompt` call (`none` models the call throwing, which the source
catches and treats as the whole batch missing).  Waves dispatch their batches
in program order; since every batch writes only to the result slots of its own
chunks' indices, the outcome is independent of the order in which concurrent
batches actually resolve.  Alongside the result array the model returns the
list of batches dispatched to the backend and the list of progress messages,
so that "no backend call" and "a warning is emitted" are stateable. -/

/-- Result of one `translateBatch` call (lines 228-231). -/
structure BatchResult where
  translated : List ParagraphChunk
  missing : List ParagraphChunk
deriving DecidableEq, Repr

/-- Match of `/<p id="(\d+)">([\s\S]*?)<\/p>/` anchored at the start of `s`.
Payload: (digit string, content). -/
def respMatchAt (s : Str) : Option ((Str × Str) × Nat) :=
  if isPre (str "<p id=\"") s then
    let t := s.drop 7
    let ds := t.takeWhile Char.isDigit
    if ds = [] then none
    else
      let t2 := t.drop ds.length
      if isPre (str "\">") t2 then
        let body := t2.drop 2
        match firstOcc (str "</p>") body with
        | some j => some ((ds, body.take j), 7 + ds.length + 2 + j + 4)
        | none => none
      else none
  else none

/-- All `<p id="n">…</p>` units of a response, in match order. -/
def respMatches (resp : Str) : List (Nat × Str) :=
  (scanAllF respMatchAt (resp.length + 1) resp).1.map (fun t => (digitsToNat t.2.1.1, t.2.1.2))

/-- The response-parsing loop of `translateBatch` (lines 291-310): for each
parsed unit whose id belongs to the batch, push the original chunk with the
trimmed translated text (or the original text when the trimmed text is empty,
since `"" || x` is `x` in JS) and `hasText` forced true; record the id as
found.  Returns (pushed chunks, found ids), both in match order. -/
def parsePush (batch : List ParagraphChunk) : List (Nat × Str) → List ParagraphChunk × List Nat
  | [] => ([], [])
  | (id, content) :: rest =>
    let pr := parsePush batch rest
    match batch.find? (fun c => c.index == id) with
    | some orig =>
      let tt := jsTrim content
      let upd : ParagraphChunk :=
        { orig with
          simplifiedText := if tt = [] then orig.simplifiedText else tt
          hasText := true }
      (upd :: pr.1, id :: pr.2)
    | none => pr

/-- Parse a backend response against a batch (lines 291-320): translated
chunks plus the batch members missing from the response. -/
def translateBatchParse (resp : Str) (batch : List ParagraphChunk) : BatchResult :=
  let pr := parsePush batch (respMatches resp)
  { translated := pr.1, missing := batch.filter (fun c => !(pr.2.contains c.index)) }

/-- `translateBatch` (lines 238-321).  Returns the batch result, the next
oracle call counter, and the dispatched-batch log (empty batches return
immediately without a backend call; a throwing `session.prompt` yields all
chunks missing). -/
def translateBatch (oracle : Nat → Option Str) (ctr : Nat) (batch : List ParagraphChunk) :
    BatchResult × Nat × List (List ParagraphChunk) :=
  if batch = [] then (⟨[], []⟩, ctr, [])
  else
    match oracle ctr with
    | none => (⟨[], batch⟩, ctr + 1, [batch])
    | some resp => (translateBatchParse resp batch, ctr + 1, [batch])

/-- Cancellation is the only error the orchestrator throws. -/
inductive TrErr where
  | cancelled
deriving DecidableEq, Repr

/-- Orchestrator state: the result array (slot `i` is `none` until written,
like the sparse `new Array(n)`), the oracle call counter, the dispatched
batches, and the progress messages. -/
structure OrchSt where
  results : List (Option ParagraphChunk)
  ctr : Nat
  calls : List (List ParagraphChunk)
  progress : List Str
deriving DecidableEq, Repr

/-- `results[chunk.index] = chunk` for a list of chunks (out-of-range writes
cannot occur under the documented `index` invariant). -/
def writeResults (rs : List (Option ParagraphChunk)) (cs : List ParagraphChunk) :
    List (Option ParagraphChunk) :=
  cs.foldl (fun acc c => acc.set c.index (some c)) rs

/-- Dispatch all batches of one wave (`Promise.all`), in program order. -/
def waveResults (oracle : Nat → Option Str) (ctr : Nat) :
    List (List ParagraphChunk) → List BatchResult × Nat × List (List ParagraphChunk)
  | [] => ([], ctr, [])
  | b :: rest =>
    let tb := translateBatch oracle ctr b
    let wr := waveResults oracle tb.2.1 rest
    (tb.1 :: wr.1, wr.2.1, tb.2.2 ++ wr.2.2)

/-- Join a finished wave (lines 362-367): write every translated chunk to its
slot and append the missing chunks to the accumulator. -/
def joinWave (st : OrchSt) (missingAcc : List ParagraphChunk) :
    List BatchResult → OrchSt × List ParagraphChunk
  | [] => (st, missingAcc)
  | br :: rest =>
    joinWave { st with results := writeResults st.results br.translated }
      (missingAcc ++ br.missing) rest

/-- The wave loop (lines 352-368 and 388-404): before each wave, check the
cancellation signal; then dispatch `conc` batches and join.  `fuel ≥` the
number of batches suffices when `0 < conc`.  (With `concurrency = 0` the
source loops forever; the model exits instead, and all theorems assume
`0 < concurrency`.) -/
def waveLoopF (oracle : Nat → Option Str) (conc : Nat) (ab : Bool) :
    Nat → List (List ParagraphChunk) → OrchSt → List ParagraphChunk →
    Except TrErr (OrchSt × List ParagraphChunk)
  | _, [], st, mis => .ok (st, mis)
  | 0, _ :: _, st, mis => if ab then .error .cancelled else .ok (st, mis)
  | fuel + 1, b :: bs, st, mis =>
    if ab then .error .cancelled
    else
      let wave := (b :: bs).take conc
      let wr := waveResults oracle st.ctr wave
      let jw := joinWave { st with ctr := wr.2.1, calls := st.calls ++ wr.2.2 } mis wr.1
      waveLoopF oracle conc ab fuel ((b :: bs).drop conc) jw.1 jw.2

/-- Join a list of id strings with `", "`. -/
def joinComma : List Str → Str
  | [] => []
  | [x] => x
  | x :: y :: rest => x ++ str ", " ++ joinComma (y :: rest)

/-- Progress message at the start of retry pass `attempt` (lines 377-379). -/
def retryMsg (attempt count : Nat) (ids : Str) : Str :=
  str "Retry " ++ natDigits attempt ++ str "/2: " ++ natDigits count
    ++ str " chunks missing (ids: " ++ ids ++ str "), retranslating..."

/-- Warning emitted when retries are exhausted (lines 412-414). -/
def giveUpMsg (count : Nat) (ids : Str) : Str :=
  str "Warning: " ++ natDigits count ++ str " chunks could not be translated after 2 retries (ids: "
    ++ ids ++ str "). Keeping original text."

/-- The retry loop (lines 371-407): up to `MAX_RETRIES = 2` passes; each pass
re-sends every still-missing chunk as its own single-chunk batch through the
wave loop. -/
def retryLoop (oracle : Nat → Option Str) (conc : Nat) (ab : Bool) :
    Nat → Nat → List ParagraphChunk → OrchSt → Except TrErr (OrchSt × List ParagraphChunk)
  | 0, _, missing, st => .ok (st, missing)
  | _ + 1, _, [], st => .ok (st, [])
  | r + 1, attempt, c :: cs, st =>
    if ab then .error .cancelled
    else
      match waveLoopF oracle conc ab (c :: cs).length ((c :: cs).map (fun x => [x]))
        { st with progress := st.progress ++
          [retryMsg attempt (c :: cs).length
            (joinComma ((c :: cs).map (fun x => natDigits x.index)))] } [] with
      | .error e => .error e
      | .ok pr => retryLoop oracle conc ab r (attempt + 1) pr.2 pr.1

/-- Options relevant to control flow (language/model fields only shape the
prompt text, which the oracle abstracts).  `aborted` is the state of the
`AbortSignal`, taken as fixed for a run. -/
structure TrOptions where
  concurrency : Nat
  batchSize : Option Nat
  aborted : Bool
deriving DecidableEq, Repr

/-- Group the translatable chunks into batches of `bs` (lines 344-347).
(With `batchSize = 0` the source loops forever; the model returns no batches,
and all theorems assume a positive effective batch size.) -/
def chunkBatchesF : Nat → Nat → List ParagraphChunk → List (List ParagraphChunk)
  | 0, _, _ => []
  | _ + 1, _, [] => []
  | fuel + 1, bs, c :: cs => (c :: cs).take bs :: chunkBatchesF fuel bs ((c :: cs).drop bs)

/-- Batch grouping. -/
def chunkBatches (bs : Nat) (l : List ParagraphChunk) : List (List ParagraphChunk) :=
  if bs = 0 then [] else chunkBatchesF l.length bs l

/-- Is a chunk translatable (line 335): `c.hasText && c.simplifiedText.trim()`. -/
def translatable (c : ParagraphChunk) : Bool :=
  c.hasText && !(jsTrim c.simplifiedText).isEmpty

/-- `translateChunksInParallel` (lines 327-424). -/
def translateChunksInParallel (oracle : Nat → Option Str) (opts : TrOptions)
    (chunks : List ParagraphChunk) : Except TrErr OrchSt :=
  let bs := opts.batchSize.getD 50
  let toTranslate := chunks.filter translatable
  let passThrough := chunks.filter (fun c => !translatable c)
  let results1 := writeResults (List.replicate chunks.length none) passThrough
  let batches := chunkBatches bs toTranslate
  let st0 : OrchSt := { results := results1, ctr := 0, calls := [], progress := [] }
  match waveLoopF oracle opts.concurrency opts.aborted batches.length batches st0 [] with
  | .error e => .error e
  | .ok pr =>
    match retryLoop oracle opts.concurrency opts.aborted 2 1 pr.2 pr.1 with
    | .error e => .error e
    | .ok pr2 =>
      match pr2.2 with
      | [] => .ok pr2.1
      | _ :: _ =>
        .ok { pr2.1 with
              progress := pr2.1.progress ++ [giveUpMsg pr2.2.length
                (joinComma (pr2.2.map (fun x => natDigits x.index)))],
              results := writeResults pr2.1.results pr2.2 }

/-! ## translate.ts (part_004): validateXml and translateDocx -/

/-- Tail of a tag match after the name: regex `([^>]*?)(\/?)>` — lazily up to
the first `>`, reporting whether it is immediately preceded by `/`. -/
def tagTail : Str → Option (Bool × Nat)
  | [] => none
  | c :: rest =>
    if c = '>' then some (false, 1)
    else if c = '/' then
      match rest with
      | c2 :: _ =>
        if c2 = '>' then some (true, 2)
        else (tagTail rest).map (fun r => (r.1, r.2 + 1))
      | [] => none
    else (tagTail rest).map (fun r => (r.1, r.2 + 1))

/-- Tag name characters `[a-zA-Z0-9:]`. -/
def isNameChar (c : Char) : Bool := c.isAlphanum || c = ':'

/-- Match of `/<(\/?)([a-zA-Z0-9:]+)([^>]*?)(\/?)>/` anchored at the start of
`s`.  Payload: (isClosing, name, isSelfClosing). -/
def xmlTagAt (s : Str) : Option ((Bool × Str × Bool) × Nat) :=
  match s with
  | [] => none
  | c :: rest =>
    if c = '<' then
      let cl : Bool × Str := match rest with
        | c2 :: r2 => if c2 = '/' then (true, r2) else (false, rest)
        | [] => (false, rest)
      let name := cl.2.takeWhile isNameChar
      if name = [] then none
      else
        match tagTail (cl.2.drop name.length) with
        | some (selfC, tl) =>
          some ((cl.1, name, selfC), 1 + (if cl.1 then 1 else 0) + name.length + tl)
        | none => none
    else none

/-- The stack pass of `validateXml` (part_004 lines 101-120); the head of the
list is the top of the stack.  Self-closing tags are skipped; a closing tag
must match the top; leftover open tags fail.  Error details (positions,
context excerpts) are abstracted to `false`. -/
def tagStackRun : List (Bool × Str × Bool) → List Str → Bool
  | [], stack => stack.isEmpty
  | (isC, name, isSelf) :: rest, stack =>
    if isSelf then tagStackRun rest stack
    else if isC then
      match stack with
      | top :: st2 => if top = name then tagStackRun rest st2 else false
      | [] => false
    else tagStackRun rest (name :: stack)

/-- `validateXml` (part_004 lines 96-121): `true` iff no mismatch is found
(the source throws on mismatch). -/
def validateXml (xml : Str) : Bool :=
  tagStackRun ((scanAllF xmlTagAt (xml.length + 1) xml).1.map (fun t => t.2.1)) []

/-- Errors of `translateDocx` relevant to the claims. -/
inductive DocxErr where
  | malformedXml
  | translateFailed
deriving DecidableEq, Repr

/-- `translateDocx` (part_004 lines 141-194) from the point where the
document XML is available, with the translation step abstracted as a function
(the source awaits `translateChunksInParallel` there).  Returns the list of
XML strings passed to `repackDocx` (the write log) together with either an
error or `(output XML, chunksTranslated)`.  On a validation failure the
source throws before `repackDocx`, so nothing is written. -/
def translateDocx (documentXml : Str)
    (translate : List ParagraphChunk → Except TrErr (List ParagraphChunk)) :
    List Str × Except DocxErr (Str × Nat) :=
  let paras := chunkParagraphs documentXml
  let cm := replaceTagsWithIds paras
  if cm.1.isEmpty || !(cm.1.any (·.hasText)) then
    ([documentXml], .ok (documentXml, 0))
  else
    match translate cm.1 with
    | .error _ => ([], .error .translateFailed)
    | .ok tcs =>
      let txml := reconstructXml documentXml tcs cm.2
      if validateXml txml then
        ([txml], .ok (txml, (cm.1.filter (·.hasText)).length))
      else ([], .error .malformedXml)

/-! ## Basic list and prefix lemmas -/

theorem take_app {α : Type} (u v : List α) : (u ++ v).take u.length = u := by
  induction u with
  | nil => rfl
  | cons a as ih => simp [ih]

theorem drop_app {α : Type} (u v : List α) : (u ++ v).drop u.length = v := by
  induction u with
  | nil => rfl
  | cons a as ih => simp [ih]

theorem isPre_append (p t : Str) : isPre p (p ++ t) = true := by
  induction p with
  | nil => rfl
  | cons a as ih => simp [isPre, ih]

theorem isPre_exists {p s : Str} (h : isPre p s = true) : ∃ t, s = p ++ t := by
  induction p generalizing s with
  | nil => exact ⟨s, rfl⟩
  | cons a as ih =>
    cases s with
    | nil => simp [isPre] at h
    | cons c cs =>
      simp only [isPre, Bool.and_eq_true, decide_eq_true_eq] at h
      obtain ⟨t, ht⟩ := ih h.2
      exact ⟨t, by simp [h.1, ht]⟩

theorem isPre_length {p s : Str} (h : isPre p s = true) : p.length ≤ s.length := by
  obtain ⟨t, rfl⟩ := isPre_exists h
  simp

theorem isPre_append_left {p u b : Str} (h : isPre p (u ++ b) = true)
    (hl : p.length ≤ u.length) : isPre p u = true := by
  induction p generalizing u with
  | nil => rfl
  | cons a as ih =>
    cases u with
    | nil => simp at hl
    | cons c cs =>
      simp only [List.cons_append, isPre, Bool.and_eq_true, decide_eq_true_eq] at h ⊢
      exact ⟨h.1, ih h.2 (by simpa using hl)⟩

theorem isPre_append_take {p u b : Str} (h : isPre p (u ++ b) = true)
    (hl : u.length < p.length) : p.take u.length = u := by
  induction u generalizing p with
  | nil => rfl
  | cons c cs ih =>
    cases p with
    | nil => simp at hl
    | cons a as =>
      simp only [List.cons_append, isPre, Bool.and_eq_true, decide_eq_true_eq] at h
      simp only [List.length_cons, List.take_succ_cons, h.1]
      have := ih h.2 (by simpa using hl)
      simp [this]

theorem isPre_take (p : Str) (k : Nat) : isPre (p.take k) p = true := by
  induction p generalizing k with
  | nil => simp [isPre]
  | cons a as ih =>
    cases k with
    | zero => rfl
    | succ j => simp [isPre, ih]

/-! ## firstOcc lemmas -/

theorem firstOcc_of_isPre {p s : Str} (h : isPre p s = true) : firstOcc p s = some 0 := by
  cases s with
  | nil =>
    cases p with
    | nil => rfl
    | cons a as => simp [isPre] at h
  | cons c cs => simp [firstOcc, h]

theorem firstOcc_none_isPre {p a : Str} (h : firstOcc p a = none) (i : Nat) :
    isPre p (a.drop i) = false := by
  induction a generalizing i with
  | nil =>
    cases p with
    | nil => simp [firstOcc] at h
    | cons x xs => simp [isPre]
  | cons c cs ih =>
    by_cases hp : isPre p (c :: cs) = true
    · simp [firstOcc, hp] at h
    · cases i with
      | zero => simpa using (Bool.not_eq_true _).mp hp
      | succ j =>
        rw [firstOcc, if_neg (by simp [hp])] at h
        exact ih (Option.map_eq_none'.mp h) j

/-- `a` has no suffix that is a nonempty proper prefix of `p` (so no occurrence
of `p` can start inside `a` and continue past its end, whatever follows). -/
def noTailOverlap (p : Str) : Str → Bool
  | [] => true
  | c :: cs =>
    (!(isPre (c :: cs) p && decide ((c :: cs).length < p.length))) && noTailOverlap p cs

theorem noTailOverlap_drop {p a : Str} (h : noTailOverlap p a = true) (i : Nat) :
    noTailOverlap p (a.drop i) = true := by
  induction a generalizing i with
  | nil => simpa using h
  | cons c cs ih =>
    cases i with
    | zero => exact h
    | succ j =>
      simp only [noTailOverlap, Bool.and_eq_true] at h
      exact ih h.2 j

theorem noTailOverlap_spec {p a : Str} (h : noTailOverlap p a = true) {i : Nat}
    (hi : i < a.length) (hpre : isPre (a.drop i) p = true) :
    ¬ (a.drop i).length < p.length := by
  have h2 := noTailOverlap_drop h i
  cases hd : a.drop i with
  | nil =>
    have : (a.drop i).length = a.length - i := List.length_drop _ _
    rw [hd] at this
    simp at this
    omega
  | cons c cs =>
    rw [hd] at h2 hpre
    simp only [noTailOverlap, Bool.and_eq_true, Bool.not_eq_true',
      Bool.and_eq_false_iff] at h2
    rcases h2.1 with hbad | hbad
    · rw [hpre] at hbad; simp at hbad
    · intro hlen
      rw [← hd] at hbad hlen
      simp only [decide_eq_false_iff_not] at hbad
      omega

theorem not_isPre_drop_append {p a b : Str} (hp : p ≠ [])
    (hA : firstOcc p a = none) (hT : noTailOverlap p a = true)
    {i : Nat} (hi : i < a.length) :
    isPre p ((a ++ b).drop i) = false := by
  by_contra hcon
  have hcon : isPre p ((a ++ b).drop i) = true := by
    simpa using (Bool.not_eq_false _).mp hcon
  rw [List.drop_append_of_le_length (by omega)] at hcon
  by_cases hl : p.length ≤ (a.drop i).length
  · have : isPre p (a.drop i) = true := isPre_append_left hcon hl
    rw [firstOcc_none_isPre hA i] at this
    exact Bool.false_ne_true this
  · push_neg at hl
    have htake : p.take (a.drop i).length = a.drop i := isPre_append_take hcon hl
    have hpre2 : isPre (a.drop i) p = true := by
      rw [← htake]; exact isPre_take p _
    exact noTailOverlap_spec hT hi hpre2 hl

theorem firstOcc_append {p a b : Str} (hp : p ≠ [])
    (hA : firstOcc p a = none) (hT : noTailOverlap p a = true) :
    firstOcc p (a ++ b) = (firstOcc p b).map (· + a.length) := by
  induction a with
  | nil =>
    simp only [List.nil_append, List.length_nil]
    cases firstOcc p b <;> simp
  | cons c cs ih =>
    have h0 : isPre p (c :: (cs ++ b)) = false := by
      have := @not_isPre_drop_append p (c :: cs) b hp hA hT 0 (by simp)
      simpa using this
    have hA2 : firstOcc p cs = none := by
      by_cases hpc : isPre p (c :: cs) = true
      · simp [firstOcc, hpc] at hA
      · rw [firstOcc, if_neg (by simp [hpc])] at hA
        exact Option.map_eq_none'.mp hA
    have hT2 : noTailOverlap p cs = true := by
      simp only [noTailOverlap, Bool.and_eq_true] at hT
      exact hT.2
    rw [List.cons_append, firstOcc, if_neg (by simp [h0]), ih hA2 hT2]
    cases firstOcc p b with
    | none => rfl
    | some v => simp [Nat.add_assoc]

/-! ## scanFirst lemmas -/

theorem scanFirst_some_of_m {α : Type} {m : Str → Option (α × Nat)} {s : Str}
    {pr : α × Nat} (h : m s = some pr) : scanFirst m s = some (0, pr) := by
  cases s <;> simp [scanFirst, h]

theorem scanFirst_none {α : Type} {m : Str → Option (α × Nat)} {s : Str}
    (h : ∀ i, i ≤ s.length → m (s.drop i) = none) :
    scanFirst m s = none := by
  induction s with
  | nil => simpa [scanFirst] using h 0 (by simp)
  | cons c cs ih =>
    have h0 : m (c :: cs) = none := by simpa using h 0 (by simp)
    have hrest : ∀ i, i ≤ cs.length → m (cs.drop i) = none := by
      intro i hi
      simpa using h (i + 1) (by simpa using hi)
    simp [scanFirst, h0, ih hrest]

theorem scanFirst_append {α : Type} {m : Str → Option (α × Nat)} {a b : Str}
    (hA : ∀ i, i < a.length → m ((a ++ b).drop i) = none) :
    scanFirst m (a ++ b) = (scanFirst m b).map (fun r => (r.1 + a.length, r.2)) := by
  induction a with
  | nil =>
    simp only [List.nil_append, List.length_nil]
    cases scanFirst m b <;> simp
  | cons c cs ih =>
    have h0 : m (c :: (cs ++ b)) = none := by simpa using hA 0 (by simp)
    have hrest : ∀ i, i < cs.length → m ((cs ++ b).drop i) = none := by
      intro i hi
      simpa using hA (i + 1) (by simpa using hi)
    simp only [List.cons_append, scanFirst, List.append_eq]
    rw [h0, ih hrest]
    cases scanFirst m b with
    | none => rfl
    | some v => simp [Nat.add_assoc]

theorem scanFirst_some_m {α : Type} {m : Str → Option (α × Nat)} {s : Str}
    {i : Nat} {a : α} {len : Nat} (h : scanFirst m s = some (i, a, len)) :
    m (s.drop i) = some (a, len) ∧ i ≤ s.length := by
  induction s generalizing i with
  | nil =>
    simp only [scanFirst] at h
    obtain ⟨pr, hpr, he⟩ := Option.map_eq_some'.mp h
    have h1 : (0 : Nat) = i := congrArg Prod.fst he
    have h2 : pr = (a, len) := congrArg Prod.snd he
    subst h1
    rw [h2] at hpr
    exact ⟨by simpa using hpr, by simp⟩
  | cons c cs ih =>
    simp only [scanFirst] at h
    cases hm : m (c :: cs) with
    | some pr =>
      rw [hm] at h
      have h1 : (0 : Nat) = i := congrArg Prod.fst (Option.some.inj h)
      have h2 : pr = (a, len) := congrArg Prod.snd (Option.some.inj h)
      subst h1
      rw [h2] at hm
      exact ⟨hm, by simp⟩
    | none =>
      rw [hm] at h
      obtain ⟨r, hr, he⟩ := Option.map_eq_some'.mp h
      obtain ⟨i2, a2, len2⟩ := r
      have h1 : i2 + 1 = i := congrArg Prod.fst he
      have h2 : a2 = a := congrArg (fun x => x.2.1) he
      have h3 : len2 = len := congrArg (fun x => x.2.2) he
      subst h1
      subst h2
      subst h3
      have := ih hr
      exact ⟨by simpa using this.1, by simpa using Nat.succ_le_succ this.2⟩

/-! ## scanAllF lemmas -/

/-- Sanity conditions making a matcher regex-like: it never matches the empty
string and every match has positive length. -/
def MatcherOk {α : Type} (m : Str → Option (α × Nat)) : Prop :=
  m [] = none ∧ ∀ s a len, m s = some (a, len) → 0 < len

theorem scanAllF_of_none {α : Type} {m : Str → Option (α × Nat)} (f : Nat) {s : Str}
    (h : scanFirst m s = none) : scanAllF m f s = ([], s) := by
  cases f <;> simp [scanAllF, h]

theorem scanAllF_congr {α : Type} {m : Str → Option (α × Nat)} (hm : MatcherOk m) :
    ∀ f₁ f₂ s, s.length < f₁ → s.length < f₂ → scanAllF m f₁ s = scanAllF m f₂ s := by
  intro f₁
  induction f₁ with
  | zero => intro f₂ s h1; omega
  | succ n ih =>
    intro f₂ s h1 h2
    cases f₂ with
    | zero => omega
    | succ k =>
      simp only [scanAllF]
      cases hsf : scanFirst m s with
      | none => rfl
      | some r =>
        obtain ⟨i, a, len⟩ := r
        have hms := scanFirst_some_m hsf
        have hlen : 0 < len := hm.2 _ _ _ hms.1
        have hsne : s ≠ [] := by
          intro he
          subst he
          simp only [List.drop_nil] at hms
          rw [hm.1] at hms
          exact Option.noConfusion hms.1
        have hslen : 0 < s.length := List.length_pos.mpr hsne
        have hrest : (s.drop (i + len)).length < n ∧ (s.drop (i + len)).length < k := by
          simp only [List.length_drop]
          omega
        simp only [ih k (s.drop (i + len)) hrest.1 hrest.2]

theorem scanAllF_step {α : Type} {m : Str → Option (α × Nat)} (hm : MatcherOk m)
    {gap matched rest : Str} {a : α}
    (hGap : ∀ i, i < gap.length → m ((gap ++ (matched ++ rest)).drop i) = none)
    (hM : m (matched ++ rest) = some (a, matched.length))
    {f : Nat} (hf : (gap ++ (matched ++ rest)).length < f) :
    scanAllF m f (gap ++ (matched ++ rest)) =
      ((gap, a, matched) :: (scanAllF m (rest.length + 1) rest).1,
        (scanAllF m (rest.length + 1) rest).2) := by
  cases f with
  | zero => omega
  | succ n =>
    have hml : 0 < matched.length := hm.2 _ _ _ hM
    have hfl : (rest.length) < n := by
      simp only [List.length_append] at hf
      omega
    have hsf : scanFirst m (gap ++ (matched ++ rest)) =
        some (gap.length, a, matched.length) := by
      rw [scanFirst_append hGap, scanFirst_some_of_m hM]
      simp
    suffices hkey : scanAllF m (n + 1) (gap ++ (matched ++ rest)) =
        ((gap, a, matched) :: (scanAllF m n rest).1, (scanAllF m n rest).2) by
      rw [hkey, scanAllF_congr hm n (rest.length + 1) rest hfl (by omega)]
    have htake : (gap ++ (matched ++ rest)).take gap.length = gap := take_app _ _
    have hdrop : (gap ++ (matched ++ rest)).drop gap.length = matched ++ rest :=
      drop_app _ _
    have hdrop2 : (gap ++ (matched ++ rest)).drop (gap.length + matched.length) = rest := by
      rw [show gap ++ (matched ++ rest) = (gap ++ matched) ++ rest by simp,
        show gap.length + matched.length = (gap ++ matched).length by simp]
      exact drop_app _ _
    conv_lhs => rw [scanAllF]
    rw [hsf]
    simp only [htake, hdrop, hdrop2]
    rw [take_app]

/-! ## Digit-string lemmas -/

theorem digitChar_toNat {m : Nat} (h : m < 10) : (Char.ofNat (48 + m)).toNat = 48 + m := by
  interval_cases m <;> decide

theorem digitChar_isDigit {m : Nat} (h : m < 10) : (Char.ofNat (48 + m)).isDigit = true := by
  interval_cases m <;> decide

theorem digitsToNat_append_one (a : Str) (c : Char) :
    digitsToNat (a ++ [c]) = digitsToNat a * 10 + (c.toNat - 48) := by
  simp [digitsToNat, List.foldl_append]

theorem natDigitsF_spec : ∀ fuel n, n < fuel →
    (∀ c ∈ natDigitsF fuel n, c.isDigit = true) ∧
      digitsToNat (natDigitsF fuel n) = n ∧ natDigitsF fuel n ≠ [] := by
  intro fuel
  induction fuel with
  | zero => intro n h; omega
  | succ f ih =>
    intro n h
    by_cases h10 : n < 10
    · simp only [natDigitsF, if_pos h10]
      refine ⟨?_, ?_, by simp⟩
      · intro c hc
        simp only [List.mem_singleton] at hc
        subst hc
        exact digitChar_isDigit h10
      · simp [digitsToNat, digitChar_toNat h10]
    · simp only [natDigitsF, if_neg h10]
      have hrec : n / 10 < f := by omega
      obtain ⟨ih1, ih2, _⟩ := ih (n / 10) hrec
      refine ⟨?_, ?_, by simp⟩
      · intro c hc
        rw [List.mem_append] at hc
        rcases hc with hc | hc
        · exact ih1 c hc
        · simp only [List.mem_singleton] at hc
          subst hc
          exact digitChar_isDigit (by omega)
      · rw [digitsToNat_append_one, ih2, digitChar_toNat (by omega)]
        omega

theorem natDigits_digits {n : Nat} : ∀ c ∈ natDigits n, c.isDigit = true :=
  (natDigitsF_spec (n + 1) n (by omega)).1

theorem digitsToNat_natDigits (n : Nat) : digitsToNat (natDigits n) = n :=
  (natDigitsF_spec (n + 1) n (by omega)).2.1

theorem natDigits_ne_nil (n : Nat) : natDigits n ≠ [] :=
  (natDigitsF_spec (n + 1) n (by omega)).2.2

theorem takeWhile_append_end {p : Char → Bool} {a : Str} (ha : ∀ c ∈ a, p c = true)
    {x : Char} {r : Str} (hx : p x = false) : (a ++ x :: r).takeWhile p = a := by
  induction a with
  | nil => simp [List.takeWhile, hx]
  | cons c cs ih =>
    have hc : p c = true := ha c (by simp)
    simp only [List.cons_append, List.takeWhile, hc, List.append_eq]
    rw [ih (fun d hd => ha d (by simp [hd]))]

/-! ## Character-exclusion lemmas -/

/-- Every character of `s` differs from `x`. -/
def allNe (x : Char) (s : Str) : Bool := s.all (fun c => !(c = x))

theorem allNe_not_mem {x : Char} {s : Str} (h : allNe x s = true) : x ∉ s := by
  intro hmem
  simp only [allNe, List.all_eq_true, Bool.not_eq_eq_eq_not, Bool.not_true,
    decide_eq_false_iff_not] at h
  exact h x hmem rfl

theorem allNe_append {x : Char} {a b : Str} (ha : allNe x a = true) (hb : allNe x b = true) :
    allNe x (a ++ b) = true := by
  simp only [allNe, List.all_append, Bool.and_eq_true] at *
  exact ⟨ha, hb⟩

theorem allNe_of_append_left {x : Char} {a b : Str} (h : allNe x (a ++ b) = true) :
    allNe x a = true := by
  simp only [allNe, List.all_append, Bool.and_eq_true] at h
  exact h.1

theorem allNe_of_append_right {x : Char} {a b : Str} (h : allNe x (a ++ b) = true) :
    allNe x b = true := by
  simp only [allNe, List.all_append, Bool.and_eq_true] at h
  exact h.2

theorem head_of_isPre {c : Char} {cs s : Str} (h : isPre (c :: cs) s = true) :
    ∃ t, s = c :: t := by
  obtain ⟨t, rfl⟩ := isPre_exists h
  exact ⟨cs ++ t, rfl⟩

theorem firstOcc_none_of_allNe {x : Char} {xs s : Str} (hs : allNe x s = true) :
    firstOcc (x :: xs) s = none := by
  induction s with
  | nil => simp [firstOcc]
  | cons c cs ih =>
    simp only [allNe, List.all_cons, Bool.and_eq_true, Bool.not_eq_eq_eq_not, Bool.not_true,
      decide_eq_false_iff_not] at hs
    have hpre : isPre (x :: xs) (c :: cs) = false := by
      simp only [isPre, Bool.and_eq_false_iff]
      left
      simpa using fun he => hs.1 he.symm
    rw [firstOcc, if_neg (by simp [hpre])]
    rw [ih (by simp [allNe, hs.2])]
    rfl

theorem noTailOverlap_of_allNe {x : Char} {xs s : Str} (hs : allNe x s = true) :
    noTailOverlap (x :: xs) s = true := by
  induction s with
  | nil => rfl
  | cons c cs ih =>
    simp only [allNe, List.all_cons, Bool.and_eq_true, Bool.not_eq_eq_eq_not, Bool.not_true,
      decide_eq_false_iff_not] at hs
    have hpre : isPre (c :: cs) (x :: xs) = false := by
      simp only [isPre, Bool.and_eq_false_iff]
      left
      simpa using fun he => hs.1 he
    simp only [noTailOverlap, hpre, Bool.false_and, Bool.not_false, Bool.true_and]
    exact ih (by simp [allNe, hs.2])

/-- A matcher whose matches always start with the character `x` fails
everywhere on an `x`-free string. -/
theorem scanFirst_none_of_head {α : Type} {x : Char} {m : Str → Option (α × Nat)}
    (hm : ∀ s pr, m s = some pr → ∃ t, s = x :: t) {s : Str} (hs : allNe x s = true) :
    scanFirst m s = none := by
  apply scanFirst_none
  intro i _
  cases hmi : m (s.drop i) with
  | none => rfl
  | some pr =>
    obtain ⟨t, ht⟩ := hm _ _ hmi
    have hxin : x ∈ s := List.drop_subset _ _ (ht ▸ List.mem_cons_self x t)
    exact absurd hxin (allNe_not_mem hs)

/-- Such a matcher also fails at every position strictly inside an `x`-free
gap that is followed by arbitrary text. -/
theorem matcher_none_inside {α : Type} {x : Char} {m : Str → Option (α × Nat)}
    (hm : ∀ s pr, m s = some pr → ∃ t, s = x :: t) {g T : Str} (hg : allNe x g = true)
    {i : Nat} (hi : i < g.length) : m ((g ++ T).drop i) = none := by
  cases hmi : m ((g ++ T).drop i) with
  | none => rfl
  | some pr =>
    obtain ⟨t, ht⟩ := hm _ _ hmi
    rw [List.drop_append_of_le_length (by omega)] at ht
    cases hgd : g.drop i with
    | nil =>
      rw [hgd] at ht
      have : (g.drop i).length = g.length - i := List.length_drop _ _
      rw [hgd] at this
      simp at this
      omega
    | cons c cs =>
      rw [hgd] at ht
      have hc : c = x := by
        have := congrArg (fun l => l.head?) ht
        simpa using this
      have h1 : x ∈ g.drop i := by
        rw [hgd, hc]
        exact List.mem_cons_self x cs
      exact absurd (List.drop_subset _ _ h1) (allNe_not_mem hg)

/-! ## Literal pattern equations (for computing with `str` literals) -/

theorem strRUN : str "[RUN:" = '[' :: str "RUN:" := rfl

theorem strTAG : str "[TAG:" = '[' :: str "TAG:" := rfl

theorem strRUNc : str "[/RUN:" = '[' :: str "/RUN:" := rfl

/-! ## Marker matcher lemmas -/

theorem runMarkAt_head {s : Str} {pr : (Str × Str) × Nat} (h : runMarkAt s = some pr) :
    ∃ t, s = '[' :: t := by
  by_cases hp : isPre (str "[RUN:") s = true
  · rw [strRUN] at hp
    exact head_of_isPre hp
  · rw [runMarkAt, if_neg (by simpa using hp)] at h
    exact absurd h (by simp)

theorem tagMarkAt_head {s : Str} {pr : Str × Nat} (h : tagMarkAt s = some pr) :
    ∃ t, s = '[' :: t := by
  by_cases hp : isPre (str "[TAG:") s = true
  · rw [strTAG] at hp
    exact head_of_isPre hp
  · rw [tagMarkAt, if_neg (by simpa using hp)] at h
    exact absurd h (by simp)

theorem runMarkAt_nil : runMarkAt [] = none := rfl

theorem tagMarkAt_nil : tagMarkAt [] = none := rfl

theorem digit_ne_lb {c : Char} (h : c.isDigit = true) : (c = '[') = False := by
  simp only [eq_iff_iff, iff_false]
  intro he
  subst he
  simp [Char.isDigit] at h

theorem allNe_lb_digits {n : Nat} : allNe '[' (natDigits n) = true := by
  simp only [allNe, List.all_eq_true, Bool.not_eq_eq_eq_not, Bool.not_true,
    decide_eq_false_iff_not]
  intro c hc
  have := digit_ne_lb (natDigits_digits c hc)
  simp [this]

/-- Length/literal helper equations. -/
theorem strRB : str "]" = [']'] := rfl

theorem drop5_RUN (X : Str) : (str "[RUN:" ++ X).drop 5 = X := drop_app (str "[RUN:") X

theorem drop5_TAG (X : Str) : (str "[TAG:" ++ X).drop 5 = X := drop_app (str "[TAG:") X

/-- The paired-marker matcher succeeds on a well-formed `[RUN:n]t[/RUN:n]`
marker whose enclosed text contains no `[`, capturing exactly the id digits
and the enclosed text. -/
theorem runMarkAt_at (n : Nat) (t rest : Str) (ht : allNe '[' t = true) :
    runMarkAt (runMarker n t ++ rest) =
      some ((natDigits n, t), (runMarker n t).length) := by
  have hassoc : runMarker n t ++ rest =
      str "[RUN:" ++ (natDigits n ++ (']' :: (t ++ ((str "[/RUN:" ++ natDigits n ++ str "]") ++ rest)))) := by
    simp [runMarker, strRB]
  rw [hassoc]
  simp only [runMarkAt, isPre_append, if_true, drop5_RUN]
  rw [takeWhile_append_end natDigits_digits (by decide)]
  rw [if_neg (by simpa using natDigits_ne_nil n)]
  rw [drop_app (natDigits n) _]
  rw [if_pos (by simp [isPre])]
  have hbody : (']' :: (t ++ ((str "[/RUN:" ++ natDigits n ++ str "]") ++ rest))).drop 1
      = t ++ ((str "[/RUN:" ++ natDigits n ++ str "]") ++ rest) := by simp
  rw [hbody]
  have hcl : firstOcc (str "[/RUN:" ++ natDigits n ++ str "]")
      (t ++ ((str "[/RUN:" ++ natDigits n ++ str "]") ++ rest))
      = some t.length := by
    have hpat : str "[/RUN:" ++ natDigits n ++ str "]" = '[' :: (str "/RUN:" ++ natDigits n ++ str "]") := by
      rw [strRUNc]
      simp
    rw [hpat]
    rw [firstOcc_append (by simp) (firstOcc_none_of_allNe ht) (noTailOverlap_of_allNe ht)]
    rw [← hpat]
    rw [firstOcc_of_isPre (isPre_append _ _)]
    simp
  rw [hcl]
  simp only [take_app, Option.some.injEq, Prod.mk.injEq, true_and]
  simp only [runMarker, List.length_append]
  have h1 : (str "[RUN:").length = 5 := rfl
  have h2 : (str "]").length = 1 := rfl
  have h3 : (str "[/RUN:").length = 6 := rfl
  omega

/-- The unpaired-marker matcher succeeds on a well-formed `[TAG:n]` marker. -/
theorem tagMarkAt_at (n : Nat) (rest : Str) :
    tagMarkAt (tagMarker n ++ rest) = some (natDigits n, (tagMarker n).length) := by
  have hassoc : tagMarker n ++ rest = str "[TAG:" ++ (natDigits n ++ (']' :: rest)) := by
    simp [tagMarker, strRB]
  rw [hassoc]
  simp only [tagMarkAt, isPre_append, if_true, drop5_TAG]
  rw [takeWhile_append_end natDigits_digits (by decide)]
  rw [if_neg (by simpa using natDigits_ne_nil n)]
  rw [drop_app (natDigits n) _]
  rw [if_pos (by simp [isPre])]
  simp only [Option.some.injEq, Prod.mk.injEq, true_and]
  simp only [tagMarker, List.length_append]
  have h1 : (str "[TAG:").length = 5 := rfl
  have h2 : (str "]").length = 1 := rfl
  omega

/-! ## Rebuild/scan composition lemmas -/

theorem rebuild_cons {α : Type} (f : α → Str → Str) (g : Str) (a : α) (mt : Str)
    (ts : List (Str × α × Str)) (fin : Str) :
    rebuild f ((g, a, mt) :: ts, fin) = g ++ f a mt ++ rebuild f (ts, fin) := by
  simp [rebuild]

theorem rebuild_nil {α : Type} (f : α → Str → Str) (fin : Str) :
    rebuild f ([], fin) = fin := by
  simp [rebuild]

/-- Scanning a string with a match-free prefix `g`: the rebuilt result is `g`
followed by the rebuilt scan of the remainder. -/
theorem rebuild_scan_prepend {α : Type} {m : Str → Option (α × Nat)} (hm : MatcherOk m)
    (f : α → Str → Str) {g T : Str}
    (hG : ∀ i, i < g.length → m ((g ++ T).drop i) = none)
    {fuel : Nat} (hfuel : (g ++ T).length < fuel) :
    rebuild f (scanAllF m fuel (g ++ T)) = g ++ rebuild f (scanAllF m (T.length + 1) T) := by
  cases hT : scanFirst m T with
  | none =>
    have hGT : scanFirst m (g ++ T) = none := by
      rw [scanFirst_append hG, hT]; rfl
    rw [scanAllF_of_none _ hGT, scanAllF_of_none _ hT, rebuild_nil, rebuild_nil]
  | some r =>
    obtain ⟨i, a, len⟩ := r
    have hmi := (scanFirst_some_m hT).1
    have hlen : 0 < len := hm.2 _ _ _ hmi
    have hTne : T ≠ [] := by
      intro he
      subst he
      simp only [List.drop_nil] at hmi
      rw [hm.1] at hmi
      exact Option.noConfusion hmi
    have hTlen : 0 < T.length := List.length_pos.mpr hTne
    have hGT : scanFirst m (g ++ T) = some (i + g.length, a, len) := by
      rw [scanFirst_append hG, hT]; rfl
    cases fuel with
    | zero => simp at hfuel
    | succ nf =>
      conv_lhs => rw [scanAllF]
      rw [hGT]
      conv_rhs => rw [scanAllF]
      rw [hT]
      have e1 : (g ++ T).take (i + g.length) = g ++ T.take i := by
        rw [Nat.add_comm, List.take_append]
      have e2 : (g ++ T).drop (i + g.length) = T.drop i := by
        rw [Nat.add_comm, List.drop_append]
      have e3 : (g ++ T).drop (i + g.length + len) = T.drop (i + len) := by
        rw [show i + g.length + len = g.length + (i + len) by omega, List.drop_append]
      simp only [e1, e2, e3]
      rw [rebuild_cons, rebuild_cons]
      have hc : scanAllF m nf (T.drop (i + len)) =
          scanAllF m T.length (T.drop (i + len)) := by
        apply scanAllF_congr hm
        · simp only [List.length_drop]
          simp only [List.length_append] at hfuel
          omega
        · simp only [List.length_drop]
          omega
      rw [hc]
      simp [List.append_assoc]

/-- Scanning a string that begins with a match: the rebuilt result is the
replacement followed by the rebuilt scan of the remainder. -/
theorem rebuild_scan_match {α : Type} {m : Str → Option (α × Nat)} (hm : MatcherOk m)
    (f : α → Str → Str) {matched rest : Str} {a : α}
    (hM : m (matched ++ rest) = some (a, matched.length))
    {fuel : Nat} (hfuel : (matched ++ rest).length < fuel) :
    rebuild f (scanAllF m fuel (matched ++ rest)) =
      f a matched ++ rebuild f (scanAllF m (rest.length + 1) rest) := by
  have hstep := @scanAllF_step α m hm [] matched rest a
    (by intro i hi; simp at hi) (by simpa using hM) fuel (by simpa using hfuel)
  simp only [List.nil_append] at hstep
  rw [hstep, rebuild_cons]
  simp

/-! ## escapeXml characterization -/

/-- Per-character escape map: the five XML metacharacters become entities. -/
def escChar (c : Char) : Str :=
  if c = '&' then str "&amp;"
  else if c = '<' then str "&lt;"
  else if c = '>' then str "&gt;"
  else if c = '"' then str "&quot;"
  else if c = Char.ofNat 39 then str "&apos;"
  else [c]

theorem replaceChar_append (c : Char) (r : Str) (u v : Str) :
    replaceChar c r (u ++ v) = replaceChar c r u ++ replaceChar c r v := by
  simp [replaceChar]

theorem escapeXml_nil : escapeXml [] = [] := rfl

theorem escapeXml_cons (c : Char) (s : Str) :
    escapeXml (c :: s) = escChar c ++ escapeXml s := by
  by_cases h1 : c = '&'
  · subst h1; simp [escapeXml, replaceChar, escChar] <;> decide
  · by_cases h2 : c = '<'
    · subst h2; simp [escapeXml, replaceChar, escChar, h1] <;> decide
    · by_cases h3 : c = '>'
      · subst h3; simp [escapeXml, replaceChar, escChar] <;> decide
      · by_cases h4 : c = '"'
        · subst h4; simp [escapeXml, replaceChar, escChar] <;> decide
        · by_cases h5 : c = Char.ofNat 39
          · subst h5; simp [escapeXml, replaceChar, escChar] <;> decide
          · simp [escapeXml, replaceChar, escChar, h1, h2, h3, h4, h5]

/-- The chained global replaces of `escapeXml` act independently per character:
every metacharacter of the input appears in the output as exactly its entity. -/
theorem escapeXml_flat (s : Str) : escapeXml s = s.flatMap escChar := by
  induction s with
  | nil => rfl
  | cons c cs ih => rw [escapeXml_cons, ih]; simp

theorem escChar_allNe_lb {c : Char} (h : c ≠ '[') : allNe '[' (escChar c) = true := by
  by_cases h1 : c = '&'
  · subst h1; decide
  · by_cases h2 : c = '<'
    · subst h2; decide
    · by_cases h3 : c = '>'
      · subst h3; decide
      · by_cases h4 : c = '"'
        · subst h4; decide
        · by_cases h5 : c = Char.ofNat 39
          · subst h5; decide
          · simp only [escChar, h1, h2, h3, h4, h5, if_false]
            simp [allNe, h]

theorem escapeXml_allNe_lb {s : Str} (hs : allNe '[' s = true) :
    allNe '[' (escapeXml s) = true := by
  rw [escapeXml_flat]
  induction s with
  | nil => decide
  | cons c cs ih =>
    simp only [allNe, List.all_cons, Bool.and_eq_true, Bool.not_eq_eq_eq_not, Bool.not_true,
      decide_eq_false_iff_not] at hs
    have h1 := escChar_allNe_lb hs.1
    have h2 := ih (by simp [allNe, hs.2])
    simpa using allNe_append h1 h2

/-! ## Dollar-substitution in string replacements -/

/-- Characters that are special after `$` in a JS replacement string. -/
def dollarSpecial (d : Char) : Bool :=
  d = '$' || d = '&' || d = Char.ofNat 96 || d = Char.ofNat 39

/-- No `$` immediately followed by a special character (so JS performs no
substitution in the replacement string). -/
def noDollarPair : Str → Bool
  | [] => true
  | [_] => true
  | c :: d :: rest => !(c = '$' && dollarSpecial d) && noDollarPair (d :: rest)

theorem noDollarPair_tail {d : Char} {r : Str} (h : noDollarPair (d :: r) = true) :
    noDollarPair r = true := by
  cases r with
  | nil => rfl
  | cons e r2 =>
    simp only [noDollarPair, Bool.and_eq_true] at h
    exact h.2

theorem dollarSubst_lit (mt bf af : Str) {r : Str} (h : noDollarPair r = true) :
    dollarSubst mt bf af r = r := by
  induction r with
  | nil => rfl
  | cons c r' ih =>
    cases r' with
    | nil =>
      by_cases hc : c = '$' <;> simp [dollarSubst, hc]
    | cons d r2 =>
      simp only [noDollarPair, Bool.and_eq_true, Bool.not_eq_eq_eq_not, Bool.not_true,
        Bool.and_eq_false_iff] at h
      by_cases hc : c = '$'
      · subst hc
        have hd : dollarSpecial d = false := by
          rcases h.1 with hbad | hbad
          · simp at hbad
          · exact hbad
        simp only [dollarSpecial, Bool.or_eq_false_iff, decide_eq_false_iff_not] at hd
        obtain ⟨⟨⟨hd1, hd2⟩, hd3⟩, hd4⟩ := hd
        have hstep : dollarSubst mt bf af ('$' :: d :: r2) =
            '$' :: d :: dollarSubst mt bf af r2 := by
          simp only [dollarSubst, if_pos rfl, if_neg hd1, if_neg hd2, if_neg hd3, if_neg hd4,
            if_true]
        have hone : dollarSubst mt bf af (d :: r2) = d :: dollarSubst mt bf af r2 := by
          rw [dollarSubst.eq_def]
          simp [hd1]
        have ihd := ih h.2
        rw [hone] at ihd
        simp only [List.cons.injEq, true_and] at ihd
        rw [hstep, ihd]
      · rw [dollarSubst, if_neg hc]
        rw [ih h.2]

/-- `tTemplate.replace("{{TEXT}}", repl)` on a well-formed template fills the
placeholder literally when `repl` contains no `$`-special pair. -/
theorem jsReplaceOnce_template {tb ta repl : Str}
    (h1 : firstOcc placeholder tb = none)
    (h2 : noTailOverlap placeholder tb = true)
    (hr : noDollarPair repl = true) :
    jsReplaceOnceStr (tb ++ placeholder ++ ta) placeholder repl = tb ++ repl ++ ta := by
  have hocc : firstOcc placeholder (tb ++ (placeholder ++ ta)) = some tb.length := by
    rw [firstOcc_append (by decide) h1 h2, firstOcc_of_isPre (isPre_append _ _)]
    simp
  have hd : (tb ++ (placeholder ++ ta)).drop (tb.length + placeholder.length) = ta := by
    rw [show tb ++ (placeholder ++ ta) = (tb ++ placeholder) ++ ta by simp,
      show tb.length + placeholder.length = (tb ++ placeholder).length by simp]
    exact drop_app _ _
  rw [show tb ++ placeholder ++ ta = tb ++ (placeholder ++ ta) from by simp]
  simp only [jsReplaceOnceStr, hocc]
  rw [take_app, hd, dollarSubst_lit _ _ _ hr]

/-! ## Matcher sanity instances -/

theorem runMarkAt_pos {s : Str} {a : Str × Str} {len : Nat}
    (h : runMarkAt s = some (a, len)) : 0 < len := by
  simp only [runMarkAt] at h
  split at h
  · split at h
    · simp at h
    · split at h
      · split at h
        · have := (Option.some.inj h)
          have hlen : len = 5 + _ + 1 + _ + _ := (congrArg Prod.snd this).symm
          omega
        · simp at h
      · simp at h
  · simp at h

theorem tagMarkAt_pos {s : Str} {a : Str} {len : Nat}
    (h : tagMarkAt s = some (a, len)) : 0 < len := by
  simp only [tagMarkAt] at h
  split at h
  · split at h
    · simp at h
    · split at h
      · have := (Option.some.inj h)
        have hlen : len = 5 + _ + 1 := (congrArg Prod.snd this).symm
        omega
      · simp at h
  · simp at h

theorem runMarkOk : MatcherOk runMarkAt :=
  ⟨rfl, fun _ _ _ h => runMarkAt_pos h⟩

theorem tagMarkOk : MatcherOk tagMarkAt :=
  ⟨rfl, fun _ _ _ h => tagMarkAt_pos h⟩

/-- The paired-marker matcher never matches at any position of an unpaired
`[TAG:id]` marker (followed by anything). -/
theorem runMarkAt_none_inTag (id : Nat) (T : Str) {i : Nat}
    (hi : i < (tagMarker id).length) :
    runMarkAt ((tagMarker id ++ T).drop i) = none := by
  have hshape : tagMarker id ++ T = '[' :: (str "TAG:" ++ (natDigits id ++ (str "]" ++ T))) := by
    simp [tagMarker, strTAG]
  cases i with
  | zero =>
    rw [List.drop_zero, hshape]
    have hfalse : isPre (str "[RUN:")
        ('[' :: (str "TAG:" ++ (natDigits id ++ (str "]" ++ T)))) = false := rfl
    rw [runMarkAt, if_neg (by simp [hfalse])]
  | succ j =>
    rw [hshape]
    simp only [List.drop_succ_cons]
    have hg : str "TAG:" ++ (natDigits id ++ (str "]" ++ T))
        = (str "TAG:" ++ natDigits id ++ str "]") ++ T := by simp
    rw [hg]
    apply matcher_none_inside (fun s pr h => runMarkAt_head h)
    · exact allNe_append (allNe_append (by decide) allNe_lb_digits) (by decide)
    · have e1 : (str "[TAG:").length = 5 := rfl
      have e2 : (str "TAG:").length = 4 := rfl
      have e3 : (str "]").length = 1 := rfl
      simp only [tagMarker, List.length_append, e1, e2, e3] at hi ⊢
      omega

/-! ## C3: escaping of translated text in restored templates -/

/-- The restore of a single paired marker with a well-formed template: the
translated text is escaped and substituted into the placeholder. -/
theorem restore_run_template (n : Nat) (text before after tb ta : Str) (m : IdTagMap)
    (hmap : mapGet m n = some (.runTemplate before after (tb ++ placeholder ++ ta)))
    (htext : allNe '[' text = true)
    (hdollar : noDollarPair (escapeXml text) = true)
    (htb1 : firstOcc placeholder tb = none)
    (htb2 : noTailOverlap placeholder tb = true)
    (hbf1 : allNe '[' (before ++ tb) = true)
    (hbf2 : allNe '[' (ta ++ after) = true) :
    restoreParagraphXml (runMarker n text) m
      = before ++ tb ++ escapeXml text ++ ta ++ after := by
  rw [restoreParagraphXml]
  have hM := runMarkAt_at n text [] htext
  have hpass1 :
      rebuild (runMarkRepl m) (scanAllF runMarkAt ((runMarker n text).length + 1) (runMarker n text))
        = runMarkRepl m (natDigits n, text) (runMarker n text) := by
    rw [show runMarker n text = runMarker n text ++ [] from by simp]
    rw [rebuild_scan_match runMarkOk _ hM (by simp)]
    rw [scanAllF_of_none _ (by rw [scanFirst]; rfl), rebuild_nil]
    simp
  rw [hpass1]
  have hcb : runMarkRepl m (natDigits n, text) (runMarker n text)
      = before ++ (tb ++ escapeXml text ++ ta) ++ after := by
    rw [runMarkRepl]
    simp only [digitsToNat_natDigits, hmap]
    rw [jsReplaceOnce_template htb1 htb2 hdollar]
  rw [hcb]
  have hallne : allNe '[' (before ++ (tb ++ escapeXml text ++ ta) ++ after) = true := by
    have he := escapeXml_allNe_lb htext
    have h1 := allNe_of_append_left hbf1
    have h2 := allNe_of_append_right hbf1
    have h3 := allNe_of_append_left hbf2
    have h4 := allNe_of_append_right hbf2
    have hre : before ++ (tb ++ escapeXml text ++ ta) ++ after
        = before ++ ((tb ++ (escapeXml text ++ ta)) ++ after) := by simp
    rw [hre]
    exact allNe_append h1 (allNe_append (allNe_append h2 (allNe_append he h3)) h4)
  rw [scanAllF_of_none _ (scanFirst_none_of_head (fun s pr h => tagMarkAt_head h) hallne)]
  rw [rebuild_nil]
  simp

/-- Example map: id 1 stores a text-run template `<w:r>…<w:t>{{TEXT}}</w:t>…</w:r>`. -/
def exMapC3 : IdTagMap :=
  [(1, .runTemplate (str "<w:r>") (str "</w:r>") (str "<w:t>" ++ placeholder ++ str "</w:t>"))]

/-- C3 counterexample: the claim "any occurrence of `& < > \" '` in a
translated text substituted into a text-run template appears as the
corresponding XML entity" is false as stated.  For the translated text `$&`,
`escapeXml` produces `$&amp;`, and `tTemplate.replace("{{TEXT}}", …)` — a
string-pattern, string-replacement `String.prototype.replace` — expands the
`$&` substitution pattern to the matched substring `{{TEXT}}`.  The output is
`<w:r><w:t>{{TEXT}}amp;</w:t></w:r>`: the ampersand of the translated text
appears nowhere as `&amp;` (indeed `&amp;` does not occur in the output at
all). -/
theorem c3_counterexample :
    restoreParagraphXml (runMarker 1 (str "$&")) exMapC3
        = str "<w:r><w:t>" ++ placeholder ++ str "amp;</w:t></w:r>"
      ∧ firstOcc (str "&amp;") (restoreParagraphXml (runMarker 1 (str "$&")) exMapC3) = none := by
  constructor
  · rfl
  · rfl

/-- C3 (amended): in the output of `restoreParagraphXml`, a translated text
substituted into a text-run template appears with every occurrence of the five
XML metacharacters `& < > " '` replaced by its corresponding entity
(`text.flatMap escChar` substituted into the template placeholder) — provided
the translated text contains no `[` (which would collide with marker syntax)
and no `$` immediately followed by one of `` $ & ` ' `` after escaping (the
`$`-substitution patterns of JavaScript string replacement, which the
counterexample shows are expanded), and the template/fragments are
marker-free. -/
theorem c3_escaped_substitution (n : Nat) (text before after tb ta : Str) (m : IdTagMap)
    (hmap : mapGet m n = some (.runTemplate before after (tb ++ placeholder ++ ta)))
    (htext : allNe '[' text = true)
    (hdollar : noDollarPair (escapeXml text) = true)
    (htb1 : firstOcc placeholder tb = none)
    (htb2 : noTailOverlap placeholder tb = true)
    (hbf1 : allNe '[' (before ++ tb) = true)
    (hbf2 : allNe '[' (ta ++ after) = true) :
    restoreParagraphXml (runMarker n text) m
      = before ++ tb ++ text.flatMap escChar ++ ta ++ after := by
  rw [← escapeXml_flat]
  exact restore_run_template n text before after tb ta m hmap htext hdollar htb1 htb2 hbf1 hbf2

/-- C3 witness: the concrete scenario of the claim.  Translated text
`A & B < C` substituted into the text-run template appears in the output as
`A &amp; B &lt; C`. -/
theorem c3_escaped_substitution_witness :
    restoreParagraphXml (runMarker 1 (str "A & B < C")) exMapC3
      = str "<w:r><w:t>A &amp; B &lt; C</w:t></w:r>" := by
  have h := c3_escaped_substitution 1 (str "A & B < C") (str "<w:r>") (str "</w:r>")
    (str "<w:t>") (str "</w:t>") exMapC3 (by decide) (by decide) (by decide) (by decide)
    (by decide) (by decide) (by decide)
  rw [h]
  rfl

/-! ## C8: restoreParagraphXml fallback behaviour -/

/-- C8: `restoreParagraphXml` is total (the embedding is a Lean function, and
the source's only `try` is the `JSON.parse` whose failure path is modelled by
the `raw` branch), and, in a marker-free context `pre`/`suf`:
for a paired `[RUN:n]t[/RUN:n]` whose id is absent from the map **or** whose
stored fragment is not a JSON text-run template (`JSON.parse` throws), the
translated text `t` is emitted literally; for an unpaired `[TAG:n]` whose id
is absent, nothing is emitted. -/
theorem c8_restore_fallbacks (m : IdTagMap) (n : Nat) (t pre suf : Str)
    (hpre : allNe '[' pre = true) (ht : allNe '[' t = true) (hsuf : allNe '[' suf = true) :
    ((mapGet m n = none ∨ ∃ f, mapGet m n = some (.raw f)) →
      restoreParagraphXml (pre ++ runMarker n t ++ suf) m = pre ++ t ++ suf)
    ∧ (mapGet m n = none →
      restoreParagraphXml (pre ++ tagMarker n ++ suf) m = pre ++ suf) := by
  constructor
  · intro hid
    rw [restoreParagraphXml]
    rw [show pre ++ runMarker n t ++ suf = pre ++ (runMarker n t ++ suf) from by simp]
    rw [rebuild_scan_prepend runMarkOk _
      (fun i hi => matcher_none_inside (fun _ _ h => runMarkAt_head h) hpre hi) (by simp)]
    rw [rebuild_scan_match runMarkOk _ (runMarkAt_at n t suf ht) (by simp)]
    rw [scanAllF_of_none _ (scanFirst_none_of_head (fun _ _ h => runMarkAt_head h) hsuf)]
    rw [rebuild_nil]
    have hcb : runMarkRepl m (natDigits n, t) (runMarker n t) = t := by
      rw [runMarkRepl]
      simp only [digitsToNat_natDigits]
      rcases hid with hid | ⟨f, hid⟩ <;> rw [hid]
    rw [hcb]
    have hflat : pre ++ (t ++ suf) = pre ++ t ++ suf := by simp
    rw [hflat]
    have hallne : allNe '[' (pre ++ t ++ suf) = true := by
      exact allNe_append (allNe_append hpre ht) hsuf
    rw [scanAllF_of_none _ (scanFirst_none_of_head (fun _ _ h => tagMarkAt_head h) hallne)]
    rw [rebuild_nil]
  · intro hid
    rw [restoreParagraphXml]
    have hs1 : scanFirst runMarkAt (tagMarker n ++ suf) = none := by
      rw [scanFirst_append (fun i hi => runMarkAt_none_inTag n suf hi)]
      rw [scanFirst_none_of_head (fun _ _ h => runMarkAt_head h) hsuf]
      rfl
    have hs2 : scanFirst runMarkAt (pre ++ (tagMarker n ++ suf)) = none := by
      rw [scanFirst_append
        (fun i hi => matcher_none_inside (fun _ _ h => runMarkAt_head h) hpre hi), hs1]
      rfl
    rw [show pre ++ tagMarker n ++ suf = pre ++ (tagMarker n ++ suf) from by simp]
    rw [scanAllF_of_none _ hs2, rebuild_nil]
    rw [rebuild_scan_prepend tagMarkOk _
      (fun i hi => matcher_none_inside (fun _ _ h => tagMarkAt_head h) hpre hi) (by simp)]
    rw [rebuild_scan_match tagMarkOk _ (tagMarkAt_at n suf) (by simp)]
    rw [scanAllF_of_none _ (scanFirst_none_of_head (fun _ _ h => tagMarkAt_head h) hsuf)]
    rw [rebuild_nil]
    have hcb : tagMarkRepl m (natDigits n) (tagMarker n) = [] := by
      rw [tagMarkRepl]
      simp only [digitsToNat_natDigits, hid]
    rw [hcb]
    simp

/-- Example map for the C8 witness: id 7 stores a raw (non-JSON) fragment;
id 3 is absent. -/
def exMapC8 : IdTagMap := [(7, .raw (str "<w:br/>"))]

/-- C8 witness: with id 3 absent, the paired marker falls back to its
translated text and the unpaired marker to nothing; with id 7 bound to a raw
fragment (not valid JSON), the paired marker also falls back to its text. -/
theorem c8_restore_fallbacks_witness :
    restoreParagraphXml (str "ab" ++ runMarker 3 (str "xy") ++ str "cd") exMapC8
        = str "abxycd"
      ∧ restoreParagraphXml (str "ab" ++ tagMarker 3 ++ str "cd") exMapC8 = str "abcd"
      ∧ restoreParagraphXml (str "ab" ++ runMarker 7 (str "xy") ++ str "cd") exMapC8
        = str "abxycd" := by
  have h3 := c8_restore_fallbacks exMapC8 3 (str "xy") (str "ab") (str "cd")
    (by decide) (by decide) (by decide)
  have h7 := c8_restore_fallbacks exMapC8 7 (str "xy") (str "ab") (str "cd")
    (by decide) (by decide) (by decide)
  refine ⟨?_, ?_, ?_⟩
  · have := h3.1 (Or.inl (by decide))
    rw [this]
    rfl
  · have := h3.2 (by decide)
    rw [this]
    rfl
  · have := h7.1 (Or.inr ⟨str "<w:br/>", by decide⟩)
    rw [this]
    rfl

/-! ## C6: the tag-nesting validation gate in translateDocx -/

/-- C6: if the reconstructed document XML fails the tag open/close nesting
balance check, `translateDocx` throws (`Except.error`) and `repackDocx` is
never invoked for the translated content — the write log is empty, so no
output file is written. -/
theorem c6_validate_gate (docXml : Str)
    (translate : List ParagraphChunk → Except TrErr (List ParagraphChunk))
    (tcs : List ParagraphChunk)
    (h1 : ((replaceTagsWithIds (chunkParagraphs docXml)).1.any (·.hasText)) = true)
    (h2 : translate (replaceTagsWithIds (chunkParagraphs docXml)).1 = .ok tcs)
    (h3 : validateXml
      (reconstructXml docXml tcs (replaceTagsWithIds (chunkParagraphs docXml)).2) = false) :
    translateDocx docXml translate = ([], .error .malformedXml) := by
  have hne : (replaceTagsWithIds (chunkParagraphs docXml)).1.isEmpty = false := by
    cases hc : (replaceTagsWithIds (chunkParagraphs docXml)).1 with
    | nil => rw [hc] at h1; simp at h1
    | cons a l => simp
  simp only [translateDocx, hne, h1, Bool.not_true, Bool.or_false, Bool.false_eq_true,
    if_false, h2, h3]

/-- Concrete document for the C6 witness. -/
def exDocC6 : Str := str "<w:body><w:p ><w:r><w:t>Hi</w:t></w:r></w:p></w:body>"

/-- A "translator" that drops the trailing `[TAG:3]` marker (which stores the
`</w:p>` fragment), producing an unclosed `<w:p` on reconstruction. -/
def exTransC6 : List ParagraphChunk → Except TrErr (List ParagraphChunk) :=
  fun cs => .ok (cs.map (fun c =>
    { c with simplifiedText := str "[TAG:1][RUN:2]Hi[/RUN:2]" }))

/-- C6 witness: the dropped paragraph-close marker makes validation fail, the
run errors, and nothing is passed to `repackDocx`. -/
theorem c6_validate_gate_witness :
    translateDocx exDocC6 exTransC6 = ([], .error .malformedXml) :=
  c6_validate_gate exDocC6 exTransC6 _ (by decide) rfl (by decide)

/-! ## C10: response parsing in translateBatch -/

theorem parsePush_mem {batch : List ParagraphChunk} {ms : List (Nat × Str)}
    {id : Nat} {content : Str} (h : (id, content) ∈ ms)
    {c : ParagraphChunk} (hc : batch.find? (fun x => x.index == id) = some c) :
    (∃ r ∈ (parsePush batch ms).1,
        r.index = c.index ∧ r.hasText = true ∧
        r.simplifiedText = (if jsTrim content = [] then c.simplifiedText else jsTrim content))
      ∧ id ∈ (parsePush batch ms).2 := by
  induction ms with
  | nil => simp at h
  | cons p rest ih =>
    obtain ⟨jd, jc⟩ := p
    rw [List.mem_cons] at h
    rcases h with h | h
    · obtain ⟨h1, h2⟩ := Prod.mk.injEq .. ▸ h
      subst h1
      subst h2
      rw [parsePush]
      simp only [hc]
      refine ⟨⟨_, List.mem_cons_self _ _, rfl, rfl, rfl⟩, List.mem_cons_self _ _⟩
    · have := ih h
      rw [parsePush]
      cases hf : batch.find? (fun x => x.index == jd) with
      | none =>
        simpa [hf] using this
      | some orig =>
        obtain ⟨⟨r, hr, hprops⟩, hid⟩ := this
        exact ⟨⟨r, List.mem_cons_of_mem _ hr, hprops⟩, List.mem_cons_of_mem _ hid⟩

/-- C10: when `translateBatch` parses a backend response, every parsed unit
whose id is found in the batch is stored with its content trimmed of leading
and trailing whitespace; a unit whose trimmed content is empty keeps the
original `simplifiedText` (`translatedText || original.simplifiedText`); in
both cases `hasText` is forced `true` and the unit counts as translated (it is
never listed as missing). -/
theorem c10_trim_and_empty_fallback (resp : Str) (batch : List ParagraphChunk)
    (id : Nat) (content : Str) (h : (id, content) ∈ respMatches resp)
    (c : ParagraphChunk) (hc : batch.find? (fun x => x.index == id) = some c) :
    (∃ r ∈ (translateBatchParse resp batch).translated,
        r.index = c.index ∧ r.hasText = true ∧
        r.simplifiedText = (if jsTrim content = [] then c.simplifiedText else jsTrim content))
      ∧ ∀ x ∈ (translateBatchParse resp batch).missing, x.index ≠ id := by
  have hmem := parsePush_mem h hc
  constructor
  · exact hmem.1
  · intro x hx
    simp only [translateBatchParse, List.mem_filter, Bool.not_eq_eq_eq_not, Bool.not_true] at hx
    intro he
    have : (parsePush batch (respMatches resp)).2.contains x.index = true := by
      rw [he]
      exact List.elem_eq_true_of_mem hmem.2
    rw [hx.2] at this
    exact Bool.false_ne_true this

/-- C10 witness: a response with a whitespace-only unit (id 0) and a unit
needing trimming (id 2).  Unit 0 keeps its original text, unit 2 is stored
trimmed; both have `hasText = true` and neither is missing. -/
theorem c10_trim_and_empty_fallback_witness :
    (∃ r ∈ (translateBatchParse (str "<p id=\"0\">   </p><p id=\"2\"> W </p>")
        [⟨0, str "hello", true⟩, ⟨2, str "world", true⟩]).translated,
      r.index = 0 ∧ r.hasText = true ∧ r.simplifiedText = str "hello")
    ∧ (∃ r ∈ (translateBatchParse (str "<p id=\"0\">   </p><p id=\"2\"> W </p>")
        [⟨0, str "hello", true⟩, ⟨2, str "world", true⟩]).translated,
      r.index = 2 ∧ r.hasText = true ∧ r.simplifiedText = str "W") := by
  have h0 := c10_trim_and_empty_fallback (str "<p id=\"0\">   </p><p id=\"2\"> W </p>")
    [⟨0, str "hello", true⟩, ⟨2, str "world", true⟩] 0 (str "   ")
    (by decide) ⟨0, str "hello", true⟩ (by decide)
  have h2 := c10_trim_and_empty_fallback (str "<p id=\"0\">   </p><p id=\"2\"> W </p>")
    [⟨0, str "hello", true⟩, ⟨2, str "world", true⟩] 2 (str " W ")
    (by decide) ⟨2, str "world", true⟩ (by decide)
  constructor
  · obtain ⟨⟨r, hr, hp1, hp2, hp3⟩, _⟩ := h0
    exact ⟨r, hr, hp1, hp2, by rw [hp3]; rfl⟩
  · obtain ⟨⟨r, hr, hp1, hp2, hp3⟩, _⟩ := h2
    exact ⟨r, hr, hp1, hp2, by rw [hp3]; rfl⟩

/-! ## Orchestrator invariants: writeResults -/

theorem writeResults_length (rs : List (Option ParagraphChunk)) (cs : List ParagraphChunk) :
    (writeResults rs cs).length = rs.length := by
  induction cs generalizing rs with
  | nil => rfl
  | cons c cs ih =>
    rw [writeResults, List.foldl_cons]
    rw [show List.foldl (fun acc c => acc.set c.index (some c)) (rs.set c.index (some c)) cs
      = writeResults (rs.set c.index (some c)) cs from rfl]
    rw [ih]
    simp

theorem writeResults_untouched (rs : List (Option ParagraphChunk))
    (cs : List ParagraphChunk) {i : Nat} (h : ∀ c ∈ cs, c.index ≠ i) :
    (writeResults rs cs).get? i = rs.get? i := by
  induction cs generalizing rs with
  | nil => rfl
  | cons c cs ih =>
    rw [writeResults, List.foldl_cons]
    rw [show List.foldl (fun acc c => acc.set c.index (some c)) (rs.set c.index (some c)) cs
      = writeResults (rs.set c.index (some c)) cs from rfl]
    rw [ih _ (fun d hd => h d (by simp [hd]))]
    exact List.get?_set_ne _ _ (h c (by simp))

theorem writeResults_from (rs : List (Option ParagraphChunk)) (cs : List ParagraphChunk)
    {i : Nat} {v : Option ParagraphChunk} (h : (writeResults rs cs).get? i = some v) :
    rs.get? i = some v ∨ ∃ c ∈ cs, c.index = i ∧ v = some c := by
  induction cs generalizing rs with
  | nil => exact Or.inl h
  | cons c cs ih =>
    rw [writeResults, List.foldl_cons] at h
    rw [show List.foldl (fun acc c => acc.set c.index (some c)) (rs.set c.index (some c)) cs
      = writeResults (rs.set c.index (some c)) cs from rfl] at h
    rcases ih _ h with h2 | ⟨d, hd, hdi, hdv⟩
    · by_cases hie : c.index = i
      · subst hie
        by_cases hlt : c.index < rs.length
        · rw [List.get?_set_eq_of_lt _ hlt] at h2
          exact Or.inr ⟨c, by simp, rfl, (Option.some.inj h2).symm⟩
        · rw [List.get?_eq_none.mpr (by simpa using hlt)] at h2
          exact Option.noConfusion h2
      · rw [List.get?_set_ne _ _ hie] at h2
        exact Or.inl h2
    · exact Or.inr ⟨d, by simp [hd], hdi, hdv⟩

theorem writeResults_covers (rs : List (Option ParagraphChunk)) (cs : List ParagraphChunk)
    {i : Nat} (hex : ∃ c ∈ cs, c.index = i) (hlt : i < rs.length) :
    ∃ r, (writeResults rs cs).get? i = some (some r) := by
  induction cs generalizing rs with
  | nil => simp at hex
  | cons c cs ih =>
    rw [writeResults, List.foldl_cons]
    rw [show List.foldl (fun acc c => acc.set c.index (some c)) (rs.set c.index (some c)) cs
      = writeResults (rs.set c.index (some c)) cs from rfl]
    obtain ⟨d, hd, hdi⟩ := hex
    rw [List.mem_cons] at hd
    rcases hd with hd | hd
    · subst hd
      by_cases hin : ∃ e ∈ cs, e.index = i
      · exact ih _ hin (by simpa using hlt)
      · push_neg at hin
        have := writeResults_untouched (rs.set d.index (some d)) cs
          (fun e he => by simpa using hin e he)
        rw [this, hdi, List.get?_set_eq_of_lt _ (hdi ▸ hlt)]
        exact ⟨d, rfl⟩
    · exact ih _ ⟨d, hd, hdi⟩ (by simpa using hlt)

theorem writeResults_mono (rs : List (Option ParagraphChunk)) (cs : List ParagraphChunk)
    {i : Nat} {r : ParagraphChunk} (h : rs.get? i = some (some r)) :
    ∃ r', (writeResults rs cs).get? i = some (some r') := by
  induction cs generalizing rs r with
  | nil => exact ⟨r, h⟩
  | cons c cs ih =>
    rw [writeResults, List.foldl_cons]
    rw [show List.foldl (fun acc c => acc.set c.index (some c)) (rs.set c.index (some c)) cs
      = writeResults (rs.set c.index (some c)) cs from rfl]
    by_cases hie : c.index = i
    · subst hie
      have hlt : c.index < rs.length := by
        have := List.get?_eq_some.mp h
        obtain ⟨hw, _⟩ := this
        exact hw
      exact ih (rs.set c.index (some c))
        (by rw [List.get?_set_eq_of_lt _ hlt])
    · exact ih (rs.set c.index (some c))
        (by rw [List.get?_set_ne _ _ hie]; exact h)

/-! ## Orchestrator invariants: batch parsing -/

theorem parsePush_src {batch : List ParagraphChunk} {ms : List (Nat × Str)}
    {r : ParagraphChunk} (h : r ∈ (parsePush batch ms).1) :
    (∃ orig ∈ batch, orig.index = r.index) ∧ ∃ content, (r.index, content) ∈ ms := by
  induction ms with
  | nil => simp [parsePush] at h
  | cons p rest ih =>
    obtain ⟨jd, jc⟩ := p
    rw [parsePush] at h
    cases hf : batch.find? (fun x => x.index == jd) with
    | none =>
      rw [hf] at h
      have h2 : r ∈ (parsePush batch rest).1 := h
      obtain ⟨⟨o, ho, hoi⟩, ⟨ct, hct⟩⟩ := ih h2
      exact ⟨⟨o, ho, hoi⟩, ct, by simp [hct]⟩
    | some orig =>
      rw [hf] at h
      have h2 : r ∈ ({ orig with
          simplifiedText := if jsTrim jc = [] then orig.simplifiedText else jsTrim jc,
          hasText := true } : ParagraphChunk) :: (parsePush batch rest).1 := h
      rw [List.mem_cons] at h2
      rcases h2 with h2 | h2
      · subst h2
        have hoi : orig.index = jd := by
          have := List.find?_some hf
          simpa using this
        refine ⟨⟨orig, List.mem_of_find?_eq_some hf, rfl⟩, jc, ?_⟩
        simp [hoi]
      · obtain ⟨⟨o, ho, hoi⟩, ⟨ct, hct⟩⟩ := ih h2
        exact ⟨⟨o, ho, hoi⟩, ct, by simp [hct]⟩

theorem parsePush_found {batch : List ParagraphChunk} {ms : List (Nat × Str)}
    {id : Nat} (h : id ∈ (parsePush batch ms).2) :
    ∃ t ∈ (parsePush batch ms).1, t.index = id := by
  induction ms with
  | nil => simp [parsePush] at h
  | cons p rest ih =>
    obtain ⟨jd, jc⟩ := p
    rw [parsePush] at h ⊢
    cases hf : batch.find? (fun x => x.index == jd) with
    | none =>
      rw [hf] at h
      exact ih h
    | some orig =>
      rw [hf] at h
      have h2 : id ∈ jd :: (parsePush batch rest).2 := h
      rw [List.mem_cons] at h2
      rcases h2 with h2 | h2
      · subst h2
        have hoi : orig.index = id := by
          have := List.find?_some hf
          simpa using this
        exact ⟨_, List.mem_cons_self _ _, hoi⟩
      · obtain ⟨t, ht, hti⟩ := ih h2
        exact ⟨t, List.mem_cons_of_mem _ ht, hti⟩

/-- Batch-level facts used by the orchestrator invariants: missing chunks are
batch members; translated chunks carry the index of some batch member and of
some parsed response unit from the oracle call; every batch member is either
translated (by index) or missing; every dispatched-batch log entry is the
batch itself. -/
theorem translateBatch_spec (oracle : Nat → Option Str) (ctr : Nat)
    (batch : List ParagraphChunk) :
    (∀ c ∈ (translateBatch oracle ctr batch).1.missing, c ∈ batch) ∧
    (∀ c ∈ (translateBatch oracle ctr batch).1.translated,
      (∃ orig ∈ batch, orig.index = c.index) ∧
      ∃ resp content, oracle ctr = some resp ∧ (c.index, content) ∈ respMatches resp) ∧
    (∀ orig ∈ batch,
      (∃ t ∈ (translateBatch oracle ctr batch).1.translated, t.index = orig.index) ∨
      orig ∈ (translateBatch oracle ctr batch).1.missing) ∧
    (∀ b ∈ (translateBatch oracle ctr batch).2.2, b = batch) := by
  rw [translateBatch]
  by_cases hb : batch = []
  · subst hb
    simp
  · rw [if_neg hb]
    cases ho : oracle ctr with
    | none =>
      refine ⟨fun c hc => hc, fun c hc => by simp at hc, fun orig ho2 => Or.inr ho2, ?_⟩
      intro b hbm
      simpa using hbm
    | some resp =>
      refine ⟨?_, ?_, ?_, ?_⟩
      · intro c hc
        simp only [translateBatchParse, List.mem_filter] at hc
        exact hc.1
      · intro c hc
        simp only [translateBatchParse] at hc
        obtain ⟨⟨o, ho2, hoi⟩, ⟨ct, hct⟩⟩ := parsePush_src hc
        exact ⟨⟨o, ho2, hoi⟩, resp, ct, rfl, hct⟩
      · intro orig ho2
        simp only [translateBatchParse, List.mem_filter]
        by_cases hfound :
            (parsePush batch (respMatches resp)).2.contains orig.index = true
        · left
          obtain ⟨t, ht, hti⟩ := parsePush_found (List.mem_of_elem_eq_true hfound)
          exact ⟨t, ht, hti⟩
        · right
          refine ⟨ho2, ?_⟩
          rw [Bool.not_eq_true] at hfound
          rw [hfound]
          rfl
      · intro b hbm
        have hbm2 : b ∈ [batch] := hbm
        simpa using hbm2

/-! ## Wave-level invariants -/

theorem waveResults_spec (oracle : Nat → Option Str) (ctr : Nat)
    (wave : List (List ParagraphChunk)) :
    (∀ br ∈ (waveResults oracle ctr wave).1, ∀ c ∈ br.missing, ∃ b ∈ wave, c ∈ b) ∧
    (∀ br ∈ (waveResults oracle ctr wave).1, ∀ c ∈ br.translated,
      (∃ b ∈ wave, ∃ orig ∈ b, orig.index = c.index) ∧
      ∃ k resp content, oracle k = some resp ∧ (c.index, content) ∈ respMatches resp) ∧
    (∀ b ∈ wave, ∀ orig ∈ b,
      (∃ br ∈ (waveResults oracle ctr wave).1, ∃ t ∈ br.translated, t.index = orig.index) ∨
      (∃ br ∈ (waveResults oracle ctr wave).1, orig ∈ br.missing)) ∧
    (∀ b ∈ (waveResults oracle ctr wave).2.2, b ∈ wave) := by
  induction wave generalizing ctr with
  | nil => exact ⟨by simp [waveResults], by simp [waveResults], by simp, by simp [waveResults]⟩
  | cons b bs ih =>
    obtain ⟨tb1, tb2, tb3, tb4⟩ := translateBatch_spec oracle ctr b
    obtain ⟨ih1, ih2, ih3, ih4⟩ := ih (translateBatch oracle ctr b).2.1
    rw [waveResults]
    refine ⟨?_, ?_, ?_, ?_⟩
    · intro br hbr c hc
      rw [List.mem_cons] at hbr
      rcases hbr with hbr | hbr
      · subst hbr
        exact ⟨b, by simp, tb1 c hc⟩
      · obtain ⟨b2, hb2, hcb2⟩ := ih1 br hbr c hc
        exact ⟨b2, by simp [hb2], hcb2⟩
    · intro br hbr c hc
      rw [List.mem_cons] at hbr
      rcases hbr with hbr | hbr
      · subst hbr
        obtain ⟨⟨o, ho, hoi⟩, resp, ct, hresp, hct⟩ := tb2 c hc
        exact ⟨⟨b, by simp, o, ho, hoi⟩, ctr, resp, ct, hresp, hct⟩
      · obtain ⟨⟨b2, hb2, o, ho, hoi⟩, k, resp, ct, hresp, hct⟩ := ih2 br hbr c hc
        exact ⟨⟨b2, by simp [hb2], o, ho, hoi⟩, k, resp, ct, hresp, hct⟩
    · intro b2 hb2 orig ho
      rw [List.mem_cons] at hb2
      rcases hb2 with hb2 | hb2
      · subst hb2
        rcases tb3 orig ho with ⟨t, ht, hti⟩ | hmiss
        · exact Or.inl ⟨_, List.mem_cons_self _ _, t, ht, hti⟩
        · exact Or.inr ⟨_, List.mem_cons_self _ _, hmiss⟩
      · rcases ih3 b2 hb2 orig ho with ⟨br, hbr, t, ht, hti⟩ | ⟨br, hbr, hmiss⟩
        · exact Or.inl ⟨br, List.mem_cons_of_mem _ hbr, t, ht, hti⟩
        · exact Or.inr ⟨br, List.mem_cons_of_mem _ hbr, hmiss⟩
    · intro b2 hb2
      rw [List.mem_append] at hb2
      rcases hb2 with hb2 | hb2
      · have := tb4 b2 hb2
        subst this
        simp
      · exact List.mem_cons_of_mem _ (ih4 b2 hb2)

theorem joinWave_meta (st : OrchSt) (mis : List ParagraphChunk) (brs : List BatchResult) :
    (joinWave st mis brs).1.ctr = st.ctr ∧ (joinWave st mis brs).1.calls = st.calls ∧
    (joinWave st mis brs).1.progress = st.progress ∧
    (joinWave st mis brs).1.results.length = st.results.length := by
  induction brs generalizing st mis with
  | nil => exact ⟨rfl, rfl, rfl, rfl⟩
  | cons br rest ih =>
    rw [joinWave]
    obtain ⟨i1, i2, i3, i4⟩ := ih { st with results := writeResults st.results br.translated }
      (mis ++ br.missing)
    exact ⟨i1, i2, i3, by rw [i4]; exact writeResults_length _ _⟩

theorem joinWave_from (st : OrchSt) (mis : List ParagraphChunk) (brs : List BatchResult)
    {i : Nat} {v : Option ParagraphChunk}
    (h : (joinWave st mis brs).1.results.get? i = some v) :
    st.results.get? i = some v ∨ ∃ br ∈ brs, ∃ c ∈ br.translated, c.index = i ∧ v = some c := by
  induction brs generalizing st mis with
  | nil => exact Or.inl h
  | cons br rest ih =>
    rw [joinWave] at h
    rcases ih _ _ h with h2 | ⟨br2, hbr2, c, hc, hci, hcv⟩
    · rcases writeResults_from _ _ h2 with h3 | ⟨c, hc, hci, hcv⟩
      · exact Or.inl h3
      · exact Or.inr ⟨br, List.mem_cons_self _ _, c, hc, hci, hcv⟩
    · exact Or.inr ⟨br2, List.mem_cons_of_mem _ hbr2, c, hc, hci, hcv⟩

theorem joinWave_mono (st : OrchSt) (mis : List ParagraphChunk) (brs : List BatchResult)
    {i : Nat} {r : ParagraphChunk} (h : st.results.get? i = some (some r)) :
    ∃ r', (joinWave st mis brs).1.results.get? i = some (some r') := by
  induction brs generalizing st mis r with
  | nil => exact ⟨r, h⟩
  | cons br rest ih =>
    rw [joinWave]
    obtain ⟨r2, hr2⟩ := writeResults_mono st.results br.translated h
    exact ih _ _ hr2

theorem joinWave_mis (st : OrchSt) (mis : List ParagraphChunk) (brs : List BatchResult) :
    (∀ x ∈ mis, x ∈ (joinWave st mis brs).2) ∧
    (∀ br ∈ brs, ∀ c ∈ br.missing, c ∈ (joinWave st mis brs).2) ∧
    (∀ x ∈ (joinWave st mis brs).2, x ∈ mis ∨ ∃ br ∈ brs, x ∈ br.missing) := by
  induction brs generalizing st mis with
  | nil => exact ⟨fun x hx => hx, by simp, fun x hx => Or.inl hx⟩
  | cons br rest ih =>
    rw [joinWave]
    obtain ⟨i1, i2, i3⟩ := ih { st with results := writeResults st.results br.translated }
      (mis ++ br.missing)
    refine ⟨?_, ?_, ?_⟩
    · intro x hx
      exact i1 x (by simp [hx])
    · intro br2 hbr2 c hc
      rw [List.mem_cons] at hbr2
      rcases hbr2 with hbr2 | hbr2
      · subst hbr2
        exact i1 c (by simp [hc])
      · exact i2 br2 hbr2 c hc
    · intro x hx
      rcases i3 x hx with h2 | ⟨br2, hbr2, hmiss⟩
      · rw [List.mem_append] at h2
        rcases h2 with h2 | h2
        · exact Or.inl h2
        · exact Or.inr ⟨br, List.mem_cons_self _ _, h2⟩
      · exact Or.inr ⟨br2, List.mem_cons_of_mem _ hbr2, hmiss⟩

theorem joinWave_covers (st : OrchSt) (mis : List ParagraphChunk) (brs : List BatchResult)
    {br : BatchResult} (hbr : br ∈ brs) {t : ParagraphChunk} (ht : t ∈ br.translated)
    (hlt : t.index < st.results.length) :
    ∃ r, (joinWave st mis brs).1.results.get? t.index = some (some r) := by
  induction brs generalizing st mis with
  | nil => simp at hbr
  | cons br2 rest ih =>
    rw [joinWave]
    rw [List.mem_cons] at hbr
    rcases hbr with hbr | hbr
    · subst hbr
      obtain ⟨r, hr⟩ := writeResults_covers st.results br.translated ⟨t, ht, rfl⟩ hlt
      exact joinWave_mono _ _ _ hr
    · exact ih _ _ hbr (by simpa [writeResults_length] using hlt)

/-! ## The wave loop invariant -/

theorem waveLoopF_spec (chunks : List ParagraphChunk)
    (oracle : Nat → Option Str) (conc : Nat) (hconc : conc ≠ 0) :
    ∀ (fuel : Nat) (batches : List (List ParagraphChunk)) (st : OrchSt)
      (mis : List ParagraphChunk),
    batches.length ≤ fuel →
    (∀ b ∈ batches, ∀ c ∈ b, c ∈ chunks.filter translatable) →
    ∃ st' mis',
      waveLoopF oracle conc false fuel batches st mis = .ok (st', mis') ∧
      st'.results.length = st.results.length ∧
      st'.progress = st.progress ∧
      (∀ b ∈ st'.calls, b ∈ st.calls ∨ b ∈ batches) ∧
      (∀ x ∈ mis, x ∈ mis') ∧
      (∀ x ∈ mis', x ∈ mis ∨ ∃ b ∈ batches, x ∈ b) ∧
      (∀ i v, st'.results.get? i = some v → st.results.get? i = some v ∨
        ∃ r, v = some r ∧ r.index = i ∧ (∃ b ∈ batches, ∃ orig ∈ b, orig.index = i) ∧
          ∃ k resp content, oracle k = some resp ∧ (i, content) ∈ respMatches resp) ∧
      (∀ i r, st.results.get? i = some (some r) →
        ∃ r', st'.results.get? i = some (some r')) ∧
      (∀ ix, (∃ b ∈ batches, ∃ x ∈ b, x.index = ix) → ix < st.results.length →
        (∃ r, st'.results.get? ix = some (some r)) ∨ ∃ x ∈ mis', x.index = ix) := by
  intro fuel
  induction fuel with
  | zero =>
    intro batches st mis hlen hb
    rw [Nat.le_zero] at hlen
    have hbe : batches = [] := List.length_eq_zero.mp hlen
    subst hbe
    refine ⟨st, mis, rfl, rfl, rfl, fun b hb2 => Or.inl hb2, fun x hx => hx,
      fun x hx => Or.inl hx, fun i v hv => Or.inl hv, fun i r hr => ⟨r, hr⟩, ?_⟩
    rintro ix ⟨b, hb2, -⟩
    simp at hb2
  | succ n ih =>
    intro batches st mis hlen hb
    cases batches with
    | nil =>
      refine ⟨st, mis, rfl, rfl, rfl, fun b hb2 => Or.inl hb2, fun x hx => hx,
        fun x hx => Or.inl hx, fun i v hv => Or.inl hv, fun i r hr => ⟨r, hr⟩, ?_⟩
      rintro ix ⟨b, hb2, -⟩
      simp at hb2
    | cons b bs =>
      rw [waveLoopF, if_neg (by simp)]
      set wave := (b :: bs).take conc with hwave
      set wr := waveResults oracle st.ctr wave with hwr
      set stmid : OrchSt := { st with ctr := wr.2.1, calls := st.calls ++ wr.2.2 } with hstmid
      set jw := joinWave stmid mis wr.1 with hjw
      have hwave_sub : ∀ b2 ∈ wave, b2 ∈ b :: bs := fun b2 h2 => List.take_subset _ _ h2
      have hdrop_sub : ∀ b2 ∈ (b :: bs).drop conc, b2 ∈ b :: bs :=
        fun b2 h2 => List.drop_subset _ _ h2
      obtain ⟨wf1, wf2, wf3, wf4⟩ := waveResults_spec oracle st.ctr wave
      obtain ⟨jm1, jm2, jm3⟩ := joinWave_mis stmid mis wr.1
      obtain ⟨me1, me2, me3, me4⟩ := joinWave_meta stmid mis wr.1
      have hdlen : ((b :: bs).drop conc).length ≤ n := by
        have h1 : 0 < conc := Nat.pos_of_ne_zero hconc
        simp only [List.length_drop, List.length_cons] at *
        omega
      have hdb : ∀ b2 ∈ (b :: bs).drop conc, ∀ c ∈ b2, c ∈ chunks.filter translatable :=
        fun b2 h2 => hb b2 (hdrop_sub b2 h2)
      obtain ⟨st', mis', e0, e1, e2, e3, e4, e5, e6, e7, e8⟩ :=
        ih ((b :: bs).drop conc) jw.1 jw.2 hdlen hdb
      refine ⟨st', mis', e0, ?_, ?_, ?_, ?_, ?_, ?_, ?_, ?_⟩
      · rw [e1, me4]
      · rw [e2, me3]
      · intro b2 hb2
        rcases e3 b2 hb2 with h2 | h2
        · rw [me2] at h2
          simp only [hstmid] at h2
          rw [List.mem_append] at h2
          rcases h2 with h2 | h2
          · exact Or.inl h2
          · exact Or.inr (hwave_sub b2 (wf4 b2 h2))
        · exact Or.inr (hdrop_sub b2 h2)
      · intro x hx
        exact e4 x (jm1 x hx)
      · intro x hx
        rcases e5 x hx with h2 | h2
        · rcases jm3 x h2 with h3 | ⟨br, hbr, h3⟩
          · exact Or.inl h3
          · obtain ⟨b2, hb2, hxb2⟩ := wf1 br hbr x h3
            exact Or.inr ⟨b2, hwave_sub b2 hb2, hxb2⟩
        · obtain ⟨b2, hb2, hxb2⟩ := h2
          exact Or.inr ⟨b2, hdrop_sub b2 hb2, hxb2⟩
      · intro i v hv
        rcases e6 i v hv with h2 | h2
        · rcases joinWave_from stmid mis wr.1 h2 with h3 | ⟨br, hbr, c, hc, hci, hcv⟩
          · exact Or.inl h3
          · obtain ⟨⟨b2, hb2, o, ho, hoi⟩, k, resp, ct, hresp, hct⟩ := wf2 br hbr c hc
            exact Or.inr ⟨c, hcv, hci, ⟨b2, hwave_sub b2 hb2, o, ho, hci ▸ hoi⟩,
              k, resp, ct, hresp, hci ▸ hct⟩
        · obtain ⟨r, hvr, hri, ⟨b2, hb2, o, ho, hoi⟩, k, resp, ct, hresp, hct⟩ := h2
          exact Or.inr ⟨r, hvr, hri, ⟨b2, hdrop_sub b2 hb2, o, ho, hoi⟩,
            k, resp, ct, hresp, hct⟩
      · intro i r hr
        obtain ⟨r2, hr2⟩ := joinWave_mono stmid mis wr.1 hr
        exact e7 i r2 hr2
      · intro ix hex hlt
        obtain ⟨b2, hb2, x, hx, hxi⟩ := hex
        by_cases hwm : b2 ∈ wave
        · rcases wf3 b2 hwm x hx with ⟨br, hbr, t, ht, hti⟩ | ⟨br, hbr, hmiss⟩
          · have hcov := joinWave_covers stmid mis wr.1 hbr ht
              (by simpa using hti.symm ▸ hxi ▸ hlt)
            obtain ⟨r, hrr⟩ := hcov
            rw [hti, hxi] at hrr
            obtain ⟨r', hr'⟩ := e7 ix r hrr
            exact Or.inl ⟨r', hr'⟩
          · have hxmis : x ∈ jw.2 := jm2 br hbr x hmiss
            exact Or.inr ⟨x, e4 x hxmis, hxi⟩
        · have hsplit : b2 ∈ wave ++ (b :: bs).drop conc := by
            rw [hwave, List.take_append_drop]
            exact hb2
          rcases List.mem_append.mp hsplit with h3 | h3
          · exact absurd h3 hwm
          · refine e8 ix ⟨b2, h3, x, hx, hxi⟩ ?_
            show ix < (joinWave stmid mis wr.1).1.results.length
            rw [(joinWave_meta stmid mis wr.1).2.2.2]
            exact hlt

/-! ## The retry loop invariant -/

theorem retryLoop_spec (chunks : List ParagraphChunk)
    (oracle : Nat → Option Str) (conc : Nat) (hconc : conc ≠ 0) :
    ∀ (r attempt : Nat) (missing : List ParagraphChunk) (st : OrchSt),
    (∀ c ∈ missing, c ∈ chunks.filter translatable) →
    ∃ st' mis',
      retryLoop oracle conc false r attempt missing st = .ok (st', mis') ∧
      st'.results.length = st.results.length ∧
      (∀ b ∈ st'.calls, b ∈ st.calls ∨ ∃ x ∈ chunks.filter translatable, b = [x]) ∧
      (∀ x ∈ mis', x ∈ chunks.filter translatable) ∧
      (∀ i v, st'.results.get? i = some v → st.results.get? i = some v ∨
        ∃ r2, v = some r2 ∧ r2.index = i ∧
          (∃ orig ∈ chunks.filter translatable, orig.index = i) ∧
          ∃ k resp content, oracle k = some resp ∧ (i, content) ∈ respMatches resp) ∧
      (∀ i r2, st.results.get? i = some (some r2) →
        ∃ r2', st'.results.get? i = some (some r2')) ∧
      (∀ ix, (∃ x ∈ missing, x.index = ix) → ix < st.results.length →
        (∃ r2, st'.results.get? ix = some (some r2)) ∨ ∃ x ∈ mis', x.index = ix) := by
  intro r
  induction r with
  | zero =>
    intro attempt missing st hm
    exact ⟨st, missing, rfl, rfl, fun b hb => Or.inl hb, hm, fun i v hv => Or.inl hv,
      fun i r2 hr => ⟨r2, hr⟩, fun ix hex _ => Or.inr hex⟩
  | succ rr ih =>
    intro attempt missing st hm
    cases missing with
    | nil =>
      refine ⟨st, [], rfl, rfl, fun b hb => Or.inl hb, by simp, fun i v hv => Or.inl hv,
        fun i r2 hr => ⟨r2, hr⟩, ?_⟩
      rintro ix ⟨x, hx, -⟩
      simp at hx
    | cons c cs =>
      rw [retryLoop, if_neg (by simp)]
      set st1 : OrchSt := { st with progress := st.progress ++
        [retryMsg attempt (c :: cs).length
          (joinComma ((c :: cs).map (fun x => natDigits x.index)))] } with hst1
      set batches1 := (c :: cs).map (fun x => [x]) with hbatches1
      have hbatch : ∀ b ∈ (c :: cs).map (fun x => [x]), ∀ d ∈ b,
          d ∈ chunks.filter translatable := by
        intro b hb d hd
        obtain ⟨x, hx, hbx⟩ := List.mem_map.mp hb
        subst hbx
        rw [List.mem_singleton] at hd
        subst hd
        exact hm d hx
      obtain ⟨st2, still, w0, w1, w2, w3, w4, w5, w6, w7, w8⟩ :=
        waveLoopF_spec chunks oracle conc hconc (c :: cs).length
          batches1 st1 [] (by simp [hbatches1]) hbatch
      rw [w0]
      have hstill : ∀ d ∈ still, d ∈ chunks.filter translatable := by
        intro d hd
        rcases w5 d hd with h2 | ⟨b, hb, hdb⟩
        · simp at h2
        · obtain ⟨x, hx, hbx⟩ := List.mem_map.mp hb
          subst hbx
          rw [List.mem_singleton] at hdb
          subst hdb
          exact hm d hx
      obtain ⟨st', mis', i0, i1, i2, i3, i4, i5, i6⟩ := ih (attempt + 1) still st2 hstill
      refine ⟨st', mis', i0, ?_, ?_, i3, ?_, ?_, ?_⟩
      · rw [i1, w1]
      · intro b hb
        rcases i2 b hb with h2 | h2
        · rcases w3 b h2 with h3 | h3
          · exact Or.inl h3
          · obtain ⟨x, hx, hbx⟩ := List.mem_map.mp h3
            exact Or.inr ⟨x, hm x hx, hbx.symm⟩
        · exact Or.inr h2
      · intro i v hv
        rcases i4 i v hv with h2 | h2
        · rcases w6 i v h2 with h3 | ⟨r2, hvr, hri, ⟨b, hb, o, ho, hoi⟩, k, resp, ct, hr, hct⟩
          · exact Or.inl h3
          · obtain ⟨x, hx, hbx⟩ := List.mem_map.mp hb
            subst hbx
            rw [List.mem_singleton] at ho
            subst ho
            exact Or.inr ⟨r2, hvr, hri, ⟨o, hm o hx, hoi⟩, k, resp, ct, hr, hct⟩
        · exact Or.inr h2
      · intro i r2 hr
        obtain ⟨r3, hr3⟩ := w7 i r2 hr
        exact i5 i r3 hr3
      · intro ix hex hlt
        obtain ⟨x, hx, hxi⟩ := hex
        have hbex : ∃ b ∈ (c :: cs).map (fun y => [y]), ∃ d ∈ b, d.index = ix :=
          ⟨[x], List.mem_map.mpr ⟨x, hx, rfl⟩, x, List.mem_singleton.mpr rfl, hxi⟩
        rcases w8 ix hbex hlt with ⟨r2, hr2⟩ | ⟨d, hd, hdi⟩
        · obtain ⟨r3, hr3⟩ := i5 ix r2 hr2
          exact Or.inl ⟨r3, hr3⟩
        · exact i6 ix ⟨d, hd, hdi⟩ (by rw [w1]; exact hlt)

/-! ## Top-level orchestrator helpers -/

theorem chunkBatchesF_subset (bs : Nat) :
    ∀ (fuel : Nat) (l : List ParagraphChunk), ∀ b ∈ chunkBatchesF fuel bs l, ∀ c ∈ b, c ∈ l := by
  intro fuel
  induction fuel with
  | zero =>
    intro l b hb
    simp [chunkBatchesF] at hb
  | succ n ih =>
    intro l b hb c hc
    cases l with
    | nil => simp [chunkBatchesF] at hb
    | cons x xs =>
      rw [chunkBatchesF] at hb
      rw [List.mem_cons] at hb
      rcases hb with hb | hb
      · subst hb
        exact List.take_subset _ _ hc
      · exact List.drop_subset _ _ (ih _ b hb c hc)

theorem chunkBatchesF_covers (bs : Nat) (hbs : bs ≠ 0) :
    ∀ (fuel : Nat) (l : List ParagraphChunk), l.length ≤ fuel →
      ∀ c ∈ l, ∃ b ∈ chunkBatchesF fuel bs l, c ∈ b := by
  intro fuel
  induction fuel with
  | zero =>
    intro l hl c hc
    cases l with
    | nil => simp at hc
    | cons x xs => simp at hl
  | succ n ih =>
    intro l hl c hc
    cases l with
    | nil => simp at hc
    | cons x xs =>
      rw [chunkBatchesF]
      have hsplit : c ∈ (x :: xs).take bs ++ (x :: xs).drop bs := by
        rw [List.take_append_drop]
        exact hc
      rcases List.mem_append.mp hsplit with h | h
      · exact ⟨(x :: xs).take bs, List.mem_cons_self _ _, h⟩
      · have hdl : ((x :: xs).drop bs).length ≤ n := by
          have h1 : 0 < bs := Nat.pos_of_ne_zero hbs
          simp only [List.length_drop, List.length_cons] at *
          omega
        obtain ⟨b, hb, hcb⟩ := ih _ hdl c h
        exact ⟨b, List.mem_cons_of_mem _ hb, hcb⟩

theorem chunkBatches_subset (bs : Nat) (l : List ParagraphChunk) :
    ∀ b ∈ chunkBatches bs l, ∀ c ∈ b, c ∈ l := by
  intro b hb
  rw [chunkBatches] at hb
  by_cases h : bs = 0
  · rw [if_pos h] at hb
    simp at hb
  · rw [if_neg h] at hb
    exact chunkBatchesF_subset bs l.length l b hb

theorem chunkBatches_covers (bs : Nat) (hbs : bs ≠ 0) (l : List ParagraphChunk) :
    ∀ c ∈ l, ∃ b ∈ chunkBatches bs l, c ∈ b := by
  intro c hc
  rw [chunkBatches, if_neg hbs]
  exact chunkBatchesF_covers bs hbs l.length l le_rfl c hc

theorem chunkBatches_ne_nil (bs : Nat) (hbs : bs ≠ 0) (c : ParagraphChunk)
    (cs : List ParagraphChunk) : ∃ b l2, chunkBatches bs (c :: cs) = b :: l2 := by
  rw [chunkBatches, if_neg hbs]
  rw [show (c :: cs).length = cs.length + 1 from rfl]
  rw [chunkBatchesF]
  exact ⟨_, _, rfl⟩

/-- Under the documented invariant `chunks[i].index = i`, every member of the
chunk list is recovered from its own `index` field. -/
theorem mem_get_of_idx (chunks : List ParagraphChunk)
    (hIdx : ∀ i (h : i < chunks.length), (chunks.get ⟨i, h⟩).index = i) :
    ∀ c ∈ chunks, ∃ h : c.index < chunks.length, chunks.get ⟨c.index, h⟩ = c := by
  intro c hc
  obtain ⟨⟨i, hi⟩, hg⟩ := List.mem_iff_get.mp hc
  have hci : c.index = i := by
    rw [← hg]
    exact hIdx i hi
  rw [hci]
  exact ⟨hi, hg⟩

theorem joinComma_mem {x : Str} : ∀ {l : List Str}, x ∈ l →
    ∃ u v, joinComma l = u ++ x ++ v := by
  intro l
  induction l with
  | nil =>
    intro h
    simp at h
  | cons a rest ih =>
    intro h
    cases rest with
    | nil =>
      rw [List.mem_singleton] at h
      subst h
      exact ⟨[], [], by simp [joinComma]⟩
    | cons b r2 =>
      rw [List.mem_cons] at h
      rcases h with h | h
      · subst h
        exact ⟨[], str ", " ++ joinComma (b :: r2), by rw [joinComma]; simp⟩
      · obtain ⟨u, v, huv⟩ := ih h
        refine ⟨a ++ str ", " ++ u, v, ?_⟩
        rw [joinComma, huv]
        simp

theorem replicate_none_get (n i : Nat) :
    (List.replicate n (none : Option ParagraphChunk)).get? i =
      if i < n then some none else none := by
  induction n generalizing i with
  | zero => simp
  | succ m ih =>
    cases i with
    | zero => simp [List.replicate]
    | succ k =>
      rw [List.replicate]
      show (List.replicate m none).get? k = _
      rw [ih k]
      by_cases h : k < m
      · rw [if_pos h, if_pos (by omega)]
      · rw [if_neg h, if_neg (by omega)]

/-- Run shape of `translateChunksInParallel` when the retry loop ends with no
missing chunks. -/
theorem tcip_run_nil (oracle : Nat → Option Str) (opts : TrOptions)
    (chunks : List ParagraphChunk) {stA stB : OrchSt} {misA : List ParagraphChunk}
    (hw : waveLoopF oracle opts.concurrency opts.aborted
        (chunkBatches (opts.batchSize.getD 50) (chunks.filter translatable)).length
        (chunkBatches (opts.batchSize.getD 50) (chunks.filter translatable))
        { results := writeResults (List.replicate chunks.length none)
            (chunks.filter (fun c => !translatable c)),
          ctr := 0, calls := [], progress := [] } [] = .ok (stA, misA))
    (hr : retryLoop oracle opts.concurrency opts.aborted 2 1 misA stA = .ok (stB, [])) :
    translateChunksInParallel oracle opts chunks = .ok stB := by
  simp only [translateChunksInParallel, hw, hr]

/-- Run shape of `translateChunksInParallel` when chunks are still missing
after the retry loop: the give-up warning is appended and the missing chunks
are written back as their originals. -/
theorem tcip_run_cons (oracle : Nat → Option Str) (opts : TrOptions)
    (chunks : List ParagraphChunk) {stA stB : OrchSt}
    {misA : List ParagraphChunk} {c : ParagraphChunk} {cs : List ParagraphChunk}
    (hw : waveLoopF oracle opts.concurrency opts.aborted
        (chunkBatches (opts.batchSize.getD 50) (chunks.filter translatable)).length
        (chunkBatches (opts.batchSize.getD 50) (chunks.filter translatable))
        { results := writeResults (List.replicate chunks.length none)
            (chunks.filter (fun c => !translatable c)),
          ctr := 0, calls := [], progress := [] } [] = .ok (stA, misA))
    (hr : retryLoop oracle opts.concurrency opts.aborted 2 1 misA stA = .ok (stB, c :: cs)) :
    translateChunksInParallel oracle opts chunks = .ok { stB with
      progress := stB.progress ++ [giveUpMsg (c :: cs).length
        (joinComma ((c :: cs).map (fun x => natDigits x.index)))],
      results := writeResults stB.results (c :: cs) } := by
  simp only [translateChunksInParallel, hw, hr]

/-- Main-run characterisation of `translateChunksInParallel` under the
documented preconditions (chunk `index` fields equal positions, signal not
aborted, positive concurrency, batch size not zero): the call succeeds; the
result array keeps the input length; every filled slot carries a chunk whose
`index` equals its position; every slot is filled; every chunk of every
dispatched batch is a translatable input chunk; every non-translatable chunk
sits unmodified at its own position; and a translatable chunk whose index
never occurs in any oracle response ends up as the original chunk, with a
progress message containing its index digits. -/
theorem tcip_main (oracle : Nat → Option Str) (opts : TrOptions)
    (chunks : List ParagraphChunk)
    (hIdx : ∀ i (h : i < chunks.length), (chunks.get ⟨i, h⟩).index = i)
    (hab : opts.aborted = false) (hconc : opts.concurrency ≠ 0)
    (hbs : opts.batchSize ≠ some 0) :
    ∃ st, translateChunksInParallel oracle opts chunks = .ok st ∧
      st.results.length = chunks.length ∧
      (∀ i r, st.results.get? i = some (some r) → r.index = i) ∧
      (∀ i, i < chunks.length → ∃ r, st.results.get? i = some (some r)) ∧
      (∀ b ∈ st.calls, ∀ c ∈ b, translatable c = true ∧ c ∈ chunks) ∧
      (∀ j (hj : j < chunks.length), translatable (chunks.get ⟨j, hj⟩) = false →
        st.results.get? j = some (some (chunks.get ⟨j, hj⟩))) ∧
      (∀ j (hj : j < chunks.length), translatable (chunks.get ⟨j, hj⟩) = true →
        (∀ k resp content, oracle k = some resp → (j, content) ∉ respMatches resp) →
        st.results.get? j = some (some (chunks.get ⟨j, hj⟩)) ∧
        ∃ m ∈ st.progress, ∃ u v, m = u ++ natDigits j ++ v) := by
  have hbs' : opts.batchSize.getD 50 ≠ 0 := by
    cases hb : opts.batchSize with
    | none => decide
    | some k =>
      simp only [Option.getD_some]
      intro hk
      subst hk
      exact hbs hb
  set toT := chunks.filter translatable with htoT
  set pass := chunks.filter (fun c => !translatable c) with hpassdef
  set results1 := writeResults (List.replicate chunks.length none) pass with hres1
  set batches := chunkBatches (opts.batchSize.getD 50) toT with hbatchesdef
  set st0 : OrchSt := { results := results1, ctr := 0, calls := [], progress := [] } with hst0
  have hlen1 : results1.length = chunks.length := by
    rw [hres1, writeResults_length, List.length_replicate]
  have huniq : ∀ o ∈ chunks, ∀ j (hj : j < chunks.length), o.index = j →
      o = chunks.get ⟨j, hj⟩ := by
    intro o ho j hj hoj
    obtain ⟨hlt, hg⟩ := mem_get_of_idx chunks hIdx o ho
    subst hoj
    exact hg.symm
  have hbase_idx : ∀ i r, results1.get? i = some (some r) → r ∈ pass ∧ r.index = i := by
    intro i r h
    rw [hres1] at h
    rcases writeResults_from _ _ h with h2 | ⟨c, hc, hci, hcv⟩
    · rw [replicate_none_get] at h2
      by_cases hi : i < chunks.length
      · rw [if_pos hi] at h2
        exact Option.noConfusion (Option.some.inj h2)
      · rw [if_neg hi] at h2
        exact Option.noConfusion h2
    · obtain rfl : r = c := Option.some.inj hcv
      exact ⟨hc, hci⟩
  have hpass_mem : ∀ j (hj : j < chunks.length), translatable (chunks.get ⟨j, hj⟩) = false →
      results1.get? j = some (some (chunks.get ⟨j, hj⟩)) := by
    intro j hj htr
    have hmem : chunks.get ⟨j, hj⟩ ∈ pass := by
      rw [hpassdef]
      simp only [List.mem_filter]
      exact ⟨List.get_mem _ _ _, by rw [htr]; rfl⟩
    obtain ⟨r, hr⟩ : ∃ r, results1.get? j = some (some r) := by
      rw [hres1]
      exact writeResults_covers _ _ ⟨_, hmem, hIdx j hj⟩
        (by rw [List.length_replicate]; exact hj)
    obtain ⟨hrp, hri⟩ := hbase_idx j r hr
    have hrc : r ∈ chunks := by
      rw [hpassdef] at hrp
      exact (List.mem_filter.mp hrp).1
    have : chunks.get ⟨j, hj⟩ = r := (huniq r hrc j hj hri).symm
    rw [this]
    exact hr
  have hsub : ∀ b ∈ batches, ∀ c ∈ b, c ∈ chunks.filter translatable := by
    intro b hb c hc
    exact chunkBatches_subset _ _ b hb c hc
  obtain ⟨stA, misA, e0, e1, e2, e3, e4, e5, e6, e7, e8⟩ :=
    waveLoopF_spec chunks oracle opts.concurrency hconc batches.length batches st0 []
      le_rfl hsub
  have hmisA : ∀ c ∈ misA, c ∈ chunks.filter translatable := by
    intro c hc
    rcases e5 c hc with h | ⟨b, hb, hcb⟩
    · simp at h
    · exact hsub b hb c hcb
  obtain ⟨stB, misB, r0, r1, r2, r3, r4, r5, r6⟩ :=
    retryLoop_spec chunks oracle opts.concurrency hconc 2 1 misA stA hmisA
  have e0' : waveLoopF oracle opts.concurrency opts.aborted batches.length batches st0 []
      = .ok (stA, misA) := by
    rw [hab]
    exact e0
  have r0' : retryLoop oracle opts.concurrency opts.aborted 2 1 misA stA
      = .ok (stB, misB) := by
    rw [hab]
    exact r0
  have hlenB : stB.results.length = chunks.length := by
    rw [r1, e1]
    exact hlen1
  have hidxB : ∀ i r, stB.results.get? i = some (some r) → r.index = i := by
    intro i r h
    rcases r4 i (some r) h with h2 | ⟨r2, hv, hri, -, -⟩
    · rcases e6 i (some r) h2 with h3 | ⟨r2, hv, hri, -, -⟩
      · exact (hbase_idx i r h3).2
      · obtain rfl := Option.some.inj hv
        exact hri
    · obtain rfl := Option.some.inj hv
      exact hri
  have hkeepB : ∀ j (hj : j < chunks.length), translatable (chunks.get ⟨j, hj⟩) = false →
      stB.results.get? j = some (some (chunks.get ⟨j, hj⟩)) := by
    intro j hj htr
    have hjB : j < stB.results.length := by
      rw [hlenB]
      exact hj
    have hv : stB.results.get? j = some (stB.results.get ⟨j, hjB⟩) := List.get?_eq_get hjB
    rcases r4 j _ hv with h2 | ⟨r2, hveq, hri, ⟨o, ho, hoi⟩, -⟩
    · rcases e6 j _ h2 with h3 | ⟨r2, hveq, hri, ⟨b, hb, o, ho, hoi⟩, -⟩
      · have h4 := hpass_mem j hj htr
        have : stB.results.get ⟨j, hjB⟩ = some (chunks.get ⟨j, hj⟩) :=
          Option.some.inj (h3.symm.trans h4)
        rw [hv, this]
      · exfalso
        have hofil := hsub b hb o ho
        simp only [List.mem_filter] at hofil
        have heq : o = chunks.get ⟨j, hj⟩ := huniq o hofil.1 j hj hoi
        have hx := hofil.2
        rw [heq, htr] at hx
        exact absurd hx (by decide)
    · exfalso
      simp only [List.mem_filter] at ho
      have heq : o = chunks.get ⟨j, hj⟩ := huniq o ho.1 j hj hoi
      have hx := ho.2
      rw [heq, htr] at hx
      exact absurd hx (by decide)
  have htraceB : ∀ j (hj : j < chunks.length), translatable (chunks.get ⟨j, hj⟩) = true →
      (∀ k resp content, oracle k = some resp → (j, content) ∉ respMatches resp) →
      ∀ r, stB.results.get? j = some (some r) → False := by
    intro j hj htr homit r h
    rcases r4 j (some r) h with h2 | ⟨r2, hveq, hri, -, k, resp, ct, hk, hct⟩
    · rcases e6 j (some r) h2 with h3 | ⟨r2, hveq, hri, -, k, resp, ct, hk, hct⟩
      · obtain ⟨hrp, hri⟩ := hbase_idx j r h3
        rw [hpassdef] at hrp
        simp only [List.mem_filter] at hrp
        have heq : r = chunks.get ⟨j, hj⟩ := huniq r hrp.1 j hj hri
        have hx := hrp.2
        rw [heq, htr] at hx
        exact absurd hx (by decide)
      · exact homit k resp ct hk hct
    · exact homit k resp ct hk hct
  have hcovB : ∀ i, i < chunks.length →
      (∃ r, stB.results.get? i = some (some r)) ∨ ∃ x ∈ misB, x.index = i := by
    intro i hi
    by_cases htr : translatable (chunks.get ⟨i, hi⟩) = true
    · have hmemT : chunks.get ⟨i, hi⟩ ∈ toT := by
        rw [htoT]
        simp only [List.mem_filter]
        exact ⟨List.get_mem _ _ _, htr⟩
      obtain ⟨b, hb, hcb⟩ := chunkBatches_covers _ hbs' toT _ hmemT
      have hbex : ∃ b2 ∈ batches, ∃ x ∈ b2, x.index = i := ⟨b, hb, _, hcb, hIdx i hi⟩
      have hi0 : i < st0.results.length := by
        show i < results1.length
        rw [hlen1]
        exact hi
      rcases e8 i hbex hi0 with ⟨r, hr⟩ | ⟨x, hx, hxi⟩
      · obtain ⟨r2, hr2⟩ := r5 i r hr
        exact Or.inl ⟨r2, hr2⟩
      · rcases r6 i ⟨x, hx, hxi⟩ (by rw [e1]; exact hi0) with ⟨r2, hr2⟩ | hm
        · exact Or.inl ⟨r2, hr2⟩
        · exact Or.inr hm
    · rw [Bool.not_eq_true] at htr
      exact Or.inl ⟨_, hkeepB i hi htr⟩
  have hcalls : ∀ b ∈ stB.calls, ∀ c ∈ b, translatable c = true ∧ c ∈ chunks := by
    intro b hb c hc
    rcases r2 b hb with h2 | ⟨x, hx, hbx⟩
    · rcases e3 b h2 with h3 | h3
      · exfalso
        rw [hst0] at h3
        simp at h3
      · have hcf := hsub b h3 c hc
        simp only [List.mem_filter] at hcf
        exact ⟨hcf.2, hcf.1⟩
    · subst hbx
      simp only [List.mem_singleton] at hc
      subst hc
      simp only [List.mem_filter] at hx
      exact ⟨hx.2, hx.1⟩
  cases misB with
  | nil =>
    refine ⟨stB, tcip_run_nil oracle opts chunks e0' r0', hlenB, hidxB, ?_, hcalls,
      hkeepB, ?_⟩
    · intro i hi
      refine (hcovB i hi).resolve_right ?_
      rintro ⟨x, hx, -⟩
      simp at hx
    · intro j hj htr homit
      exfalso
      rcases hcovB j hj with ⟨r, hr⟩ | ⟨x, hx, -⟩
      · exact htraceB j hj htr homit r hr
      · simp at hx
  | cons c cs =>
    have hlenF : (writeResults stB.results (c :: cs)).length = chunks.length := by
      rw [writeResults_length]
      exact hlenB
    have hidxF : ∀ i r, (writeResults stB.results (c :: cs)).get? i = some (some r) →
        r.index = i := by
      intro i r h
      rcases writeResults_from _ _ h with h2 | ⟨d, hd, hdi, hdv⟩
      · exact hidxB i r h2
      · obtain rfl := Option.some.inj hdv
        exact hdi
    have hcovF : ∀ i, i < chunks.length →
        ∃ r, (writeResults stB.results (c :: cs)).get? i = some (some r) := by
      intro i hi
      rcases hcovB i hi with ⟨r, hr⟩ | hm
      · exact writeResults_mono _ _ hr
      · exact writeResults_covers _ _ hm (by rw [hlenB]; exact hi)
    have hkeepF : ∀ j (hj : j < chunks.length), translatable (chunks.get ⟨j, hj⟩) = false →
        (writeResults stB.results (c :: cs)).get? j = some (some (chunks.get ⟨j, hj⟩)) := by
      intro j hj htr
      have hjF : j < (writeResults stB.results (c :: cs)).length := by
        rw [hlenF]
        exact hj
      have hv : (writeResults stB.results (c :: cs)).get? j =
          some ((writeResults stB.results (c :: cs)).get ⟨j, hjF⟩) := List.get?_eq_get hjF
      rcases writeResults_from _ _ hv with h2 | ⟨d, hd, hdi, hdv⟩
      · have h4 := hkeepB j hj htr
        have : (writeResults stB.results (c :: cs)).get ⟨j, hjF⟩ =
            some (chunks.get ⟨j, hj⟩) := Option.some.inj (h2.symm.trans h4)
        rw [hv, this]
      · exfalso
        have hdf := r3 d hd
        simp only [List.mem_filter] at hdf
        have heq : d = chunks.get ⟨j, hj⟩ := huniq d hdf.1 j hj hdi
        have hx := hdf.2
        rw [heq, htr] at hx
        exact absurd hx (by decide)
    have homF : ∀ j (hj : j < chunks.length), translatable (chunks.get ⟨j, hj⟩) = true →
        (∀ k resp content, oracle k = some resp → (j, content) ∉ respMatches resp) →
        (writeResults stB.results (c :: cs)).get? j = some (some (chunks.get ⟨j, hj⟩)) ∧
        ∃ x ∈ c :: cs, x.index = j := by
      intro j hj htr homit
      obtain ⟨r, hr⟩ := hcovF j hj
      rcases writeResults_from _ _ hr with h2 | ⟨d, hd, hdi, hdv⟩
      · exact absurd h2 (fun h => htraceB j hj htr homit r h)
      · obtain rfl := Option.some.inj hdv
        have hdf := r3 _ hd
        simp only [List.mem_filter] at hdf
        have heq : r = chunks.get ⟨j, hj⟩ := huniq r hdf.1 j hj hdi
        rw [heq] at hr
        exact ⟨hr, r, hd, hdi⟩
    refine ⟨_, tcip_run_cons oracle opts chunks e0' r0', hlenF, hidxF, hcovF, hcalls,
      hkeepF, ?_⟩
    intro j hj htr homit
    obtain ⟨hval, x, hx, hxi⟩ := homF j hj htr homit
    refine ⟨hval, giveUpMsg (c :: cs).length
      (joinComma ((c :: cs).map (fun y => natDigits y.index))), ?_, ?_⟩
    · show giveUpMsg _ _ ∈ stB.progress ++ [giveUpMsg (c :: cs).length
        (joinComma ((c :: cs).map (fun x => natDigits x.index)))]
      exact List.mem_append_right _ (List.mem_singleton.mpr rfl)
    · have hmm : natDigits j ∈ (c :: cs).map (fun y => natDigits y.index) :=
        List.mem_map.mpr ⟨x, hx, by rw [hxi]⟩
      obtain ⟨u, v, huv⟩ := joinComma_mem hmm
      refine ⟨str "Warning: " ++ natDigits (c :: cs).length
        ++ str " chunks could not be translated after 2 retries (ids: " ++ u,
        v ++ str "). Keeping original text.", ?_⟩
      rw [giveUpMsg, huv]
      simp [List.append_assoc]

/-- C2: for every input sequence of ParagraphChunks whose index fields equal
their array positions 0..n-1 (and a live signal, positive concurrency and
batch size, any oracle), translateChunksInParallel returns a sequence of the
same length n in which the chunk at every position i has index i. -/
theorem c2_order_preservation (oracle : Nat → Option Str) (opts : TrOptions)
    (chunks : List ParagraphChunk)
    (hIdx : ∀ i (h : i < chunks.length), (chunks.get ⟨i, h⟩).index = i)
    (hab : opts.aborted = false) (hconc : opts.concurrency ≠ 0)
    (hbs : opts.batchSize ≠ some 0) :
    ∃ st, translateChunksInParallel oracle opts chunks = .ok st ∧
      st.results.length = chunks.length ∧
      ∀ i, i < chunks.length → ∃ c, st.results.get? i = some (some c) ∧ c.index = i := by
  obtain ⟨st, h0, h1, h2, h3, -, -, -⟩ := tcip_main oracle opts chunks hIdx hab hconc hbs
  exact ⟨st, h0, h1, fun i hi => (h3 i hi).imp fun r hr => ⟨hr, h2 i r hr⟩⟩

theorem c2_order_preservation_witness :
    ∃ st, translateChunksInParallel (fun _ => some (str "<p id=\"0\">B</p>"))
        ⟨2, none, false⟩ [⟨0, str "a", true⟩, ⟨1, [], false⟩] = .ok st ∧
      st.results.length = 2 ∧
      ∀ i, i < 2 → ∃ c, st.results.get? i = some (some c) ∧ c.index = i :=
  c2_order_preservation _ _ _ (by decide) rfl (by decide) (by decide)

/-- C5: every chunk with `hasText = false` or whitespace-only simplified text
(that is, `translatable c = false`, line 335) is never a member of any batch
dispatched to the backend, and appears unmodified at its index position in
the returned result. -/
theorem c5_passthrough_invariance (oracle : Nat → Option Str) (opts : TrOptions)
    (chunks : List ParagraphChunk)
    (hIdx : ∀ i (h : i < chunks.length), (chunks.get ⟨i, h⟩).index = i)
    (hab : opts.aborted = false) (hconc : opts.concurrency ≠ 0)
    (hbs : opts.batchSize ≠ some 0) :
    ∃ st, translateChunksInParallel oracle opts chunks = .ok st ∧
      ∀ j (hj : j < chunks.length), translatable (chunks.get ⟨j, hj⟩) = false →
        (∀ b ∈ st.calls, chunks.get ⟨j, hj⟩ ∉ b) ∧
        st.results.get? j = some (some (chunks.get ⟨j, hj⟩)) := by
  obtain ⟨st, h0, -, -, -, h4, h5, -⟩ := tcip_main oracle opts chunks hIdx hab hconc hbs
  refine ⟨st, h0, fun j hj htr => ⟨?_, h5 j hj htr⟩⟩
  intro b hb hmem
  have hx := (h4 b hb _ hmem).1
  rw [htr] at hx
  exact absurd hx (by decide)

theorem c5_passthrough_invariance_witness :
    ∃ st, translateChunksInParallel (fun _ => none) ⟨1, none, false⟩
        [⟨0, str "  ", true⟩] = .ok st ∧
      ∀ j (hj : j < 1),
        translatable (List.get [(⟨0, str "  ", true⟩ : ParagraphChunk)] ⟨j, hj⟩) = false →
        (∀ b ∈ st.calls, List.get [(⟨0, str "  ", true⟩ : ParagraphChunk)] ⟨j, hj⟩ ∉ b) ∧
        st.results.get? j =
          some (some (List.get [(⟨0, str "  ", true⟩ : ParagraphChunk)] ⟨j, hj⟩)) :=
  c5_passthrough_invariance _ _ _ (by decide) rfl (by decide) (by decide)

/-- C4: a translatable chunk whose index is absent from every backend
response (initial pass and both retry passes alike, since no response ever
carries it) keeps its original chunk at its index in the final result, a
progress message containing that index's digits is emitted, and the call
resolves instead of throwing. -/
theorem c4_missing_unit_fallback (oracle : Nat → Option Str) (opts : TrOptions)
    (chunks : List ParagraphChunk) (j : Nat) (hj : j < chunks.length)
    (hIdx : ∀ i (h : i < chunks.length), (chunks.get ⟨i, h⟩).index = i)
    (hab : opts.aborted = false) (hconc : opts.concurrency ≠ 0)
    (hbs : opts.batchSize ≠ some 0)
    (htr : translatable (chunks.get ⟨j, hj⟩) = true)
    (homit : ∀ k resp content, oracle k = some resp → (j, content) ∉ respMatches resp) :
    ∃ st, translateChunksInParallel oracle opts chunks = .ok st ∧
      st.results.get? j = some (some (chunks.get ⟨j, hj⟩)) ∧
      ∃ m ∈ st.progress, ∃ u v, m = u ++ natDigits j ++ v := by
  obtain ⟨st, h0, -, -, -, -, -, h6⟩ := tcip_main oracle opts chunks hIdx hab hconc hbs
  obtain ⟨hval, hmsg⟩ := h6 j hj htr homit
  exact ⟨st, h0, hval, hmsg⟩

theorem c4_missing_unit_fallback_witness :
    ∃ st, translateChunksInParallel (fun _ => none) ⟨1, none, false⟩
        [⟨0, str "hi", true⟩] = .ok st ∧
      st.results.get? 0 = some (some (⟨0, str "hi", true⟩ : ParagraphChunk)) ∧
      ∃ m ∈ st.progress, ∃ u v, m = u ++ natDigits 0 ++ v :=
  c4_missing_unit_fallback (fun _ => none) ⟨1, none, false⟩ [⟨0, str "hi", true⟩] 0
    (by decide) (by decide) rfl (by decide) (by decide) (by decide)
    (fun _ _ _ h => Option.noConfusion h)

/-- C7 counterexample: with the signal already aborted but no translatable
chunk in the input, `translateChunksInParallel` does not reject — there are
no batches, so the wave loop never reaches its signal check and the call
resolves with the pass-through result. -/
theorem c7_counterexample :
    translateChunksInParallel (fun _ => none) ⟨1, none, true⟩ [⟨0, [], false⟩]
      = .ok ⟨[some ⟨0, [], false⟩], 0, [], []⟩ := rfl

/-- C7 (amended): if the signal is already aborted before any wave starts,
the batch size is not zero, and at least one chunk is translatable, the call
rejects with the cancellation error — uniformly in the oracle, so no backend
call influences the outcome and no result is produced. -/
theorem c7_abort_rejects (oracle : Nat → Option Str) (opts : TrOptions)
    (chunks : List ParagraphChunk)
    (hab : opts.aborted = true) (hbs : opts.batchSize ≠ some 0)
    (htr : ∃ c ∈ chunks, translatable c = true) :
    translateChunksInParallel oracle opts chunks = .error .cancelled := by
  have hbs' : opts.batchSize.getD 50 ≠ 0 := by
    cases hb : opts.batchSize with
    | none => decide
    | some k =>
      simp only [Option.getD_some]
      intro hk
      subst hk
      exact hbs hb
  obtain ⟨c, hc, hct⟩ := htr
  have hmem : c ∈ chunks.filter translatable := List.mem_filter.mpr ⟨hc, hct⟩
  obtain ⟨d, ds, hds⟩ : ∃ d ds, chunks.filter translatable = d :: ds := by
    cases hf : chunks.filter translatable with
    | nil =>
      rw [hf] at hmem
      simp at hmem
    | cons d ds => exact ⟨d, ds, rfl⟩
  obtain ⟨b, l2, hbl⟩ := chunkBatches_ne_nil _ hbs' d ds
  simp only [translateChunksInParallel, hds, hbl, hab, List.length_cons, waveLoopF,
    if_true]

theorem c7_abort_rejects_witness :
    translateChunksInParallel (fun _ => some (str "x")) ⟨1, none, true⟩
      [⟨0, str "hi", true⟩] = .error .cancelled :=
  c7_abort_rejects _ _ _ rfl (by decide)
    ⟨⟨0, str "hi", true⟩, by decide, by decide⟩

/-! ## replaceTagsWithIds: ID map invariants -/

/-- Fragment IDs referenced by the markers of a simplified text, as found by
the restore pass's two scans: ids of `[RUN:n]…[/RUN:n]` pair matches and ids
of `[TAG:n]` matches. -/
def referencedIds (s : Str) : List Nat :=
  (scanAllF runMarkAt (s.length + 1) s).1.map (fun t => digitsToNat t.2.1.1)
    ++ (scanAllF tagMarkAt (s.length + 1) s).1.map (fun t => digitsToNat t.2.1)

/-- A marker block of a simplified paragraph: `processPieces` emits only
unpaired `[TAG:n]` markers and paired `[RUN:n]txt[/RUN:n]` markers. -/
inductive MarkBlock where
  | tag (id : Nat)
  | run (id : Nat) (txt : Str)
deriving DecidableEq, Repr

def blockStr : MarkBlock → Str
  | .tag id => tagMarker id
  | .run id txt => runMarker id txt

def blockId : MarkBlock → Nat
  | .tag id => id
  | .run id _ => id

/-- A run block is well formed when its enclosed text contains no `[`. -/
def blockFree : MarkBlock → Bool
  | .tag _ => true
  | .run _ txt => allNe '[' txt

def flatBlocks (bs : List MarkBlock) : Str := (bs.map blockStr).flatten

/-- The matcher `m` fails at every offset inside `g`, whatever follows. -/
def opaqueFor {α : Type} (m : Str → Option (α × Nat)) (g : Str) : Prop :=
  ∀ T i, i < g.length → m ((g ++ T).drop i) = none

theorem allNe_sub {x : Char} {s t : Str} (hsub : ∀ c ∈ t, c ∈ s)
    (h : allNe x s = true) : allNe x t = true := by
  simp only [allNe, List.all_eq_true] at *
  exact fun c hc => h c (hsub c hc)

theorem opaqueFor_nil {α : Type} (m : Str → Option (α × Nat)) : opaqueFor m [] := by
  intro T i hi
  simp at hi

theorem opaqueFor_append {α : Type} {m : Str → Option (α × Nat)} {g1 g2 : Str}
    (h1 : opaqueFor m g1) (h2 : opaqueFor m g2) : opaqueFor m (g1 ++ g2) := by
  intro T i hi
  rw [List.length_append] at hi
  rw [List.append_assoc]
  by_cases hc : i < g1.length
  · exact h1 (g2 ++ T) i hc
  · push_neg at hc
    obtain ⟨j, rfl⟩ : ∃ j, i = g1.length + j := ⟨i - g1.length, by omega⟩
    rw [List.drop_append]
    exact h2 T j (by omega)

theorem runMarkAt_none_of_not_pre {s : Str} (h : isPre (str "[RUN:") s = false) :
    runMarkAt s = none := by
  rw [runMarkAt, if_neg (by simp [h])]

theorem tagMarkAt_none_of_not_pre {s : Str} (h : isPre (str "[TAG:") s = false) :
    tagMarkAt s = none := by
  rw [tagMarkAt, if_neg (by simp [h])]

/-- A string `'[' :: rest` with `[`-free `rest` is opaque for a matcher whose
matches start with `[` but which fails at the head of `'[' :: rest ++ …`. -/
theorem opaque_of_head {α : Type} {m : Str → Option (α × Nat)} {rest : Str}
    (hhead : ∀ s pr, m s = some pr → ∃ t, s = '[' :: t)
    (hfail : ∀ T : Str, m ('[' :: (rest ++ T)) = none)
    (hfree : allNe '[' rest = true) :
    opaqueFor m ('[' :: rest) := by
  intro T i hi
  cases i with
  | zero =>
    rw [List.drop_zero]
    exact hfail T
  | succ j =>
    have hd : (('[' :: rest) ++ T).drop (j + 1) = (rest ++ T).drop j := rfl
    rw [hd]
    exact matcher_none_inside hhead hfree
      (by simpa using Nat.lt_of_succ_lt_succ (by simpa using hi))

theorem tagMarker_opaque_run (id : Nat) : opaqueFor runMarkAt (tagMarker id) :=
  fun T i hi => runMarkAt_none_inTag id T hi

theorem runMarker_opaque_tag (id : Nat) (txt : Str) (htxt : allNe '[' txt = true) :
    opaqueFor tagMarkAt (runMarker id txt) := by
  have hshape : runMarker id txt =
      ('[' :: (str "RUN:" ++ natDigits id ++ str "]" ++ txt)) ++
      ('[' :: (str "/RUN:" ++ natDigits id ++ str "]")) := by
    simp [runMarker, strRUN, strRUNc, strRB]
  rw [hshape]
  apply opaqueFor_append
  · apply opaque_of_head (fun s pr h => tagMarkAt_head h)
    · intro T
      apply tagMarkAt_none_of_not_pre
      rfl
    · exact allNe_append (allNe_append (allNe_append (by decide) allNe_lb_digits)
        (by decide)) htxt
  · apply opaque_of_head (fun s pr h => tagMarkAt_head h)
    · intro T
      apply tagMarkAt_none_of_not_pre
      rfl
    · exact allNe_append (allNe_append (by decide) allNe_lb_digits) (by decide)

theorem flatBlocks_nil : flatBlocks [] = [] := rfl

theorem flatBlocks_cons (b : MarkBlock) (bs : List MarkBlock) :
    flatBlocks (b :: bs) = blockStr b ++ flatBlocks bs := by
  simp [flatBlocks]

/-- Every payload recorded by a global scan was produced by the matcher on a
string drawn from the scanned string's characters. -/
theorem scanAllF_src {α : Type} (m : Str → Option (α × Nat)) :
    ∀ (fuel : Nat) (s : Str), ∀ t ∈ (scanAllF m fuel s).1,
      ∃ u len, (∀ c ∈ u, c ∈ s) ∧ m u = some (t.2.1, len) := by
  intro fuel
  induction fuel with
  | zero =>
    intro s t ht
    simp [scanAllF] at ht
  | succ n ih =>
    intro s t ht
    rw [scanAllF] at ht
    cases hsf : scanFirst m s with
    | none =>
      rw [hsf] at ht
      simp at ht
    | some r =>
      obtain ⟨i, a, len⟩ := r
      rw [hsf] at ht
      have ht2 : t ∈ (s.take i, a, (s.drop i).take len) :: (scanAllF m n (s.drop (i + len))).1 :=
        ht
      rcases List.mem_cons.mp ht2 with rfl | h2
      · exact ⟨s.drop i, len, fun c hc => List.drop_subset _ _ hc, (scanFirst_some_m hsf).1⟩
      · obtain ⟨u, len2, hus, hmu⟩ := ih (s.drop (i + len)) t h2
        exact ⟨u, len2, fun c hc => List.drop_subset _ _ (hus c hc), hmu⟩

/-- The run matcher's payload (the run's inner content) is drawn from the
matched string's characters. -/
theorem runMatchAt_sub {s inner : Str} {len : Nat}
    (h : runMatchAt s = some (inner, len)) : ∀ c ∈ inner, c ∈ s := by
  rw [runMatchAt] at h
  repeat'
    first
      | exact Option.noConfusion h
      | (obtain ⟨h1, -⟩ := Prod.mk.injEq .. ▸ Option.some.inj h
         subst h1
         exact fun c hc => List.drop_subset _ _ (List.take_subset _ _ hc))
      | dsimp only at h
      | split at h

/-- The text matcher's payload (the `<w:t>` content) is drawn from the matched
string's characters. -/
theorem wtMatchAt_sub {s txt : Str} {len : Nat}
    (h : wtMatchAt s = some (txt, len)) : ∀ c ∈ txt, c ∈ s := by
  rw [wtMatchAt] at h
  repeat'
    first
      | exact Option.noConfusion h
      | (obtain ⟨h1, -⟩ := Prod.mk.injEq .. ▸ Option.some.inj h
         subst h1
         exact fun c hc => List.drop_subset _ _ ((List.takeWhile_prefix _).subset hc))
      | dsimp only at h
      | split at h

/-- Every paired-marker match of a scan over well-formed marker blocks (after
any opaque prefix) captures the digit string of some run block's id. -/
theorem runScan_ids : ∀ (blocks : List MarkBlock), (∀ b ∈ blocks, blockFree b = true) →
    ∀ g : Str, opaqueFor runMarkAt g →
    ∀ t ∈ (scanAllF runMarkAt ((g ++ flatBlocks blocks).length + 1)
        (g ++ flatBlocks blocks)).1,
      ∃ txt, MarkBlock.run (digitsToNat t.2.1.1) txt ∈ blocks := by
  intro blocks
  induction blocks with
  | nil =>
    intro hfree g hg t ht
    rw [flatBlocks_nil] at ht
    have hnone : scanFirst runMarkAt (g ++ []) = none := by
      apply scanFirst_none
      intro i hi
      by_cases hc : i < g.length
      · exact hg [] i hc
      · push_neg at hc
        have : (g ++ ([] : Str)).drop i = [] := by
          apply List.drop_eq_nil_of_le
          simpa using hc
        rw [this]
        exact runMarkAt_nil
    rw [scanAllF_of_none _ hnone] at ht
    simp at ht
  | cons b rest ih =>
    intro hfree g hg t ht
    have hfree2 : ∀ b2 ∈ rest, blockFree b2 = true :=
      fun b2 hb2 => hfree b2 (List.mem_cons_of_mem _ hb2)
    cases b with
    | tag id =>
      rw [flatBlocks_cons, ← List.append_assoc] at ht
      obtain ⟨txt, hmem⟩ := ih hfree2 (g ++ blockStr (MarkBlock.tag id))
        (opaqueFor_append hg (tagMarker_opaque_run id)) t ht
      exact ⟨txt, List.mem_cons_of_mem _ hmem⟩
    | run id txt =>
      have htxt : allNe '[' txt = true := hfree _ (List.mem_cons_self _ _)
      rw [flatBlocks_cons] at ht
      have hM : runMarkAt (runMarker id txt ++ flatBlocks rest) =
          some ((natDigits id, txt), (runMarker id txt).length) :=
        runMarkAt_at id txt (flatBlocks rest) htxt
      have hGap : ∀ i, i < g.length →
          runMarkAt ((g ++ (runMarker id txt ++ flatBlocks rest)).drop i) = none :=
        fun i hi => hg (runMarker id txt ++ flatBlocks rest) i hi
      have hstep := @scanAllF_step _ _ runMarkOk g (runMarker id txt) (flatBlocks rest)
        (natDigits id, txt) hGap hM
        ((g ++ (runMarker id txt ++ flatBlocks rest)).length + 1) (by omega)
      rw [show blockStr (MarkBlock.run id txt) = runMarker id txt from rfl] at ht
      rw [hstep] at ht
      rcases List.mem_cons.mp ht with rfl | h2
      · refine ⟨txt, ?_⟩
        rw [show (g, (natDigits id, txt), runMarker id txt).2.1.1 = natDigits id from rfl]
        rw [digitsToNat_natDigits]
        exact List.mem_cons_self _ _
      · obtain ⟨txt2, hmem⟩ := ih hfree2 [] (opaqueFor_nil _) t
          (by simpa using h2)
        exact ⟨txt2, List.mem_cons_of_mem _ hmem⟩

/-- Every unpaired-marker match of a scan over well-formed marker blocks
(after any opaque prefix) captures the digit string of some tag block's id. -/
theorem tagScan_ids : ∀ (blocks : List MarkBlock), (∀ b ∈ blocks, blockFree b = true) →
    ∀ g : Str, opaqueFor tagMarkAt g →
    ∀ t ∈ (scanAllF tagMarkAt ((g ++ flatBlocks blocks).length + 1)
        (g ++ flatBlocks blocks)).1,
      MarkBlock.tag (digitsToNat t.2.1) ∈ blocks := by
  intro blocks
  induction blocks with
  | nil =>
    intro hfree g hg t ht
    rw [flatBlocks_nil] at ht
    have hnone : scanFirst tagMarkAt (g ++ []) = none := by
      apply scanFirst_none
      intro i hi
      by_cases hc : i < g.length
      · exact hg [] i hc
      · push_neg at hc
        have : (g ++ ([] : Str)).drop i = [] := by
          apply List.drop_eq_nil_of_le
          simpa using hc
        rw [this]
        exact tagMarkAt_nil
    rw [scanAllF_of_none _ hnone] at ht
    simp at ht
  | cons b rest ih =>
    intro hfree g hg t ht
    have hfree2 : ∀ b2 ∈ rest, blockFree b2 = true :=
      fun b2 hb2 => hfree b2 (List.mem_cons_of_mem _ hb2)
    cases b with
    | run id txt =>
      have htxt : allNe '[' txt = true := hfree _ (List.mem_cons_self _ _)
      rw [flatBlocks_cons, ← List.append_assoc] at ht
      have hmem := ih hfree2 (g ++ blockStr (MarkBlock.run id txt))
        (opaqueFor_append hg (by
          rw [show blockStr (MarkBlock.run id txt) = runMarker id txt from rfl]
          exact runMarker_opaque_tag id txt htxt)) t ht
      exact List.mem_cons_of_mem _ hmem
    | tag id =>
      rw [flatBlocks_cons] at ht
      have hM : tagMarkAt (tagMarker id ++ flatBlocks rest) =
          some (natDigits id, (tagMarker id).length) :=
        tagMarkAt_at id (flatBlocks rest)
      have hGap : ∀ i, i < g.length →
          tagMarkAt ((g ++ (tagMarker id ++ flatBlocks rest)).drop i) = none :=
        fun i hi => hg (tagMarker id ++ flatBlocks rest) i hi
      have hstep := @scanAllF_step _ _ tagMarkOk g (tagMarker id) (flatBlocks rest)
        (natDigits id) hGap hM
        ((g ++ (tagMarker id ++ flatBlocks rest)).length + 1) (by omega)
      rw [show blockStr (MarkBlock.tag id) = tagMarker id from rfl] at ht
      rw [hstep] at ht
      rcases List.mem_cons.mp ht with rfl | h2
      · rw [show (g, natDigits id, tagMarker id).2.1 = natDigits id from rfl]
        rw [digitsToNat_natDigits]
        exact List.mem_cons_self _ _
      · exact List.mem_cons_of_mem _ (ih hfree2 [] (opaqueFor_nil _) t (by simpa using h2))

/-- Any id referenced by the marker scans of a flattened block string is the
id of one of its blocks. -/
theorem referencedIds_sub (blocks : List MarkBlock)
    (hfree : ∀ b ∈ blocks, blockFree b = true) :
    ∀ id ∈ referencedIds (flatBlocks blocks), ∃ b ∈ blocks, blockId b = id := by
  intro id hid
  rw [referencedIds] at hid
  rcases List.mem_append.mp hid with h | h
  · obtain ⟨t, ht, hteq⟩ := List.mem_map.mp h
    obtain ⟨txt, hmem⟩ := runScan_ids blocks hfree [] (opaqueFor_nil _) t ht
    exact ⟨.run (digitsToNat t.2.1.1) txt, hmem, hteq⟩
  · obtain ⟨t, ht, hteq⟩ := List.mem_map.mp h
    exact ⟨.tag (digitsToNat t.2.1), tagScan_ids blocks hfree [] (opaqueFor_nil _) t ht, hteq⟩

/-- `processRun` allocates exactly one id and emits exactly one marker block,
whose enclosed text (if paired) is drawn from the run's inner content. -/
theorem processRun_block (nid : Nat) (inner full : Str) (hin : allNe '[' inner = true) :
    ∃ b : MarkBlock, (processRun nid inner full).1 = blockStr b ∧ blockFree b = true ∧
      blockId b = nid ∧ ∃ frag, (processRun nid inner full).2 = ([(nid, frag)], nid + 1) := by
  rw [processRun]
  cases hsf : scanFirst wtMatchAt inner with
  | none => exact ⟨.tag nid, rfl, rfl, rfl, _, rfl⟩
  | some r =>
    obtain ⟨i, txt, len⟩ := r
    have hsub := (scanFirst_some_m hsf).1
    have htxt : allNe '[' txt = true :=
      allNe_sub (fun c hc => List.drop_subset _ _ (wtMatchAt_sub hsub c hc)) hin
    exact ⟨.run nid txt, rfl, htxt, rfl, _, rfl⟩

theorem processRun_entries (nid : Nat) (inner full : Str) :
    ∃ frag, (processRun nid inner full).2 = ([(nid, frag)], nid + 1) := by
  rw [processRun]
  cases scanFirst wtMatchAt inner with
  | none => exact ⟨_, rfl⟩
  | some r => exact ⟨_, rfl⟩

theorem processPieces_cons_eq (nid : Nat) (between inner full trailing : Str)
    (rest : List (Str × Str × Str)) :
    processPieces nid ((between, inner, full) :: rest) trailing =
      if jsTrim between = [] then
        ((processRun nid inner full).1
            ++ (processPieces (processRun nid inner full).2.2 rest trailing).1,
          (processRun nid inner full).2.1
            ++ (processPieces (processRun nid inner full).2.2 rest trailing).2.1,
          (processPieces (processRun nid inner full).2.2 rest trailing).2.2)
      else
        (tagMarker nid ++ ((processRun (nid + 1) inner full).1
            ++ (processPieces (processRun (nid + 1) inner full).2.2 rest trailing).1),
          (nid, StoredFrag.raw between) ::
            ((processRun (nid + 1) inner full).2.1
              ++ (processPieces (processRun (nid + 1) inner full).2.2 rest trailing).2.1),
          (processPieces (processRun (nid + 1) inner full).2.2 rest trailing).2.2) := by
  by_cases hb : jsTrim between = []
  · rw [if_pos hb]
    simp only [processPieces]
    rw [if_pos hb]
    rfl
  · rw [if_neg hb]
    simp only [processPieces]
    rw [if_neg hb]
    simp [List.append_assoc]

/-- The simplified text of one paragraph's pieces is a concatenation of
marker blocks, each well formed with an id among the emitted map entries. -/
theorem processPieces_blocks :
    ∀ (pieces : List (Str × Str × Str)) (trailing : Str) (nid : Nat),
    (∀ t ∈ pieces, allNe '[' t.2.1 = true) →
    ∃ blocks : List MarkBlock,
      (processPieces nid pieces trailing).1 = flatBlocks blocks ∧
      ∀ b ∈ blocks, blockFree b = true ∧
        blockId b ∈ (processPieces nid pieces trailing).2.1.map Prod.fst := by
  intro pieces
  induction pieces with
  | nil =>
    intro trailing nid hfree
    rw [processPieces]
    by_cases ht : jsTrim trailing = []
    · rw [if_pos ht]
      exact ⟨[], rfl, by simp⟩
    · rw [if_neg ht]
      refine ⟨[.tag nid], ?_, ?_⟩
      · rw [flatBlocks_cons, flatBlocks_nil]
        simp [blockStr]
      · intro b hb
        rw [List.mem_singleton] at hb
        subst hb
        exact ⟨rfl, by simp [blockId]⟩
  | cons p rest ih =>
    intro trailing nid hfree
    obtain ⟨between, inner, full⟩ := p
    have hinner : allNe '[' inner = true := hfree _ (List.mem_cons_self _ _)
    have hfree2 : ∀ t ∈ rest, allNe '[' t.2.1 = true :=
      fun t htm => hfree t (List.mem_cons_of_mem _ htm)
    rw [processPieces_cons_eq]
    by_cases hb : jsTrim between = []
    · rw [if_pos hb]
      obtain ⟨b0, hb0s, hb0f, hb0i, frag, hpr⟩ := processRun_block nid inner full hinner
      obtain ⟨blocks, hbl, hprops⟩ := ih trailing (processRun nid inner full).2.2 hfree2
      refine ⟨b0 :: blocks, ?_, ?_⟩
      · dsimp only
        rw [flatBlocks_cons, hb0s, hbl]
      · intro b hbm
        rcases List.mem_cons.mp hbm with rfl | h2
        · refine ⟨hb0f, ?_⟩
          rw [hb0i]
          dsimp only
          rw [List.map_append, List.mem_append]
          left
          simp [hpr]
        · obtain ⟨hf2, hi2⟩ := hprops b h2
          refine ⟨hf2, ?_⟩
          dsimp only
          rw [List.map_append, List.mem_append]
          right
          exact hi2
    · rw [if_neg hb]
      obtain ⟨b0, hb0s, hb0f, hb0i, frag, hpr⟩ := processRun_block (nid + 1) inner full hinner
      obtain ⟨blocks, hbl, hprops⟩ := ih trailing (processRun (nid + 1) inner full).2.2 hfree2
      refine ⟨.tag nid :: b0 :: blocks, ?_, ?_⟩
      · dsimp only
        rw [flatBlocks_cons, flatBlocks_cons, hb0s, hbl]
        rw [show blockStr (MarkBlock.tag nid) = tagMarker nid from rfl]
      · intro b hbm
        rcases List.mem_cons.mp hbm with rfl | h2
        · exact ⟨rfl, by simp [blockId]⟩
        · rcases List.mem_cons.mp h2 with rfl | h3
          · refine ⟨hb0f, ?_⟩
            rw [hb0i]
            simp [hpr]
          · obtain ⟨hf2, hi2⟩ := hprops b h3
            refine ⟨hf2, ?_⟩
            dsimp only
            simp only [List.map_cons, List.map_append, List.mem_cons, List.mem_append]
            right
            right
            exact hi2

/-- The ids allocated by `processPieces` lie in `[nid, next)` and are listed
in strictly increasing order. -/
theorem processPieces_keys :
    ∀ (pieces : List (Str × Str × Str)) (trailing : Str) (nid : Nat),
    nid ≤ (processPieces nid pieces trailing).2.2 ∧
    (∀ k ∈ (processPieces nid pieces trailing).2.1.map Prod.fst,
      nid ≤ k ∧ k < (processPieces nid pieces trailing).2.2) ∧
    List.Pairwise (· < ·) ((processPieces nid pieces trailing).2.1.map Prod.fst) := by
  intro pieces
  induction pieces with
  | nil =>
    intro trailing nid
    rw [processPieces]
    by_cases ht : jsTrim trailing = []
    · rw [if_pos ht]
      refine ⟨le_rfl, ?_, by simp⟩
      intro k hk
      simp at hk
    · rw [if_neg ht]
      dsimp only
      refine ⟨by omega, ?_, by simp⟩
      intro k hk
      simp at hk
      omega
  | cons p rest ih =>
    intro trailing nid
    obtain ⟨between, inner, full⟩ := p
    rw [processPieces_cons_eq]
    by_cases hb : jsTrim between = []
    · rw [if_pos hb]
      obtain ⟨frag, hpr⟩ := processRun_entries nid inner full
      have h21 : (processRun nid inner full).2.1 = [(nid, frag)] := by rw [hpr]
      have h22 : (processRun nid inner full).2.2 = nid + 1 := by rw [hpr]
      dsimp only
      rw [h21, h22]
      obtain ⟨ihle, ihmem, ihpw⟩ := ih trailing (nid + 1)
      refine ⟨by omega, ?_, ?_⟩
      · intro k hk
        rw [List.map_append, List.mem_append] at hk
        rcases hk with hk | hk
        · simp at hk
          omega
        · obtain ⟨h1, h2⟩ := ihmem k hk
          exact ⟨by omega, h2⟩
      · rw [List.map_append, List.pairwise_append]
        refine ⟨by simp, ihpw, ?_⟩
        intro a ha b hb2
        simp at ha
        have hb3 := (ihmem b hb2).1
        omega
    · rw [if_neg hb]
      obtain ⟨frag, hpr⟩ := processRun_entries (nid + 1) inner full
      have h21 : (processRun (nid + 1) inner full).2.1 = [(nid + 1, frag)] := by rw [hpr]
      have h22 : (processRun (nid + 1) inner full).2.2 = nid + 1 + 1 := by rw [hpr]
      dsimp only
      rw [h21, h22]
      obtain ⟨ihle, ihmem, ihpw⟩ := ih trailing (nid + 1 + 1)
      refine ⟨by omega, ?_, ?_⟩
      · intro k hk
        simp only [List.map_cons, List.map_append, List.mem_cons, List.mem_append] at hk
        rcases hk with rfl | hk
        · exact ⟨le_rfl, by omega⟩
        · rcases hk with hk | hk
          · simp at hk
            omega
          · obtain ⟨h1, h2⟩ := ihmem k hk
            exact ⟨by omega, h2⟩
      · simp only [List.map_cons, List.map_append]
        rw [List.pairwise_cons]
        constructor
        · intro a ha
          rw [List.mem_append] at ha
          rcases ha with ha | ha
          · simp at ha
            omega
          · exact lt_of_lt_of_le (by omega) (ihmem a ha).1
        · rw [List.pairwise_append]
          refine ⟨by simp, ihpw, ?_⟩
          intro a ha b hb2
          simp at ha
          have hb3 := (ihmem b hb2).1
          omega

theorem rtwiGo_cons_eq (i nid : Nat) (p : Str) (rest : List Str) :
    rtwiGo i nid (p :: rest) =
      if jsTrim (extractTextContent p) = [] then
        ({ index := i, simplifiedText := [], hasText := false } :: (rtwiGo (i + 1) nid rest).1,
          (rtwiGo (i + 1) nid rest).2)
      else
        ({ index := i, simplifiedText := (processPara nid p).1, hasText := true } ::
            (rtwiGo (i + 1) (processPara nid p).2.2 rest).1,
          (processPara nid p).2.1 ++ (rtwiGo (i + 1) (processPara nid p).2.2 rest).2) := by
  by_cases hp : jsTrim (extractTextContent p) = []
  · rw [if_pos hp]
    simp only [rtwiGo]
    rw [if_pos hp]
  · rw [if_neg hp]
    simp only [rtwiGo]
    rw [if_neg hp]

/-- The ids of the map built by `rtwiGo` are at least the starting id and are
listed in strictly increasing order. -/
theorem rtwiGo_keys : ∀ (paras : List Str) (i nid : Nat),
    (∀ k ∈ (rtwiGo i nid paras).2.map Prod.fst, nid ≤ k) ∧
    List.Pairwise (· < ·) ((rtwiGo i nid paras).2.map Prod.fst) := by
  intro paras
  induction paras with
  | nil =>
    intro i nid
    simp [rtwiGo]
  | cons p rest ih =>
    intro i nid
    rw [rtwiGo_cons_eq]
    by_cases hp : jsTrim (extractTextContent p) = []
    · rw [if_pos hp]
      exact ih (i + 1) nid
    · rw [if_neg hp]
      obtain ⟨hle, hkey, hpw⟩ := processPieces_keys (runSplit p).1 (runSplit p).2 nid
      obtain ⟨ihle, ihpw⟩ := ih (i + 1) (processPara nid p).2.2
      constructor
      · intro k hk
        dsimp only at hk
        rw [List.map_append, List.mem_append] at hk
        rcases hk with hk | hk
        · exact (hkey k hk).1
        · exact le_trans hle (ihle k hk)
      · dsimp only
        rw [List.map_append, List.pairwise_append]
        exact ⟨hpw, ihpw, fun a ha b hb => lt_of_lt_of_le (hkey a ha).2 (ihle b hb)⟩

/-- Every chunk built by `rtwiGo` has empty simplified text or the simplified
text of some call of `processPara`, all of whose emitted ids appear in the
final map. -/
theorem rtwiGo_chunks : ∀ (paras : List Str) (i nid : Nat),
    ∀ c ∈ (rtwiGo i nid paras).1,
    c.simplifiedText = [] ∨
    ∃ p ∈ paras, ∃ nid2, c.simplifiedText = (processPara nid2 p).1 ∧
      ∀ k ∈ (processPara nid2 p).2.1.map Prod.fst,
        k ∈ (rtwiGo i nid paras).2.map Prod.fst := by
  intro paras
  induction paras with
  | nil =>
    intro i nid c hc
    simp [rtwiGo] at hc
  | cons p rest ih =>
    intro i nid c hc
    rw [rtwiGo_cons_eq] at hc ⊢
    by_cases hp : jsTrim (extractTextContent p) = []
    · rw [if_pos hp] at hc ⊢
      rcases List.mem_cons.mp hc with rfl | hc2
      · exact Or.inl rfl
      · rcases ih (i + 1) nid c hc2 with h | ⟨q, hq, nid2, heq, hsub⟩
        · exact Or.inl h
        · exact Or.inr ⟨q, List.mem_cons_of_mem _ hq, nid2, heq, hsub⟩
    · rw [if_neg hp] at hc ⊢
      rcases List.mem_cons.mp hc with rfl | hc2
      · refine Or.inr ⟨p, List.mem_cons_self _ _, nid, rfl, ?_⟩
        intro k hk
        dsimp only
        rw [List.map_append, List.mem_append]
        exact Or.inl hk
      · rcases ih (i + 1) (processPara nid p).2.2 c hc2 with h | ⟨q, hq, nid2, heq, hsub⟩
        · exact Or.inl h
        · refine Or.inr ⟨q, List.mem_cons_of_mem _ hq, nid2, heq, ?_⟩
          intro k hk
          dsimp only
          rw [List.map_append, List.mem_append]
          exact Or.inr (hsub k hk)

/-- The simplified text of a `[`-free paragraph is a concatenation of
well-formed marker blocks whose ids are all emitted map keys. -/
theorem processPara_blocks (nid : Nat) (p : Str) (hp : allNe '[' p = true) :
    ∃ blocks : List MarkBlock, (processPara nid p).1 = flatBlocks blocks ∧
      ∀ b ∈ blocks, blockFree b = true ∧
        blockId b ∈ (processPara nid p).2.1.map Prod.fst := by
  apply processPieces_blocks
  intro t ht
  obtain ⟨u, len, husub, hmu⟩ := scanAllF_src runMatchAt _ p t ht
  exact allNe_sub (fun c hc => husub c (runMatchAt_sub hmu c hc)) hp

/-- C9 counterexample: a paragraph whose visible text is the literal string
`[TAG:9]` yields the simplified text `[TAG:1][RUN:2][TAG:9][/RUN:2][TAG:3]`,
whose marker scans reference id 9 — but the returned ID map has no entry 9. -/
theorem c9_counterexample :
    (replaceTagsWithIds [str "<w:p ><w:r><w:t>[TAG:9]</w:t></w:r></w:p>"]).1.map
        (fun c => c.simplifiedText)
      = [str "[TAG:1][RUN:2][TAG:9][/RUN:2][TAG:3]"] ∧
    9 ∈ referencedIds (str "[TAG:1][RUN:2][TAG:9][/RUN:2][TAG:3]") ∧
    mapGet (replaceTagsWithIds [str "<w:p ><w:r><w:t>[TAG:9]</w:t></w:r></w:p>"]).2 9
      = none := by
  decide

/-- C9 (amended): for every list of paragraph blocks — unconditionally — the
ids of the map returned by `replaceTagsWithIds` are allocated in strictly
increasing order across the whole document (hence no id names two fragments);
and, for paragraphs containing no `[` character, every id referenced by a
`[RUN:n]` or `[TAG:n]` marker of any chunk's simplified text has exactly one
entry in the map.  (Without the `[`-freeness proviso on the second part,
literal marker-shaped document text can reference absent ids, as
`c9_counterexample` shows.) -/
theorem c9_id_map_invariants (paras : List Str) :
    List.Pairwise (· < ·) ((replaceTagsWithIds paras).2.map Prod.fst) ∧
    ((∀ p ∈ paras, allNe '[' p = true) →
      ∀ c ∈ (replaceTagsWithIds paras).1, ∀ id ∈ referencedIds c.simplifiedText,
        ((replaceTagsWithIds paras).2.map Prod.fst).count id = 1) := by
  have hkeys := rtwiGo_keys paras 0 1
  have hnd : ((replaceTagsWithIds paras).2.map Prod.fst).Nodup :=
    List.Pairwise.imp (fun h => Nat.ne_of_lt h) hkeys.2
  refine ⟨hkeys.2, ?_⟩
  intro hfree c hc id hid
  rcases rtwiGo_chunks paras 0 1 c hc with h | ⟨p, hp, nid2, heq, hsub⟩
  · rw [h] at hid
    rw [show referencedIds [] = [] from rfl] at hid
    simp at hid
  · obtain ⟨blocks, hflat, hprops⟩ := processPara_blocks nid2 p (hfree p hp)
    rw [heq, hflat] at hid
    obtain ⟨b, hbmem, hbid⟩ :=
      referencedIds_sub blocks (fun b2 hb2 => (hprops b2 hb2).1) id hid
    have hkey : id ∈ (replaceTagsWithIds paras).2.map Prod.fst := by
      rw [← hbid]
      exact hsub _ (hprops b hbmem).2
    exact List.count_eq_one_of_mem hnd hkey

theorem c9_id_map_invariants_witness :
    List.Pairwise (· < ·)
      ((replaceTagsWithIds [str "<w:p ><w:r><w:t>hi</w:t></w:r></w:p>"]).2.map Prod.fst) ∧
    ∀ c ∈ (replaceTagsWithIds [str "<w:p ><w:r><w:t>hi</w:t></w:r></w:p>"]).1,
      ∀ id ∈ referencedIds c.simplifiedText,
      ((replaceTagsWithIds [str "<w:p ><w:r><w:t>hi</w:t></w:r></w:p>"]).2.map
          Prod.fst).count id = 1 :=
  ⟨(c9_id_map_invariants [str "<w:p ><w:r><w:t>hi</w:t></w:r></w:p>"]).1,
    (c9_id_map_invariants [str "<w:p ><w:r><w:t>hi</w:t></w:r></w:p>"]).2 (by decide)⟩

/-! ## The chunk/reconstruct round trip -/

/-- C1 counterexample: a document whose text holds the XML entity `&amp;`
does not survive the round trip — `escapeXml` re-escapes the already-escaped
ampersand, so the identity translation yields `a&amp;amp;b` in place of
`a&amp;b`. -/
theorem c1_counterexample :
    reconstructXml (str "<w:p ><w:r><w:t>a&amp;b</w:t></w:r></w:p>")
        (replaceTagsWithIds
          (chunkParagraphs (str "<w:p ><w:r><w:t>a&amp;b</w:t></w:r></w:p>"))).1
        (replaceTagsWithIds
          (chunkParagraphs (str "<w:p ><w:r><w:t>a&amp;b</w:t></w:r></w:p>"))).2
      = str "<w:p ><w:r><w:t>a&amp;amp;b</w:t></w:r></w:p>" ∧
    str "<w:p ><w:r><w:t>a&amp;amp;b</w:t></w:r></w:p>"
      ≠ str "<w:p ><w:r><w:t>a&amp;b</w:t></w:r></w:p>" := by
  decide

/-- `firstOcc` decomposes the scanned string at the occurrence it finds. -/
theorem firstOcc_decomp {p s : Str} {i : Nat} (h : firstOcc p s = some i) :
    s = s.take i ++ p ++ s.drop (i + p.length) := by
  induction s generalizing i with
  | nil =>
    rw [firstOcc] at h
    by_cases hp : p = []
    · subst hp
      rw [if_pos rfl] at h
      obtain rfl : (0 : Nat) = i := Option.some.inj h
      rfl
    · rw [if_neg hp] at h
      exact Option.noConfusion h
  | cons c cs ih =>
    rw [firstOcc] at h
    by_cases hp : isPre p (c :: cs) = true
    · rw [if_pos hp] at h
      obtain rfl : (0 : Nat) = i := Option.some.inj h
      obtain ⟨t, ht⟩ := isPre_exists hp
      rw [ht]
      simp only [List.take_zero, List.nil_append, Nat.zero_add]
      rw [drop_app]
    · rw [if_neg hp] at h
      obtain ⟨j, hj, hji⟩ := Option.map_eq_some'.mp h
      subst hji
      have hrec := ih hj
      rw [List.take_succ_cons, show j + 1 + p.length = (j + p.length) + 1 by omega,
        List.drop_succ_cons]
      rw [List.cons_append, List.cons_append]
      rw [← hrec]

/-- A pattern occurring in a string is found by `firstOcc`. -/
theorem firstOcc_some_of_occ (p : Str) : ∀ (u v : Str),
    ∃ i, firstOcc p (u ++ p ++ v) = some i := by
  intro u
  induction u with
  | nil =>
    intro v
    refine ⟨0, ?_⟩
    have : ([] : Str) ++ p ++ v = p ++ v := by simp
    rw [this]
    cases hp : p ++ v with
    | nil => rw [firstOcc, if_pos (by cases p <;> simp_all)]
    | cons c cs =>
      rw [firstOcc, if_pos ?_]
      rw [← hp]
      exact isPre_append _ _
  | cons c cs ih =>
    intro v
    obtain ⟨i, hi⟩ := ih v
    have hshape : (c :: cs) ++ p ++ v = c :: (cs ++ p ++ v) := by simp
    rw [hshape, firstOcc]
    by_cases hp : isPre p (c :: (cs ++ p ++ v)) = true
    · exact ⟨0, by rw [if_pos hp]⟩
    · refine ⟨i + 1, ?_⟩
      rw [if_neg hp, hi]
      rfl

theorem runMatchAt_pre {s : Str} {pr : Str × Nat} (h : runMatchAt s = some pr) :
    isPre (str "<w:r") s = true := by
  by_cases hp : isPre (str "<w:r") s = true
  · exact hp
  · rw [runMatchAt, if_neg (by simpa using hp)] at h
    exact Option.noConfusion h

theorem wtMatchAt_pre {s : Str} {pr : Str × Nat} (h : wtMatchAt s = some pr) :
    isPre (str "<w:t") s = true := by
  by_cases hp : isPre (str "<w:t") s = true
  · exact hp
  · rw [wtMatchAt, if_neg (by simpa using hp)] at h
    exact Option.noConfusion h

theorem paraMatchAt_pre {s : Str} {pr : Unit × Nat} (h : paraMatchAt s = some pr) :
    isPre (str "<w:p") s = true := by
  by_cases hp : isPre (str "<w:p") s = true
  · exact hp
  · rw [paraMatchAt, if_neg (by simpa using hp)] at h
    exact Option.noConfusion h

/-- A matcher that requires the prefix `p` fails at every offset inside a gap
holding no occurrence of `p` and no tail overlap with it. -/
theorem matcher_none_inside2 {α : Type} {p : Str} {m : Str → Option (α × Nat)}
    (hm : ∀ s pr, m s = some pr → isPre p s = true) (hp : p ≠ [])
    {g T : Str} (hA : firstOcc p g = none) (hT : noTailOverlap p g = true)
    {i : Nat} (hi : i < g.length) : m ((g ++ T).drop i) = none := by
  cases hmi : m ((g ++ T).drop i) with
  | none => rfl
  | some pr =>
    have h2 := hm _ _ hmi
    rw [not_isPre_drop_append hp hA hT hi] at h2
    exact Bool.noConfusion h2

theorem drop4_P (X : Str) : (str "<w:p" ++ X).drop 4 = X := drop_app (str "<w:p") X

theorem drop4_R (X : Str) : (str "<w:r" ++ X).drop 4 = X := drop_app (str "<w:r") X

theorem drop4_T (X : Str) : (str "<w:t" ++ X).drop 4 = X := drop_app (str "<w:t") X

theorem strGT : str ">" = ['>'] := rfl

/-- The paragraph matcher on a well-formed paragraph: `<w:p`, one
whitespace-or-`>` character, a body without `</w:p>`, the closer. -/
theorem paraMatchAt_at (c0 : Char) (body rest : Str) (hc0 : wsOrGt c0 = true)
    (hb1 : firstOcc (str "</w:p>") body = none)
    (hb2 : noTailOverlap (str "</w:p>") body = true) :
    paraMatchAt (str "<w:p" ++ (c0 :: (body ++ (str "</w:p>" ++ rest))))
      = some ((), 4 + 1 + body.length + 6) := by
  simp only [paraMatchAt, isPre_append, if_true, drop4_P]
  rw [if_pos hc0]
  have hocc : firstOcc (str "</w:p>") (body ++ (str "</w:p>" ++ rest))
      = some body.length := by
    rw [firstOcc_append (by decide) hb1 hb2, firstOcc_of_isPre (isPre_append _ _)]
    simp
  rw [hocc]

/-- The run matcher on a well-formed run: `<w:r`, a `>`-free attribute string
headed by a non-word character (or empty), `>`, an inner content without
`</w:r>`, the closer. -/
theorem runMatchAt_full (attrs inner rest : Str)
    (hgt : allNe '>' attrs = true)
    (hhd : ∀ c cs, attrs = c :: cs → isWordChar c = false)
    (hin1 : firstOcc (str "</w:r>") inner = none)
    (hin2 : noTailOverlap (str "</w:r>") inner = true) :
    runMatchAt (str "<w:r" ++ (attrs ++ ('>' :: (inner ++ (str "</w:r>" ++ rest)))))
      = some (inner, 4 + attrs.length + 1 + inner.length + 6) := by
  have hocc2 : firstOcc (str "</w:r>") (inner ++ (str "</w:r>" ++ rest))
      = some inner.length := by
    rw [firstOcc_append (by decide) hin1 hin2, firstOcc_of_isPre (isPre_append _ _)]
    simp
  cases attrs with
  | nil =>
    rw [show ([] : Str) ++ ('>' :: (inner ++ (str "</w:r>" ++ rest)))
      = '>' :: (inner ++ (str "</w:r>" ++ rest)) from rfl]
    simp only [runMatchAt, isPre_append, if_true, drop4_R]
    rw [if_neg (by decide)]
    have hocc1 : firstOcc (str ">") ('>' :: (inner ++ (str "</w:r>" ++ rest)))
        = some 0 := firstOcc_of_isPre (by simp [strGT, isPre])
    simp only [hocc1]
    have hdrop : (str "<w:r" ++ ('>' :: (inner ++ (str "</w:r>" ++ rest)))).drop (4 + 0 + 1)
        = inner ++ (str "</w:r>" ++ rest) := drop_app (str "<w:r>") _
    rw [hdrop, hocc2]
    simp [take_app]
  | cons a as =>
    have hW : isWordChar a = false := hhd a as rfl
    simp only [runMatchAt, isPre_append, if_true, drop4_R, List.cons_append]
    rw [if_neg (by simp [hW])]
    have hA : firstOcc (str ">") (a :: as) = none := by
      rw [strGT]
      exact firstOcc_none_of_allNe hgt
    have hT : noTailOverlap (str ">") (a :: as) = true := by
      rw [strGT]
      exact noTailOverlap_of_allNe hgt
    have hocc1 : firstOcc (str ">") (a :: (as ++ ('>' :: (inner ++ (str "</w:r>" ++ rest)))))
        = some (as.length + 1) := by
      rw [show a :: (as ++ ('>' :: (inner ++ (str "</w:r>" ++ rest))))
        = (a :: as) ++ ('>' :: (inner ++ (str "</w:r>" ++ rest))) from rfl]
      rw [firstOcc_append (by decide) hA hT, firstOcc_of_isPre (by simp [strGT, isPre])]
      simp
    simp only [hocc1]
    have hdrop : (str "<w:r" ++ (a :: (as ++ ('>' :: (inner ++ (str "</w:r>" ++ rest)))))).drop
        (4 + (as.length + 1) + 1) = inner ++ (str "</w:r>" ++ rest) := by
      rw [show str "<w:r" ++ (a :: (as ++ ('>' :: (inner ++ (str "</w:r>" ++ rest)))))
        = ((str "<w:r" ++ (a :: as)) ++ ['>']) ++ (inner ++ (str "</w:r>" ++ rest)) from by simp]
      rw [show 4 + (as.length + 1) + 1 = ((str "<w:r" ++ (a :: as)) ++ ['>']).length from by
        simp [show (str "<w:r").length = 4 from rfl]
        omega]
      exact drop_app _ _
    rw [hdrop, hocc2]
    simp [take_app]
    try omega

/-- The text matcher on a well-formed `<w:t>` element: optional
whitespace-headed `>`-free attributes, `<`-free text, the closer. -/
theorem wtMatchAt_at (wtAttrs txt rest : Str)
    (hattrs : wtAttrs = [] ∨
      ∃ a as, wtAttrs = a :: as ∧ jsWs a = true ∧ allNe '>' (a :: as) = true)
    (htxt : allNe '<' txt = true) :
    wtMatchAt (str "<w:t" ++ (wtAttrs ++ ('>' :: (txt ++ (str "</w:t>" ++ rest)))))
      = some (txt, 4 + wtAttrs.length + 1 + txt.length + 6) := by
  have htw : (txt ++ (str "</w:t>" ++ rest)).takeWhile (fun a => !decide (a = '<')) = txt := by
    rw [show str "</w:t>" ++ rest = '<' :: (str "/w:t>" ++ rest) from rfl]
    apply takeWhile_append_end
    · intro c hc
      simp only [Bool.not_eq_true', decide_eq_false_iff_not]
      intro he
      subst he
      exact absurd hc (allNe_not_mem htxt)
    · decide
  have hcl : (txt ++ (str "</w:t>" ++ rest)).drop txt.length = str "</w:t>" ++ rest :=
    drop_app _ _
  rcases hattrs with rfl | ⟨a, as, rfl, hws, hgt⟩
  · rw [show ([] : Str) ++ ('>' :: (txt ++ (str "</w:t>" ++ rest)))
      = '>' :: (txt ++ (str "</w:t>" ++ rest)) from rfl]
    simp only [wtMatchAt, isPre_append, if_true, drop4_T]
    have hdrop : (str "<w:t" ++ ('>' :: (txt ++ (str "</w:t>" ++ rest)))).drop 5
        = txt ++ (str "</w:t>" ++ rest) := drop_app (str "<w:t>") _
    simp [show jsWs '>' = false from rfl, hdrop, htw, hcl, isPre_append, -List.drop_drop]
  · simp only [wtMatchAt, isPre_append, if_true, drop4_T, List.cons_append]
    rw [if_pos hws]
    have hA : firstOcc (str ">") as = none := by
      rw [strGT]
      exact firstOcc_none_of_allNe (by
        simp only [allNe, List.all_cons, Bool.and_eq_true] at hgt
        simp [allNe, hgt.2])
    have hT : noTailOverlap (str ">") as = true := by
      rw [strGT]
      exact noTailOverlap_of_allNe (by
        simp only [allNe, List.all_cons, Bool.and_eq_true] at hgt
        simp [allNe, hgt.2])
    have hocc1 : firstOcc (str ">") (as ++ ('>' :: (txt ++ (str "</w:t>" ++ rest))))
        = some as.length := by
      rw [firstOcc_append (by decide) hA hT, firstOcc_of_isPre (by simp [strGT, isPre])]
      simp
    simp only [hocc1]
    have hdrop : (str "<w:t" ++ (a :: (as ++ ('>' :: (txt ++ (str "</w:t>" ++ rest)))))).drop
        (4 + 1 + as.length + 1) = txt ++ (str "</w:t>" ++ rest) := by
      rw [show str "<w:t" ++ (a :: (as ++ ('>' :: (txt ++ (str "</w:t>" ++ rest)))))
        = ((str "<w:t" ++ (a :: as)) ++ ['>']) ++ (txt ++ (str "</w:t>" ++ rest)) from by simp]
      rw [show 4 + 1 + as.length + 1 = ((str "<w:t" ++ (a :: as)) ++ ['>']).length from by
        simp [show (str "<w:t").length = 4 from rfl]
        omega]
      exact drop_app _ _
    simp [hdrop, htw, hcl, isPre_append, -List.drop_drop]
    try omega

/-! ## A structured document grammar for the round-trip theorem -/

/-- A run of a paragraph body as the run scan sees it: a text run holds one
`<w:t>` element between prefix and suffix content; an opaque run holds inner
content with no `<w:t>` match. -/
inductive RunE where
  | textRun (attrs pre wtAttrs txt post : Str)
  | opaqueRun (attrs inner : Str)
deriving DecidableEq, Repr

def runAttrs : RunE → Str
  | .textRun attrs _ _ _ _ => attrs
  | .opaqueRun attrs _ => attrs

/-- The run's inner content (capture group 1 of the run regex). -/
def runInner : RunE → Str
  | .textRun _ pre wtAttrs txt post =>
    pre ++ (str "<w:t" ++ (wtAttrs ++ ('>' :: (txt ++ (str "</w:t>" ++ post)))))
  | .opaqueRun _ inner => inner

/-- The full matched run string. -/
def printRun (r : RunE) : Str :=
  str "<w:r" ++ (runAttrs r ++ ('>' :: (runInner r ++ str "</w:r>")))

/-- Runs interleaved with their following gaps. -/
def flatRuns : List (RunE × Str) → Str
  | [] => []
  | (r, gap) :: rest => printRun r ++ (gap ++ flatRuns rest)

/-- A paragraph body: leading gap, then runs each followed by a gap. -/
def printBody (g : Str) (runs : List (RunE × Str)) : Str := g ++ flatRuns runs

/-- A paragraph: `<w:p`, one whitespace-or-`>` character, the body, the
closer. -/
structure ParaE where
  pchar : Char
  gap0 : Str
  runs : List (RunE × Str)
deriving DecidableEq, Repr

def printPara (p : ParaE) : Str :=
  str "<w:p" ++ (p.pchar :: (printBody p.gap0 p.runs ++ str "</w:p>"))

/-- A document: leading gap, then paragraphs each followed by a gap. -/
def printDoc : Str → List (ParaE × Str) → Str
  | g, [] => g
  | g, (p, gap) :: rest => g ++ (printPara p ++ printDoc gap rest)

/-- Text content safe for the round trip: none of the five characters
`escapeXml` rewrites, no `<` (the capture class), no `[` (marker scans), no
`$` (replacement substitution), no `\x7b` (placeholder search). -/
def wfText (txt : Str) : Bool :=
  allNe '<' txt && allNe '&' txt && allNe '>' txt && allNe '"' txt &&
    allNe (Char.ofNat 39) txt && allNe '[' txt && allNe '$' txt && allNe (Char.ofNat 123) txt

/-- Attributes of a run open tag: `\b` after `<w:r` and no `>` before the
close of the tag. -/
def wfRunAttrs : Str → Bool
  | [] => true
  | c :: cs => !isWordChar c && allNe '>' (c :: cs)

/-- Attributes of a `<w:t>` open tag: empty, or whitespace-headed and
`>`-free (the regex `(?:\s[^>]*)?`). -/
def wfWtAttrs : Str → Bool
  | [] => true
  | c :: cs => jsWs c && allNe '>' (c :: cs)

/-- A body gap: no run start or tail overlap with one (so the run scan skips
it), and empty whenever whitespace-only (a non-empty blank gap is dropped by
the chunker, as the round trip requires). -/
def wfBodyGap (g : Str) : Bool :=
  (firstOcc (str "<w:r") g == none) && noTailOverlap (str "<w:r") g &&
    (g.isEmpty || !(jsTrim g).isEmpty)

def wfRun : RunE → Bool
  | .textRun attrs pre wtAttrs txt post =>
    wfRunAttrs attrs && allNe '[' attrs &&
      (firstOcc (str "<w:t") pre == none) && noTailOverlap (str "<w:t") pre &&
      allNe '[' pre && wfWtAttrs wtAttrs && allNe '[' wtAttrs &&
      allNe (Char.ofNat 123) wtAttrs && wfText txt &&
      allNe '[' post &&
      (firstOcc (str "</w:r>") (runInner (.textRun attrs pre wtAttrs txt post)) == none) &&
      noTailOverlap (str "</w:r>") (runInner (.textRun attrs pre wtAttrs txt post))
  | .opaqueRun attrs inner =>
    wfRunAttrs attrs && (scanFirst wtMatchAt inner == none) &&
      (firstOcc (str "</w:r>") inner == none) && noTailOverlap (str "</w:r>") inner

def wfPara (p : ParaE) : Bool :=
  wsOrGt p.pchar &&
    (firstOcc (str "</w:p>") (printBody p.gap0 p.runs) == none) &&
    noTailOverlap (str "</w:p>") (printBody p.gap0 p.runs) &&
    wfBodyGap p.gap0 && p.runs.all (fun rg => wfRun rg.1 && wfBodyGap rg.2)

/-- A document gap: no paragraph start or tail overlap with one. -/
def wfDocGap (g : Str) : Bool :=
  (firstOcc (str "<w:p") g == none) && noTailOverlap (str "<w:p") g

def wfParas (paras : List (ParaE × Str)) : Bool :=
  paras.all (fun pg => wfPara pg.1 && wfDocGap pg.2)

/-- The expected run-scan pieces of a body. -/
def runPieces : Str → List (RunE × Str) → List (Str × Str × Str)
  | _, [] => []
  | g, (r, gap) :: rest => (g, runInner r, printRun r) :: runPieces gap rest

/-- The expected run-scan trailing gap of a body. -/
def runTrail : Str → List (RunE × Str) → Str
  | g, [] => g
  | _, (_, gap) :: rest => runTrail gap rest

theorem printRun_length (r : RunE) :
    (printRun r).length = 4 + (runAttrs r).length + 1 + (runInner r).length + 6 := by
  simp [printRun, show (str "<w:r").length = 4 from rfl, show (str "</w:r>").length = 6 from rfl]
  omega

theorem wfRunAttrs_gt {a : Str} (h : wfRunAttrs a = true) : allNe '>' a = true := by
  cases a with
  | nil => rfl
  | cons c cs =>
    simp only [wfRunAttrs, Bool.and_eq_true] at h
    exact h.2

theorem wfRunAttrs_hd {a : Str} (h : wfRunAttrs a = true) :
    ∀ c cs, a = c :: cs → isWordChar c = false := by
  intro c cs he
  subst he
  simp only [wfRunAttrs, Bool.and_eq_true, Bool.not_eq_true'] at h
  exact h.1

theorem wfRun_parts {r : RunE} (h : wfRun r = true) :
    wfRunAttrs (runAttrs r) = true ∧
    firstOcc (str "</w:r>") (runInner r) = none ∧
    noTailOverlap (str "</w:r>") (runInner r) = true := by
  cases r with
  | textRun attrs pre wtAttrs txt post =>
    simp only [wfRun, Bool.and_eq_true, beq_iff_eq, and_assoc] at h
    obtain ⟨h1, h2, h3, h4, h5, h6, h7, h8, h9, h10, h11, h12⟩ := h
    exact ⟨h1, h11, h12⟩
  | opaqueRun attrs inner =>
    simp only [wfRun, Bool.and_eq_true, beq_iff_eq, and_assoc] at h
    obtain ⟨h1, h2, h3, h4⟩ := h
    exact ⟨h1, h3, h4⟩

theorem runMatchAt_pos2 {s a : Str} {len : Nat}
    (h : runMatchAt s = some (a, len)) : 0 < len := by
  rw [runMatchAt] at h
  repeat'
    first
      | exact Option.noConfusion h
      | (obtain ⟨-, h2⟩ := Prod.mk.injEq .. ▸ Option.some.inj h
         omega)
      | dsimp only at h
      | split at h

theorem paraMatchAt_pos {s : Str} {a : Unit} {len : Nat}
    (h : paraMatchAt s = some (a, len)) : 0 < len := by
  rw [paraMatchAt] at h
  repeat'
    first
      | exact Option.noConfusion h
      | (obtain ⟨-, h2⟩ := Prod.mk.injEq .. ▸ Option.some.inj h
         omega)
      | dsimp only at h
      | split at h

theorem runMatchOk : MatcherOk runMatchAt :=
  ⟨rfl, fun _ _ _ h => runMatchAt_pos2 h⟩

theorem paraMatchOk : MatcherOk paraMatchAt :=
  ⟨rfl, fun _ _ _ h => paraMatchAt_pos h⟩

theorem bodyGap_opaque {g : Str} (h1 : firstOcc (str "<w:r") g = none)
    (h2 : noTailOverlap (str "<w:r") g = true) : opaqueFor runMatchAt g :=
  fun _ i hi =>
    matcher_none_inside2 (fun _ _ h => runMatchAt_pre h) (by decide) h1 h2 hi

theorem docGap_opaque {g : Str} (h1 : firstOcc (str "<w:p") g = none)
    (h2 : noTailOverlap (str "<w:p") g = true) : opaqueFor paraMatchAt g :=
  fun _ i hi =>
    matcher_none_inside2 (fun _ _ h => paraMatchAt_pre h) (by decide) h1 h2 hi

theorem wfBodyGap_opaque {g : Str} (h : wfBodyGap g = true) : opaqueFor runMatchAt g := by
  simp only [wfBodyGap, Bool.and_eq_true, beq_iff_eq, and_assoc] at h
  exact bodyGap_opaque h.1 h.2.1

theorem runMatchAt_none_of_not_pre {s : Str} (h : isPre (str "<w:r") s = false) :
    runMatchAt s = none := by
  rw [runMatchAt, if_neg (by simp [h])]

theorem wtMatchAt_none_of_not_pre {s : Str} (h : isPre (str "<w:t") s = false) :
    wtMatchAt s = none := by
  rw [wtMatchAt, if_neg (by simp [h])]

theorem wsOrGt_ne_lt {c : Char} (hc : wsOrGt c = true) : c ≠ '<' := by
  intro he
  subst he
  exact absurd hc (by decide)

/-- The paragraph open `<w:p` plus its `[\s>]` character is opaque for the
run scan. -/
theorem paraOpen_opaque_run (c : Char) (hc : wsOrGt c = true) :
    opaqueFor runMatchAt (str "<w:p" ++ [c]) := by
  intro T i hi
  have hi5 : i < 5 := by simpa using hi
  interval_cases i
  · exact runMatchAt_none_of_not_pre rfl
  · exact runMatchAt_none_of_not_pre rfl
  · exact runMatchAt_none_of_not_pre rfl
  · exact runMatchAt_none_of_not_pre rfl
  · apply runMatchAt_none_of_not_pre
    show (decide ('<' = c) && isPre (str "w:r") T) = false
    rw [decide_eq_false (fun h => wsOrGt_ne_lt hc h.symm)]
    rfl

theorem opaque_scanFirst_none {α : Type} {m : Str → Option (α × Nat)} {g : Str}
    (hg : opaqueFor m g) (hnil : m [] = none) : scanFirst m g = none := by
  apply scanFirst_none
  intro i hi
  by_cases hc : i < g.length
  · have h2 := hg [] i hc
    rw [List.append_nil] at h2
    exact h2
  · push_neg at hc
    rw [List.drop_eq_nil_of_le hc]
    exact hnil

/-- The run scan of a printed body (followed by any run-opaque tail, such as
the paragraph closer) finds exactly the runs, with the gaps between them and
the trailing gap extended by the tail. -/
theorem runScan_body : ∀ (runs : List (RunE × Str)) (g T : Str),
    (∀ rg ∈ runs, wfRun rg.1 = true ∧ wfBodyGap rg.2 = true) →
    opaqueFor runMatchAt g → opaqueFor runMatchAt T →
    scanAllF runMatchAt ((g ++ (flatRuns runs ++ T)).length + 1) (g ++ (flatRuns runs ++ T))
      = (runPieces g runs, runTrail g runs ++ T) := by
  intro runs
  induction runs with
  | nil =>
    intro g T hwf hg hT
    rw [flatRuns, List.nil_append]
    have hnone : scanFirst runMatchAt (g ++ T) = none :=
      opaque_scanFirst_none (opaqueFor_append hg hT) rfl
    rw [scanAllF_of_none _ hnone]
    rw [runPieces, runTrail]
  | cons rg rest ih =>
    obtain ⟨r, gap⟩ := rg
    intro g T hwf hg hT
    have hwfr : wfRun r = true := (hwf _ (List.mem_cons_self _ _)).1
    have hwfg : wfBodyGap gap = true := (hwf _ (List.mem_cons_self _ _)).2
    have hwf2 : ∀ rg2 ∈ rest, wfRun rg2.1 = true ∧ wfBodyGap rg2.2 = true :=
      fun rg2 h2 => hwf rg2 (List.mem_cons_of_mem _ h2)
    rw [show flatRuns ((r, gap) :: rest) ++ T
      = printRun r ++ (gap ++ (flatRuns rest ++ T)) from by rw [flatRuns]; simp]
    obtain ⟨ha, hc1, hc2⟩ := wfRun_parts hwfr
    have hM : runMatchAt (printRun r ++ (gap ++ (flatRuns rest ++ T)))
        = some (runInner r, (printRun r).length) := by
      have hshape : printRun r ++ (gap ++ (flatRuns rest ++ T))
          = str "<w:r" ++ (runAttrs r ++ ('>' :: (runInner r
              ++ (str "</w:r>" ++ (gap ++ (flatRuns rest ++ T)))))) := by
        simp [printRun]
      rw [hshape, printRun_length]
      exact runMatchAt_full (runAttrs r) (runInner r) (gap ++ (flatRuns rest ++ T))
        (wfRunAttrs_gt ha) (wfRunAttrs_hd ha) hc1 hc2
    have hGap : ∀ i, i < g.length →
        runMatchAt ((g ++ (printRun r ++ (gap ++ (flatRuns rest ++ T)))).drop i) = none :=
      fun i hi => hg _ i hi
    have hstep := @scanAllF_step _ _ runMatchOk g (printRun r)
      (gap ++ (flatRuns rest ++ T)) (runInner r) hGap hM
      ((g ++ (printRun r ++ (gap ++ (flatRuns rest ++ T)))).length + 1) (by omega)
    rw [hstep, ih gap T hwf2 ( wfBodyGap_opaque hwfg) hT]
    rw [runPieces, runTrail]

theorem printPara_length (p : ParaE) :
    (printPara p).length = 4 + 1 + (printBody p.gap0 p.runs).length + 6 := by
  simp [printPara, show (str "<w:p").length = 4 from rfl,
    show (str "</w:p>").length = 6 from rfl]
  omega

/-- The expected paragraph-scan pieces of a document. -/
def paraPieces : Str → List (ParaE × Str) → List (Str × Unit × Str)
  | _, [] => []
  | g, (p, gap) :: rest => (g, (), printPara p) :: paraPieces gap rest

/-- The expected paragraph-scan trailing gap. -/
def paraTrail : Str → List (ParaE × Str) → Str
  | g, [] => g
  | _, (_, gap) :: rest => paraTrail gap rest

/-- The paragraph scan of a printed document finds exactly the paragraphs. -/
theorem paraScan_doc : ∀ (paras : List (ParaE × Str)) (g : Str),
    wfParas paras = true → wfDocGap g = true →
    scanAllF paraMatchAt ((printDoc g paras).length + 1) (printDoc g paras)
      = (paraPieces g paras, paraTrail g paras) := by
  intro paras
  induction paras with
  | nil =>
    intro g hwf hg
    rw [printDoc]
    simp only [wfDocGap, Bool.and_eq_true, beq_iff_eq] at hg
    have hnone : scanFirst paraMatchAt g = none := by
      apply scanFirst_none
      intro i hi
      by_cases hc : i < g.length
      · have := docGap_opaque hg.1 hg.2 [] i hc
        simpa using this
      · push_neg at hc
        have he : g.drop i = [] := List.drop_eq_nil_of_le hc
        rw [he]
        rfl
    rw [scanAllF_of_none _ hnone]
    rw [paraPieces, paraTrail]
  | cons pg rest ih =>
    obtain ⟨p, gap⟩ := pg
    intro g hwf hg
    simp only [wfParas, List.all_cons, Bool.and_eq_true] at hwf
    obtain ⟨⟨hwfp, hwfgap⟩, hwfrest⟩ := hwf
    simp only [wfPara, Bool.and_eq_true, beq_iff_eq, and_assoc] at hwfp
    obtain ⟨hpc, hb1, hb2, hbg0, hruns⟩ := hwfp
    rw [printDoc]
    have hM : paraMatchAt (printPara p ++ printDoc gap rest)
        = some ((), (printPara p).length) := by
      have hshape : printPara p ++ printDoc gap rest
          = str "<w:p" ++ (p.pchar :: (printBody p.gap0 p.runs
              ++ (str "</w:p>" ++ printDoc gap rest))) := by
        simp [printPara]
      rw [hshape, printPara_length]
      exact paraMatchAt_at p.pchar (printBody p.gap0 p.runs) (printDoc gap rest)
        hpc hb1 hb2
    simp only [wfDocGap, Bool.and_eq_true, beq_iff_eq] at hg
    have hGap : ∀ i, i < g.length →
        paraMatchAt ((g ++ (printPara p ++ printDoc gap rest)).drop i) = none :=
      fun i hi => docGap_opaque hg.1 hg.2 _ i hi
    have hstep := @scanAllF_step _ _ paraMatchOk g (printPara p) (printDoc gap rest)
      (() : Unit) hGap hM
      ((g ++ (printPara p ++ printDoc gap rest)).length + 1) (by omega)
    rw [hstep, ih gap hwfrest hwfgap]
    rw [paraPieces, paraTrail]

theorem wfText_parts {txt : Str} (h : wfText txt = true) :
    allNe '<' txt = true ∧ allNe '&' txt = true ∧ allNe '>' txt = true ∧
    allNe '"' txt = true ∧ allNe (Char.ofNat 39) txt = true ∧ allNe '[' txt = true ∧
    allNe '$' txt = true ∧ allNe (Char.ofNat 123) txt = true := by
  simp only [wfText, Bool.and_eq_true, and_assoc] at h
  exact h

theorem wfWtAttrs_shape {a : Str} (h : wfWtAttrs a = true) :
    a = [] ∨ ∃ c cs, a = c :: cs ∧ jsWs c = true ∧ allNe '>' (c :: cs) = true := by
  cases a with
  | nil => exact Or.inl rfl
  | cons c cs =>
    simp only [wfWtAttrs, Bool.and_eq_true] at h
    exact Or.inr ⟨c, cs, rfl, h.1, h.2⟩

theorem wfWtAttrs_gt {a : Str} (h : wfWtAttrs a = true) : allNe '>' a = true := by
  cases a with
  | nil => rfl
  | cons c cs =>
    simp only [wfWtAttrs, Bool.and_eq_true] at h
    exact h.2

/-- `processRun` on a run with no `<w:t>` match stores the raw run. -/
theorem processRun_opaque (nid : Nat) (inner full : Str)
    (hsf : scanFirst wtMatchAt inner = none) :
    processRun nid inner full = (tagMarker nid, [(nid, .raw full)], nid + 1) := by
  rw [processRun, hsf]

/-- `processRun` on a well-formed text run: a paired marker around the text,
and a stored template whose placeholder stands for exactly the text, with the
run recoverable as `before ++ (tb ++ txt ++ ta) ++ after`. -/
theorem processRun_textRun (nid : Nat) (attrs pre wtAttrs txt post : Str)
    (hwf : wfRun (.textRun attrs pre wtAttrs txt post) = true) :
    ∃ before after,
      processRun nid (runInner (.textRun attrs pre wtAttrs txt post))
          (printRun (.textRun attrs pre wtAttrs txt post))
        = (runMarker nid txt,
           [(nid, .runTemplate before after
              (((str "<w:t" ++ wtAttrs) ++ ['>']) ++ placeholder ++ str "</w:t>"))],
           nid + 1) ∧
      before ++ (((str "<w:t" ++ wtAttrs) ++ ['>']) ++ txt ++ str "</w:t>") ++ after
        = printRun (.textRun attrs pre wtAttrs txt post) := by
  have hwf2 := hwf
  simp only [wfRun, Bool.and_eq_true, beq_iff_eq, and_assoc] at hwf2
  obtain ⟨h1, h2, h3, h4, h5, h6, h7, h8, h9, h10, h11, h12⟩ := hwf2
  obtain ⟨ht1, ht2, ht3, ht4, ht5, ht6, ht7, ht8⟩ := wfText_parts h9
  -- the matched <w:t> element and its length
  have hwt : wtMatchAt (str "<w:t" ++ (wtAttrs ++ ('>' :: (txt ++ (str "</w:t>" ++ post)))))
      = some (txt, 4 + wtAttrs.length + 1 + txt.length + 6) :=
    wtMatchAt_at wtAttrs txt post (wfWtAttrs_shape h6) ht1
  have hsf : scanFirst wtMatchAt
      (pre ++ (str "<w:t" ++ (wtAttrs ++ ('>' :: (txt ++ (str "</w:t>" ++ post))))))
      = some (pre.length, txt, 4 + wtAttrs.length + 1 + txt.length + 6) := by
    rw [scanFirst_append (fun i hi =>
      matcher_none_inside2 (fun _ _ h => wtMatchAt_pre h) (by decide) h3 h4 hi)]
    rw [scanFirst_some_of_m hwt]
    simp
  have hlenF : (((str "<w:t" ++ wtAttrs) ++ ['>']) ++ txt ++ str "</w:t>").length
      = 4 + wtAttrs.length + 1 + txt.length + 6 := by
    simp [show (str "<w:t").length = 4 from rfl, show (str "</w:t>").length = 6 from rfl]
    try omega
  have htFull : ((pre ++ (str "<w:t"
      ++ (wtAttrs ++ ('>' :: (txt ++ (str "</w:t>" ++ post)))))).drop pre.length).take
        (4 + wtAttrs.length + 1 + txt.length + 6)
      = ((str "<w:t" ++ wtAttrs) ++ ['>']) ++ txt ++ str "</w:t>" := by
    rw [drop_app]
    rw [show str "<w:t" ++ (wtAttrs ++ ('>' :: (txt ++ (str "</w:t>" ++ post))))
      = ((((str "<w:t" ++ wtAttrs) ++ ['>']) ++ txt ++ str "</w:t>")) ++ post from by simp]
    rw [← hlenF]
    exact take_app _ _
  -- the full run decomposes around any found occurrence of the element
  obtain ⟨idxV, hfo⟩ := firstOcc_some_of_occ
    (((str "<w:t" ++ wtAttrs) ++ ['>']) ++ txt ++ str "</w:t>")
    ((str "<w:r" ++ attrs) ++ ('>' :: pre)) (post ++ str "</w:r>")
  have hfullshape : printRun (.textRun attrs pre wtAttrs txt post)
      = ((str "<w:r" ++ attrs) ++ ('>' :: pre))
          ++ (((str "<w:t" ++ wtAttrs) ++ ['>']) ++ txt ++ str "</w:t>")
          ++ (post ++ str "</w:r>") := by
    simp [printRun, runInner, runAttrs]
  have hfo2 : firstOcc (((str "<w:t" ++ wtAttrs) ++ ['>']) ++ txt ++ str "</w:t>")
      (printRun (.textRun attrs pre wtAttrs txt post)) = some idxV := by
    rw [hfullshape]
    exact hfo
  -- open-tag end within the element
  have hcb : firstOcc (str ">") (((str "<w:t" ++ wtAttrs) ++ ['>']) ++ txt ++ str "</w:t>")
      = some (4 + wtAttrs.length) := by
    rw [show (((str "<w:t" ++ wtAttrs) ++ ['>']) ++ txt ++ str "</w:t>")
      = (str "<w:t" ++ wtAttrs) ++ ('>' :: (txt ++ str "</w:t>")) from by simp]
    have hA : firstOcc (str ">") (str "<w:t" ++ wtAttrs) = none := by
      rw [strGT]
      exact firstOcc_none_of_allNe (allNe_append (by decide) (wfWtAttrs_gt h6))
    have hT : noTailOverlap (str ">") (str "<w:t" ++ wtAttrs) = true := by
      rw [strGT]
      exact noTailOverlap_of_allNe (allNe_append (by decide) (wfWtAttrs_gt h6))
    rw [firstOcc_append (by decide) hA hT, firstOcc_of_isPre (by simp [strGT, isPre])]
    simp [show (str "<w:t").length = 4 from rfl]
    try omega
  have hdropcb : (((str "<w:t" ++ wtAttrs) ++ ['>']) ++ txt ++ str "</w:t>").drop
      (4 + wtAttrs.length + 1) = txt ++ str "</w:t>" := by
    rw [show (((str "<w:t" ++ wtAttrs) ++ ['>']) ++ txt ++ str "</w:t>")
      = ((str "<w:t" ++ wtAttrs) ++ ['>']) ++ (txt ++ str "</w:t>") from by simp]
    rw [show 4 + wtAttrs.length + 1 = ((str "<w:t" ++ wtAttrs) ++ ['>']).length from by
      simp [show (str "<w:t").length = 4 from rfl]
      try omega]
    exact drop_app _ _
  have hts : firstOcc txt (txt ++ str "</w:t>") = some 0 := by
    cases htc : txt ++ str "</w:t>" with
    | nil =>
      exact absurd (congrArg List.length htc) (by
        simp [show (str "</w:t>").length = 6 from rfl]
        try omega)
    | cons c cs =>
      rw [firstOcc, if_pos ?_]
      rw [← htc]
      exact isPre_append _ _
  have htake : (((str "<w:t" ++ wtAttrs) ++ ['>']) ++ txt ++ str "</w:t>").take
      (4 + wtAttrs.length + 1 + 0) = (str "<w:t" ++ wtAttrs) ++ ['>'] := by
    rw [show (((str "<w:t" ++ wtAttrs) ++ ['>']) ++ txt ++ str "</w:t>")
      = ((str "<w:t" ++ wtAttrs) ++ ['>']) ++ (txt ++ str "</w:t>") from by simp]
    rw [show 4 + wtAttrs.length + 1 + 0 = ((str "<w:t" ++ wtAttrs) ++ ['>']).length from by
      simp [show (str "<w:t").length = 4 from rfl]
      try omega]
    exact take_app _ _
  have hdropta : (((str "<w:t" ++ wtAttrs) ++ ['>']) ++ txt ++ str "</w:t>").drop
      (4 + wtAttrs.length + 1 + 0 + txt.length) = str "</w:t>" := by
    rw [show (((str "<w:t" ++ wtAttrs) ++ ['>']) ++ txt ++ str "</w:t>")
      = (((str "<w:t" ++ wtAttrs) ++ ['>']) ++ txt) ++ str "</w:t>" from by simp]
    rw [show 4 + wtAttrs.length + 1 + 0 + txt.length
      = (((str "<w:t" ++ wtAttrs) ++ ['>']) ++ txt).length from by
      simp [show (str "<w:t").length = 4 from rfl]
      try omega]
    exact drop_app _ _
  refine ⟨(printRun (.textRun attrs pre wtAttrs txt post)).take idxV,
    (printRun (.textRun attrs pre wtAttrs txt post)).drop
      (idxV + (4 + wtAttrs.length + 1 + txt.length + 6)), ?_, ?_⟩
  · show processRun nid
      (pre ++ (str "<w:t" ++ (wtAttrs ++ ('>' :: (txt ++ (str "</w:t>" ++ post))))))
      (printRun (.textRun attrs pre wtAttrs txt post)) = _
    rw [processRun, hsf]
    simp only [htFull, hfo2, hcb, Option.getD_some, hdropcb, hts, htake, hdropta]
    rw [hlenF]
  · have hdec := firstOcc_decomp hfo2
    rw [hlenF] at hdec
    exact hdec.symm

/-- A restore block of a simplified paragraph: an unpaired marker standing
for a raw fragment, or a paired marker standing for a templated text run. -/
inductive RBlock where
  | tagB (id : Nat) (frag : Str)
  | runB (id : Nat) (txt before after tb ta : Str)
deriving DecidableEq, Repr

def rblockMark : RBlock → Str
  | .tagB id _ => tagMarker id
  | .runB id txt _ _ _ _ => runMarker id txt

def rblockOut : RBlock → Str
  | .tagB _ frag => frag
  | .runB _ txt before after tb ta => before ++ (tb ++ txt ++ ta) ++ after

def rblockEntry : RBlock → Nat × StoredFrag
  | .tagB id frag => (id, .raw frag)
  | .runB id _ before after tb ta => (id, .runTemplate before after (tb ++ placeholder ++ ta))

def flatMarks (bs : List RBlock) : Str := (bs.map rblockMark).flatten

def flatOuts (bs : List RBlock) : Str := (bs.map rblockOut).flatten

/-- Restore-side conditions of one block. -/
def rblockWf : RBlock → Prop
  | .tagB _ _ => True
  | .runB _ txt before after tb ta =>
      wfText txt = true ∧
      firstOcc placeholder tb = none ∧ noTailOverlap placeholder tb = true ∧
      allNe '[' (before ++ (tb ++ txt ++ ta) ++ after) = true

theorem flatMarks_nil : flatMarks [] = [] := rfl

theorem flatMarks_cons (b : RBlock) (bs : List RBlock) :
    flatMarks (b :: bs) = rblockMark b ++ flatMarks bs := by
  simp [flatMarks]

theorem flatOuts_nil : flatOuts [] = [] := rfl

theorem flatOuts_cons (b : RBlock) (bs : List RBlock) :
    flatOuts (b :: bs) = rblockOut b ++ flatOuts bs := by
  simp [flatOuts]

theorem jsTrim_eq_nil_iff {s : Str} : jsTrim s = [] ↔ ∀ c ∈ s, jsWs c = true := by
  constructor
  · intro h c hc
    have h1 : ((s.dropWhile jsWs).reverse.dropWhile jsWs).reverse = [] := h
    have h2 : (s.dropWhile jsWs).reverse.dropWhile jsWs = [] := by
      simpa using congrArg List.reverse h1
    have h3 : ∀ d ∈ (s.dropWhile jsWs).reverse, jsWs d = true :=
      List.dropWhile_eq_nil_iff.mp h2
    have h4 : ∀ d ∈ s.dropWhile jsWs, jsWs d = true :=
      fun d hd => h3 d (List.mem_reverse.mpr hd)
    have h5 : s = s.takeWhile jsWs ++ s.dropWhile jsWs := (List.takeWhile_append_dropWhile _ _).symm
    rw [h5] at hc
    rcases List.mem_append.mp hc with hc2 | hc2
    · exact List.mem_takeWhile_imp hc2
    · exact h4 c hc2
  · intro h
    have h2 : s.dropWhile jsWs = [] := List.dropWhile_eq_nil_iff.mpr h
    rw [jsTrim, h2]
    rfl

theorem jsTrim_append_ne {a b : Str} (hb : jsTrim b ≠ []) : jsTrim (a ++ b) ≠ [] := by
  intro h
  apply hb
  rw [jsTrim_eq_nil_iff] at h ⊢
  exact fun c hc => h c (List.mem_append_right a hc)

theorem jsTrim_ne_of_mem {s : Str} {c : Char} (hc : c ∈ s) (hw : jsWs c = false) :
    jsTrim s ≠ [] := by
  intro h
  rw [jsTrim_eq_nil_iff] at h
  rw [h c hc] at hw
  exact Bool.noConfusion hw

theorem allNe_cons {x c : Char} {s : Str} (hc : ¬ c = x) (hs : allNe x s = true) :
    allNe x (c :: s) = true := by
  simp [allNe] at hs ⊢
  exact ⟨hc, hs⟩

theorem printRun_textRun_free (attrs pre wtAttrs txt post : Str)
    (h2 : allNe '[' attrs = true) (h5 : allNe '[' pre = true)
    (h7 : allNe '[' wtAttrs = true) (ht6 : allNe '[' txt = true)
    (h10 : allNe '[' post = true) :
    allNe '[' (printRun (.textRun attrs pre wtAttrs txt post)) = true := by
  simp only [printRun, runInner, runAttrs]
  refine allNe_append (by decide) (allNe_append h2 (allNe_cons (by decide) ?_))
  refine allNe_append (allNe_append h5 (allNe_append (by decide)
    (allNe_append h7 (allNe_cons (by decide) (allNe_append ht6
      (allNe_append (by decide) h10)))))) (by decide)

theorem placeholder_head : placeholder = Char.ofNat 123 :: (str "\x7bTEXT\x7d\x7d") := rfl

theorem tb_placeholder_free {wtAttrs : Str} (h8 : allNe (Char.ofNat 123) wtAttrs = true) :
    firstOcc placeholder ((str "<w:t" ++ wtAttrs) ++ ['>']) = none ∧
    noTailOverlap placeholder ((str "<w:t" ++ wtAttrs) ++ ['>']) = true := by
  have hfree : allNe (Char.ofNat 123) ((str "<w:t" ++ wtAttrs) ++ ['>']) = true :=
    allNe_append (allNe_append (by decide) h8) (by decide)
  rw [placeholder_head]
  exact ⟨firstOcc_none_of_allNe hfree, noTailOverlap_of_allNe hfree⟩

theorem wfBodyGap_blank {g : Str} (h : wfBodyGap g = true) : g = [] ∨ jsTrim g ≠ [] := by
  simp only [wfBodyGap, Bool.and_eq_true, Bool.or_eq_true] at h
  rcases h.2 with h2 | h2
  · exact Or.inl (List.isEmpty_iff.mp h2)
  · right
    intro hc
    rw [hc] at h2
    exact Bool.noConfusion h2

/-- `processRun` on a well-formed run yields exactly one restore block. -/
theorem processRun_blocks (r : RunE) (nid : Nat) (hr : wfRun r = true) :
    ∃ b : RBlock,
      processRun nid (runInner r) (printRun r)
        = (rblockMark b, [rblockEntry b], nid + 1) ∧
      rblockWf b ∧ rblockOut b = printRun r := by
  cases r with
  | opaqueRun attrs inner =>
    simp only [wfRun, Bool.and_eq_true, beq_iff_eq, and_assoc] at hr
    refine ⟨.tagB nid (printRun (.opaqueRun attrs inner)), ?_, trivial, rfl⟩
    exact processRun_opaque nid inner (printRun (.opaqueRun attrs inner)) hr.2.1
  | textRun attrs pre wtAttrs txt post =>
    obtain ⟨before, after, heq, hout⟩ := processRun_textRun nid attrs pre wtAttrs txt post hr
    have hr2 := hr
    simp only [wfRun, Bool.and_eq_true, beq_iff_eq, and_assoc] at hr2
    obtain ⟨h1, h2, h3, h4, h5, h6, h7, h8, h9, h10, h11, h12⟩ := hr2
    obtain ⟨hph1, hph2⟩ := tb_placeholder_free h8
    obtain ⟨ht1, ht2, ht3, ht4, ht5, ht6, ht7, ht8⟩ := wfText_parts h9
    refine ⟨.runB nid txt before after ((str "<w:t" ++ wtAttrs) ++ ['>']) (str "</w:t>"),
      heq, ⟨h9, hph1, hph2, ?_⟩, hout⟩
    show allNe '[' (before
      ++ (((str "<w:t" ++ wtAttrs) ++ ['>']) ++ txt ++ str "</w:t>") ++ after) = true
    rw [hout]
    exact printRun_textRun_free attrs pre wtAttrs txt post h2 h5 h7 ht6 h10

/-- `processPieces` over the run pieces of a well-formed body produces a list
of restore blocks: consecutive fresh entries, markers concatenated in order,
and outputs that reassemble the body followed by the trailing text. -/
theorem processPieces_runPieces :
    ∀ (runs : List (RunE × Str)) (g : Str) (nid : Nat) (TR : Str),
      (∀ rg ∈ runs, wfRun rg.1 = true ∧ wfBodyGap rg.2 = true) →
      (g = [] ∨ jsTrim g ≠ []) →
      jsTrim TR ≠ [] →
      ∃ blocks : List RBlock,
        processPieces nid (runPieces g runs) (runTrail g runs ++ TR)
          = (flatMarks blocks, blocks.map rblockEntry, nid + blocks.length) ∧
        (∀ b ∈ blocks, rblockWf b) ∧
        flatOuts blocks = g ++ (flatRuns runs ++ TR) := by
  intro runs
  induction runs with
  | nil =>
    intro g nid TR _ _ hTR
    refine ⟨[.tagB nid (g ++ TR)], ?_, ?_, ?_⟩
    · rw [show runPieces g [] = [] from rfl, show runTrail g [] = g from rfl]
      simp only [processPieces]
      rw [if_neg (jsTrim_append_ne hTR)]
      simp [flatMarks, rblockMark, rblockEntry]
    · intro b hb
      rw [List.mem_singleton] at hb
      subst hb
      trivial
    · simp [flatOuts, rblockOut, flatRuns]
  | cons rg rest ih =>
    intro g nid TR hruns hg hTR
    obtain ⟨r, gap⟩ := rg
    have hr := (hruns (r, gap) (List.mem_cons_self _ _)).1
    have hbg := (hruns (r, gap) (List.mem_cons_self _ _)).2
    have hrest : ∀ x ∈ rest, wfRun x.1 = true ∧ wfBodyGap x.2 = true :=
      fun x hx => hruns x (List.mem_cons_of_mem _ hx)
    have hgap := wfBodyGap_blank hbg
    rw [show runPieces g ((r, gap) :: rest)
          = (g, runInner r, printRun r) :: runPieces gap rest from rfl,
        show runTrail g ((r, gap) :: rest) = runTrail gap rest from rfl]
    rcases hg with hg0 | hg0
    · subst hg0
      obtain ⟨b0, hpr, hbwf, hbout⟩ := processRun_blocks r nid hr
      obtain ⟨blocks, hrec, hrwf, hrout⟩ := ih gap (nid + 1) TR hrest hgap hTR
      refine ⟨b0 :: blocks, ?_, ?_, ?_⟩
      · rw [processPieces_cons_eq, if_pos (show jsTrim ([] : Str) = [] from rfl), hpr]
        dsimp only
        rw [hrec]
        simp only [flatMarks_cons, List.map_cons, List.length_cons, Prod.mk.injEq]
        refine ⟨by simp, by simp, by omega⟩
      · intro b hb
        rcases List.mem_cons.mp hb with h | h
        · subst h; exact hbwf
        · exact hrwf b h
      · rw [flatOuts_cons, hbout, hrout]
        simp [flatRuns]
    · obtain ⟨b0, hpr, hbwf, hbout⟩ := processRun_blocks r (nid + 1) hr
      obtain ⟨blocks, hrec, hrwf, hrout⟩ := ih gap (nid + 2) TR hrest hgap hTR
      refine ⟨.tagB nid g :: b0 :: blocks, ?_, ?_, ?_⟩
      · rw [processPieces_cons_eq, if_neg hg0, hpr]
        dsimp only
        rw [hrec]
        simp only [flatMarks_cons, List.map_cons, List.length_cons, Prod.mk.injEq]
        refine ⟨by simp [rblockMark], by simp [rblockEntry], by omega⟩
      · intro b hb
        rcases List.mem_cons.mp hb with h | h
        · subst h; trivial
        · rcases List.mem_cons.mp h with h2 | h2
          · subst h2; exact hbwf
          · exact hrwf b h2
      · rw [flatOuts_cons, flatOuts_cons, hbout, hrout]
        simp [flatRuns, rblockOut]

theorem allNe_of_cons {x c : Char} {s : Str} (h : allNe x (c :: s) = true) :
    allNe x s = true := by
  simp only [allNe, List.all_cons, Bool.and_eq_true] at h
  exact h.2

theorem ne_of_mem_allNe {x c : Char} {s : Str} (h : allNe x s = true) (hc : c ∈ s) :
    c ≠ x := by
  simp only [allNe, List.all_eq_true, Bool.not_eq_eq_eq_not, Bool.not_true,
    decide_eq_false_iff_not] at h
  exact h c hc

theorem escChar_id {c : Char} (h1 : c ≠ '&') (h2 : c ≠ '<') (h3 : c ≠ '>')
    (h4 : c ≠ '"') (h5 : c ≠ Char.ofNat 39) : escChar c = [c] := by
  simp [escChar, h1, h2, h3, h4, h5]

/-- On text free of the five metacharacters, `escapeXml` is the identity. -/
theorem escapeXml_id {txt : Str} (h : wfText txt = true) : escapeXml txt = txt := by
  obtain ⟨ht1, ht2, ht3, ht4, ht5, -, -, -⟩ := wfText_parts h
  clear h
  rw [escapeXml_flat]
  induction txt with
  | nil => rfl
  | cons c cs ih =>
    rw [List.flatMap_cons]
    rw [escChar_id (ne_of_mem_allNe ht2 (List.mem_cons_self _ _))
      (ne_of_mem_allNe ht1 (List.mem_cons_self _ _))
      (ne_of_mem_allNe ht3 (List.mem_cons_self _ _))
      (ne_of_mem_allNe ht4 (List.mem_cons_self _ _))
      (ne_of_mem_allNe ht5 (List.mem_cons_self _ _))]
    rw [ih (allNe_of_cons ht1) (allNe_of_cons ht2) (allNe_of_cons ht3)
      (allNe_of_cons ht4) (allNe_of_cons ht5)]
    rfl

theorem noDollarPair_of_allNe {s : Str} (h : allNe '$' s = true) :
    noDollarPair s = true := by
  induction s with
  | nil => rfl
  | cons c r ih =>
    cases r with
    | nil => rfl
    | cons d r2 =>
      have hc : c ≠ '$' := ne_of_mem_allNe h (List.mem_cons_self _ _)
      have ht := allNe_of_cons h
      simp only [noDollarPair, Bool.and_eq_true, Bool.not_eq_eq_eq_not, Bool.not_true,
        Bool.and_eq_false_iff]
      exact ⟨Or.inl (by simp [hc]), ih ht⟩

/-- `Map.get` finds a present entry when the keys are distinct. -/
theorem mapGet_of_mem : ∀ {m : IdTagMap} {id : Nat} {f : StoredFrag},
    (m.map Prod.fst).Nodup → (id, f) ∈ m → mapGet m id = some f := by
  intro m
  induction m with
  | nil =>
    intro id f _ hmem
    exact absurd hmem (List.not_mem_nil _)
  | cons e rest ih =>
    intro id f hnd hmem
    simp only [List.map_cons, List.nodup_cons] at hnd
    rcases List.mem_cons.mp hmem with he | he
    · subst he
      simp [mapGet, List.find?]
    · by_cases hid : e.1 = id
      · exfalso
        apply hnd.1
        rw [hid]
        exact List.mem_map_of_mem Prod.fst he
      · have hbeq : (e.1 == id) = false := by simp [hid]
        have hr : mapGet rest id = some f := ih hnd.2 he
        rw [mapGet, List.find?, hbeq]
        exact hr

/-- Conditions on one block relative to the global ID map, under which both
restore passes reproduce the block's output. -/
def rblockOk (m : IdTagMap) : RBlock → Prop
  | .tagB id frag => mapGet m id = some (.raw frag)
  | .runB id txt before after tb ta =>
      mapGet m id = some (.runTemplate before after (tb ++ placeholder ++ ta)) ∧
      wfText txt = true ∧
      firstOcc placeholder tb = none ∧ noTailOverlap placeholder tb = true ∧
      allNe '[' (before ++ (tb ++ txt ++ ta) ++ after) = true

/-- Output of the first restore pass on one block. -/
def pass1Out : RBlock → Str
  | .tagB id _ => tagMarker id
  | .runB _ txt before after tb ta => before ++ (tb ++ txt ++ ta) ++ after

def flatP1 (bs : List RBlock) : Str := (bs.map pass1Out).flatten

theorem flatP1_cons (b : RBlock) (bs : List RBlock) :
    flatP1 (b :: bs) = pass1Out b ++ flatP1 bs := by
  simp [flatP1]

/-- Pass 1 (paired markers): every `[RUN:id]txt[/RUN:id]` is replaced by its
filled template, `[TAG:id]` markers ride through untouched. -/
theorem pass1_blocks (m : IdTagMap) :
    ∀ bs : List RBlock, (∀ b ∈ bs, rblockOk m b) →
    rebuild (runMarkRepl m)
        (scanAllF runMarkAt ((flatMarks bs).length + 1) (flatMarks bs))
      = flatP1 bs := by
  intro bs
  induction bs with
  | nil =>
    intro _
    rw [scanAllF_of_none _ (show scanFirst runMarkAt (flatMarks []) = none from rfl),
      rebuild_nil]
    rfl
  | cons b rest ih =>
    intro hok
    have hbok := hok b (List.mem_cons_self _ _)
    have hrec := ih (fun x hx => hok x (List.mem_cons_of_mem _ hx))
    cases b with
    | tagB id frag =>
      rw [flatMarks_cons, flatP1_cons]
      simp only [rblockMark, pass1Out]
      rw [rebuild_scan_prepend runMarkOk (runMarkRepl m)
        (fun i hi => runMarkAt_none_inTag id (flatMarks rest) hi) (Nat.lt_succ_self _)]
      rw [hrec]
    | runB id txt before after tb ta =>
      obtain ⟨hmap, hwf, htb1, htb2, hfree⟩ := hbok
      obtain ⟨-, -, -, -, -, ht6, ht7, -⟩ := wfText_parts hwf
      rw [flatMarks_cons, flatP1_cons]
      simp only [rblockMark, pass1Out]
      rw [rebuild_scan_match runMarkOk (runMarkRepl m)
        (runMarkAt_at id txt (flatMarks rest) ht6) (Nat.lt_succ_self _)]
      rw [hrec]
      simp only [runMarkRepl, digitsToNat_natDigits, hmap]
      rw [escapeXml_id hwf, jsReplaceOnce_template htb1 htb2 (noDollarPair_of_allNe ht7)]

/-- Pass 2 (unpaired markers): every `[TAG:id]` is replaced by its stored raw
fragment, restored runs (being `[`-free) ride through untouched. -/
theorem pass2_blocks (m : IdTagMap) :
    ∀ bs : List RBlock, (∀ b ∈ bs, rblockOk m b) →
    rebuild (tagMarkRepl m)
        (scanAllF tagMarkAt ((flatP1 bs).length + 1) (flatP1 bs))
      = flatOuts bs := by
  intro bs
  induction bs with
  | nil =>
    intro _
    rw [scanAllF_of_none _ (show scanFirst tagMarkAt (flatP1 []) = none from rfl),
      rebuild_nil]
    rfl
  | cons b rest ih =>
    intro hok
    have hbok := hok b (List.mem_cons_self _ _)
    have hrec := ih (fun x hx => hok x (List.mem_cons_of_mem _ hx))
    cases b with
    | tagB id frag =>
      have hmap : mapGet m id = some (.raw frag) := hbok
      rw [flatP1_cons, flatOuts_cons]
      simp only [pass1Out, rblockOut]
      rw [rebuild_scan_match tagMarkOk (tagMarkRepl m)
        (tagMarkAt_at id (flatP1 rest)) (Nat.lt_succ_self _)]
      rw [hrec]
      simp only [tagMarkRepl, digitsToNat_natDigits, hmap, fragStored]
    | runB id txt before after tb ta =>
      obtain ⟨-, -, -, -, hfree⟩ := hbok
      rw [flatP1_cons, flatOuts_cons]
      simp only [pass1Out, rblockOut]
      rw [rebuild_scan_prepend tagMarkOk (tagMarkRepl m)
        (fun i hi => matcher_none_inside (fun s pr h => tagMarkAt_head h) hfree hi)
        (Nat.lt_succ_self _)]
      rw [hrec]

/-- Full restore of a block list: `restoreParagraphXml` on the concatenated
markers yields the concatenated outputs. -/
theorem restore_blocks (m : IdTagMap) (bs : List RBlock)
    (h : ∀ b ∈ bs, rblockOk m b) :
    restoreParagraphXml (flatMarks bs) m = flatOuts bs := by
  simp only [restoreParagraphXml]
  rw [pass1_blocks m bs h]
  exact pass2_blocks m bs h

theorem rblockOk_of_wf {m : IdTagMap} {b : RBlock} (hwf : rblockWf b)
    (hmap : mapGet m (rblockEntry b).1 = some (rblockEntry b).2) : rblockOk m b := by
  cases b with
  | tagB id frag => exact hmap
  | runB id txt before after tb ta =>
    exact ⟨hmap, hwf.1, hwf.2.1, hwf.2.2.1, hwf.2.2.2⟩

/-- `replaceTagsWithIds` on one printed well-formed paragraph: the simplified
text is a sequence of markers whose entries restore to the paragraph. -/
theorem processPara_printPara (nid : Nat) (q : ParaE) (hwf : wfPara q = true) :
    ∃ blocks : List RBlock,
      processPara nid (printPara q)
        = (flatMarks blocks, blocks.map rblockEntry, nid + blocks.length) ∧
      (∀ b ∈ blocks, rblockWf b) ∧
      flatOuts blocks = printPara q := by
  simp only [wfPara, Bool.and_eq_true, and_assoc, List.all_eq_true] at hwf
  obtain ⟨hc, hb1, hb2, hg0, hruns⟩ := hwf
  have hruns2 : ∀ rg ∈ q.runs, wfRun rg.1 = true ∧ wfBodyGap rg.2 = true := by
    intro rg hrg
    have h := hruns rg hrg
    simpa [Bool.and_eq_true] using h
  have hshape : printPara q
      = ((str "<w:p" ++ [q.pchar]) ++ q.gap0) ++ (flatRuns q.runs ++ str "</w:p>") := by
    simp [printPara, printBody]
  have hG : opaqueFor runMatchAt ((str "<w:p" ++ [q.pchar]) ++ q.gap0) :=
    opaqueFor_append (paraOpen_opaque_run q.pchar hc) ( wfBodyGap_opaque hg0)
  have hT : opaqueFor runMatchAt (str "</w:p>") := bodyGap_opaque (by decide) (by decide)
  have hsplit : runSplit (printPara q)
      = (runPieces ((str "<w:p" ++ [q.pchar]) ++ q.gap0) q.runs,
         runTrail ((str "<w:p" ++ [q.pchar]) ++ q.gap0) q.runs ++ str "</w:p>") := by
    rw [runSplit, hshape]
    exact runScan_body q.runs ((str "<w:p" ++ [q.pchar]) ++ q.gap0) (str "</w:p>")
      hruns2 hG hT
  have hGor : ((str "<w:p" ++ [q.pchar]) ++ q.gap0) = [] ∨
      jsTrim ((str "<w:p" ++ [q.pchar]) ++ q.gap0) ≠ [] :=
    Or.inr (@jsTrim_ne_of_mem ((str "<w:p" ++ [q.pchar]) ++ q.gap0) '<'
      (List.mem_append_left _ (List.mem_append_left _ (by decide))) (by decide))
  have hTne : jsTrim (str "</w:p>") ≠ [] := by decide
  obtain ⟨blocks, hpp, hbwf, hbout⟩ := processPieces_runPieces q.runs
    ((str "<w:p" ++ [q.pchar]) ++ q.gap0) nid (str "</w:p>") hruns2 hGor hTne
  refine ⟨blocks, ?_, hbwf, ?_⟩
  · rw [processPara, hsplit]
    exact hpp
  · rw [hbout, ← hshape]

theorem find?_unique {α : Type} (p : α → Bool) :
    ∀ (l : List α) (c : α), c ∈ l → p c = true →
      (∀ d ∈ l, p d = true → d = c) → l.find? p = some c := by
  intro l
  induction l with
  | nil =>
    intro c hc _ _
    exact absurd hc (List.not_mem_nil _)
  | cons d rest ih =>
    intro c hc hpc huniq
    by_cases hd : p d = true
    · rw [List.find?_cons_of_pos _ hd, huniq d (List.mem_cons_self _ _) hd]
    · rw [List.find?_cons_of_neg _ hd]
      rcases List.mem_cons.mp hc with he | he
      · subst he
        exact absurd hpc hd
      · exact ih c he hpc (fun e hel hpe => huniq e (List.mem_cons_of_mem _ hel) hpe)

/-- No translated chunk carries the index: the rebuild keeps the original. -/
theorem translatedByIndex_none {tcs : List ParagraphChunk} {k : Nat}
    (h : ∀ c ∈ tcs, c.hasText = true → c.index ≠ k) :
    translatedByIndex tcs k = none := by
  rw [translatedByIndex]
  rw [List.find?_eq_none.mpr ?hnone]
  · rfl
  case hnone =>
    intro x hx
    rw [List.mem_reverse, List.mem_filter] at hx
    simp only [beq_iff_eq]
    exact h x hx.1 hx.2

/-- The unique translated chunk with the index is returned. -/
theorem translatedByIndex_some {tcs : List ParagraphChunk} {k : Nat} {c : ParagraphChunk}
    (hc : c ∈ tcs) (hht : c.hasText = true) (hidx : c.index = k)
    (huniq : ∀ d ∈ tcs, d.index = k → d = c) :
    translatedByIndex tcs k = some c.simplifiedText := by
  rw [translatedByIndex]
  rw [find?_unique _ _ c ?hmem ?hp ?hu]
  · rfl
  case hmem =>
    rw [List.mem_reverse, List.mem_filter]
    exact ⟨hc, hht⟩
  case hp => simp [hidx]
  case hu =>
    intro d hd hpd
    rw [List.mem_reverse, List.mem_filter] at hd
    exact huniq d hd.1 (by simpa using hpd)

/-- `rtwiGo` over a list of printed well-formed paragraphs: one chunk per
paragraph, indices consecutive, and every translated chunk is a marker
sequence whose entries (all present in the global map) restore to its
paragraph. -/
theorem rtwiGo_restore : ∀ (qs : List ParaE) (i nid : Nat),
    (∀ q ∈ qs, wfPara q = true) →
    (rtwiGo i nid (qs.map printPara)).1.length = qs.length ∧
    ∀ j (hj : j < qs.length),
      ∃ c, (rtwiGo i nid (qs.map printPara)).1.get? j = some c ∧ c.index = i + j ∧
        (c.hasText = false ∨
         ∃ blocks : List RBlock,
            c.hasText = true ∧
            c.simplifiedText = flatMarks blocks ∧
            (∀ b ∈ blocks, rblockWf b ∧
              rblockEntry b ∈ (rtwiGo i nid (qs.map printPara)).2) ∧
            flatOuts blocks = printPara (qs.get ⟨j, hj⟩)) := by
  intro qs
  induction qs with
  | nil =>
    intro i nid _
    refine ⟨rfl, ?_⟩
    intro j hj
    exact absurd hj (by simp)
  | cons q rest ih =>
    intro i nid hwf
    have hq := hwf q (List.mem_cons_self _ _)
    have hrest : ∀ x ∈ rest, wfPara x = true :=
      fun x hx => hwf x (List.mem_cons_of_mem _ hx)
    simp only [List.map_cons]
    rw [rtwiGo_cons_eq]
    by_cases hblank : jsTrim (extractTextContent (printPara q)) = []
    · rw [if_pos hblank]
      obtain ⟨ihlen, ihspec⟩ := ih (i + 1) nid hrest
      constructor
      · simp [ihlen]
      · intro j hj
        cases j with
        | zero => exact ⟨_, rfl, by simp, Or.inl rfl⟩
        | succ j2 =>
          obtain ⟨c, hget, hidx, hcase⟩ := ihspec j2 (by simpa using hj)
          refine ⟨c, by simpa using hget, by omega, ?_⟩
          rcases hcase with h | ⟨blocks, h0, h1, h2, h3⟩
          · exact Or.inl h
          · exact Or.inr ⟨blocks, h0, h1, h2, by simpa using h3⟩
    · rw [if_neg hblank]
      obtain ⟨blocks0, hpp, hwf0, hout0⟩ := processPara_printPara nid q hq
      obtain ⟨ihlen, ihspec⟩ := ih (i + 1) (processPara nid (printPara q)).2.2 hrest
      constructor
      · simp [ihlen]
      · intro j hj
        cases j with
        | zero =>
          refine ⟨_, rfl, by simp, Or.inr ⟨blocks0, rfl, ?_, ?_, ?_⟩⟩
          · show (processPara nid (printPara q)).1 = flatMarks blocks0
            rw [hpp]
          · intro b hb
            refine ⟨(hwf0 b hb), ?_⟩
            dsimp only
            apply List.mem_append_left
            rw [hpp]
            exact List.mem_map_of_mem rblockEntry hb
          · simpa using hout0
        | succ j2 =>
          obtain ⟨c, hget, hidx, hcase⟩ := ihspec j2 (by simpa using hj)
          refine ⟨c, by simpa using hget, by omega, ?_⟩
          rcases hcase with h | ⟨blocks, h0, h1, h2, h3⟩
          · exact Or.inl h
          · refine Or.inr ⟨blocks, h0, h1, ?_, by simpa using h3⟩
            intro b hb
            refine ⟨(h2 b hb).1, ?_⟩
            dsimp only
            exact List.mem_append_right _ (h2 b hb).2

theorem wfParas_parts {paras : List (ParaE × Str)} (h : wfParas paras = true) :
    ∀ pg ∈ paras, wfPara pg.1 = true ∧ wfDocGap pg.2 = true := by
  simp only [wfParas, List.all_eq_true, Bool.and_eq_true] at h
  exact h

theorem paraPieces_strs : ∀ (paras : List (ParaE × Str)) (g : Str),
    (paraPieces g paras).map (fun t => t.2.2) = (paras.map Prod.fst).map printPara := by
  intro paras
  induction paras with
  | nil =>
    intro g
    rfl
  | cons pg rest ih =>
    intro g
    obtain ⟨p, gap⟩ := pg
    simp only [paraPieces, List.map_cons]
    rw [ih gap]

/-- The paragraph rebuild over the printed pieces: every paragraph slot either
keeps its original (no translated chunk) or restores a block list to exactly
its paragraph. -/
theorem rebuildParas_doc (tcs : List ParagraphChunk) (m : IdTagMap) :
    ∀ (paras : List (ParaE × Str)) (g : Str) (k : Nat),
    (∀ j (hj : j < paras.length),
       translatedByIndex tcs (k + j) = none ∨
       ∃ blocks : List RBlock,
         translatedByIndex tcs (k + j) = some (flatMarks blocks) ∧
         (∀ b ∈ blocks, rblockOk m b) ∧
         flatOuts blocks = printPara ((paras.get ⟨j, hj⟩).1)) →
    rebuildParas tcs m k (paraPieces g paras) ++ paraTrail g paras = printDoc g paras := by
  intro paras
  induction paras with
  | nil =>
    intro g k _
    rfl
  | cons pg rest ih =>
    intro g k h
    obtain ⟨p, gap⟩ := pg
    have hshift : ∀ j (hj : j < rest.length),
        translatedByIndex tcs (k + 1 + j) = none ∨
        ∃ blocks : List RBlock,
          translatedByIndex tcs (k + 1 + j) = some (flatMarks blocks) ∧
          (∀ b ∈ blocks, rblockOk m b) ∧
          flatOuts blocks = printPara ((rest.get ⟨j, hj⟩).1) := by
      intro j hj
      have h2 := h (j + 1) (by simpa using hj)
      rw [show k + (j + 1) = k + 1 + j from by omega] at h2
      simpa using h2
    have hrec := ih gap (k + 1) hshift
    have h0 := h 0 (by simp)
    rw [Nat.add_zero] at h0
    rw [show paraPieces g ((p, gap) :: rest) = (g, (), printPara p) :: paraPieces gap rest
        from rfl,
      show paraTrail g ((p, gap) :: rest) = paraTrail gap rest from rfl,
      show printDoc g ((p, gap) :: rest) = g ++ (printPara p ++ printDoc gap rest) from rfl]
    rcases h0 with hnone | ⟨blocks, hsome, hok, hout⟩
    · simp only [rebuildParas, hnone]
      rw [← hrec]
      simp
    · simp only [rebuildParas, hsome]
      rw [restore_blocks m blocks hok, hout]
      rw [← hrec]
      simp

/-- C1 (amended): the round trip
`reconstructXml doc (replaceTagsWithIds (chunkParagraphs doc)) …` with the
chunks unmodified (identity translation) returns `doc` byte-for-byte for every
document generated by the well-formed grammar `printDoc`: paragraphs
`<w:p│[\s>]…</w:p>` whose bodies are runs `<w:r…>…</w:r>` separated by gaps,
text runs holding one `<w:t>` element whose text avoids the XML
metacharacters `& < > " '` (which `escapeXml` would rewrite on the way back),
`[`, `$` and `\x7b` (marker, `$`-substitution and placeholder collisions),
gaps that are either empty or non-blank (a whitespace-only non-empty gap is
dropped by the chunker), and the scan-disjointness conditions of the source
regexes.  The unrestricted claim is refuted by `c1_counterexample`
(entity re-escaping: `a&amp;b` comes back as `a&amp;amp;b`). -/
theorem c1_round_trip (g : Str) (paras : List (ParaE × Str))
    (hwf : wfParas paras = true) (hg : wfDocGap g = true) :
    reconstructXml (printDoc g paras)
        (replaceTagsWithIds (chunkParagraphs (printDoc g paras))).1
        (replaceTagsWithIds (chunkParagraphs (printDoc g paras))).2
      = printDoc g paras := by
  have hps : paraSplit (printDoc g paras) = (paraPieces g paras, paraTrail g paras) := by
    rw [paraSplit]
    exact paraScan_doc paras g hwf hg
  have hcp : chunkParagraphs (printDoc g paras)
      = (paras.map Prod.fst).map printPara := by
    rw [chunkParagraphs, hps]
    exact paraPieces_strs paras g
  have hqwf : ∀ q ∈ paras.map Prod.fst, wfPara q = true := by
    intro q hq
    obtain ⟨pg, hpg, rfl⟩ := List.mem_map.mp hq
    exact (wfParas_parts hwf pg hpg).1
  obtain ⟨hlen, hspec⟩ := rtwiGo_restore (paras.map Prod.fst) 0 1 hqwf
  have hnd : ((rtwiGo 0 1 ((paras.map Prod.fst).map printPara)).2.map Prod.fst).Nodup :=
    ((rtwiGo_keys ((paras.map Prod.fst).map printPara) 0 1).2).imp
      (fun hab => Nat.ne_of_lt hab)
  have hqlen : (paras.map Prod.fst).length = paras.length := List.length_map _ _
  have huniq : ∀ j, j < (paras.map Prod.fst).length →
      ∀ c, (rtwiGo 0 1 ((paras.map Prod.fst).map printPara)).1.get? j = some c →
      ∀ d ∈ (rtwiGo 0 1 ((paras.map Prod.fst).map printPara)).1, d.index = j → d = c := by
    intro j hj c hget d hd hdidx
    obtain ⟨n, hn⟩ := List.get?_of_mem hd
    have hnlen : n < (rtwiGo 0 1 ((paras.map Prod.fst).map printPara)).1.length := by
      by_contra hc2
      push_neg at hc2
      rw [List.get?_eq_none.mpr hc2] at hn
      exact Option.noConfusion hn
    rw [hlen] at hnlen
    obtain ⟨c2, hget2, hidx2, -⟩ := hspec n hnlen
    rw [hget2] at hn
    have hdc2 : c2 = d := Option.some.inj hn
    have hnj : n = j := by
      rw [← hdc2] at hdidx
      omega
    subst hnj
    rw [hget] at hget2
    rw [← hdc2]
    exact (Option.some.inj hget2).symm
  have hcases : ∀ j (hj : j < paras.length),
      translatedByIndex (rtwiGo 0 1 ((paras.map Prod.fst).map printPara)).1 (0 + j)
          = none ∨
      ∃ blocks : List RBlock,
        translatedByIndex (rtwiGo 0 1 ((paras.map Prod.fst).map printPara)).1 (0 + j)
          = some (flatMarks blocks) ∧
        (∀ b ∈ blocks, rblockOk (rtwiGo 0 1 ((paras.map Prod.fst).map printPara)).2 b) ∧
        flatOuts blocks = printPara ((paras.get ⟨j, hj⟩).1) := by
    intro j hj
    have hjq : j < (paras.map Prod.fst).length := by
      rw [hqlen]
      exact hj
    obtain ⟨c, hget, hidx, hcase⟩ := hspec j hjq
    have hmemc := List.get?_mem hget
    rw [Nat.zero_add] at hidx
    rw [Nat.zero_add]
    rcases hcase with hfalse | ⟨blocks, htrue, hst, hbl, hout⟩
    · left
      apply translatedByIndex_none
      intro d hd hdt
      intro hdidx
      have hdc := huniq j hjq c hget d hd hdidx
      rw [hdc, hfalse] at hdt
      exact Bool.noConfusion hdt
    · right
      refine ⟨blocks, ?_, ?_, ?_⟩
      · rw [← hst]
        exact translatedByIndex_some hmemc htrue hidx (huniq j hjq c hget)
      · intro b hb
        refine rblockOk_of_wf (hbl b hb).1 ?_
        apply mapGet_of_mem hnd
        have hmem2 := (hbl b hb).2
        exact Prod.mk.eta.symm ▸ hmem2
      · rw [hout]
        congr 1
        simp
  rw [hcp, replaceTagsWithIds, reconstructXml, hps]
  exact rebuildParas_doc _ _ paras g 0 hcases

/-- C1 witness: a concrete well-formed document (leading gap `HEAD`, one
paragraph holding one text run with text `Hi`, trailing gap `X`) satisfies the
grammar conditions and round-trips exactly. -/
theorem c1_round_trip_witness :
    wfParas [(⟨' ', [], [(.textRun [] [] [] (str "Hi") [], [])]⟩, str "X")] = true ∧
    wfDocGap (str "HEAD") = true ∧
    reconstructXml
        (printDoc (str "HEAD") [(⟨' ', [], [(.textRun [] [] [] (str "Hi") [], [])]⟩, str "X")])
        (replaceTagsWithIds (chunkParagraphs (printDoc (str "HEAD")
          [(⟨' ', [], [(.textRun [] [] [] (str "Hi") [], [])]⟩, str "X")]))).1
        (replaceTagsWithIds (chunkParagraphs (printDoc (str "HEAD")
          [(⟨' ', [], [(.textRun [] [] [] (str "Hi") [], [])]⟩, str "X")]))).2
      = printDoc (str "HEAD") [(⟨' ', [], [(.textRun [] [] [] (str "Hi") [], [])]⟩, str "X")] :=
  ⟨by decide, by decide,
    c1_round_trip (str "HEAD") [(⟨' ', [], [(.textRun [] [] [] (str "Hi") [], [])]⟩, str "X")]
      (by decide) (by decide)⟩

end DocxTr
